import Mathlib

/-! pkg_install: the matching core of `lib/match.c`.

A shallow embedding of `csh_match`, `rex_match` and `pattern_match`, and of
the query of installed packages around them: `storecreate`, `storeappend`,
`matchinstalled` and `matchallbyorigin`.

Conventions.

* A C string that is only read (`const char *`) is the list of its characters
  before the terminating NUL; reading the terminator is reading past the end
  of the list (`none`).
* A pointer into a string is an index into that list; `NULL` is `none`.
* `pattern_match` writes into its `pattern` argument, so there the argument is
  a buffer: the list of its bytes, with the terminator implied at the end, and
  a NUL written into it is a `'\x00'` element.
* An `int` that holds a pointer difference goes through `toInt32`; the brace
  level, which stays within the length of the pattern, is an integer.
* libc and the rest of the package tools (`fnmatch`, `regcomp`/`regexec`,
  `version_cmp`) are parameters.
* The instrumented results carry, next to the C return value, the calls made to
  those parameters, in order.
-/

namespace PkgInstall

/-! ## Constants of the system headers (FreeBSD) -/

/-- Value of `FNM_NOMATCH` in `<fnmatch.h>`. -/
def FNM_NOMATCH : Int := 1

/-- Value of `FILENAME_MAX` in `<stdio.h>`. -/
def FILENAME_MAX : Nat := 1024

/-- Value of `PATH_MAX` in `<sys/syslimits.h>`. -/
def PATH_MAX : Nat := 1024

/-- Value of `REG_NOMATCH` in `<regex.h>`. -/
def REG_NOMATCH : Int := 1

/-- Value of `REG_BASIC` in `<regex.h>`. -/
def REG_BASIC : Nat := 0

/-- Value of `REG_EXTENDED` in `<regex.h>`. -/
def REG_EXTENDED : Nat := 1

/-- Value of `REG_NOSUB` in `<regex.h>`. -/
def REG_NOSUB : Nat := 4

/-- Conversion of a pointer difference to `int` (two's complement, 32 bits). -/
def toInt32 (x : Int) : Int := (x + 2147483648) % 4294967296 - 2147483648

/-- The text printed by `%.*s` for precision `n`: a negative precision is
taken as if it were omitted. -/
def precTake (n : Int) (s : List Char) : List Char :=
  if n < 0 then s else s.take n.toNat

/-! ## csh_match -/

/-- The type of `fnmatch(3)`: pattern, string, flags. -/
abbrev Fnmatch : Type := List Char → List Char → Int → Int

/-- Result of `csh_match`: the return value and the patterns handed to
`fnmatch`, in call order. -/
abbrev CshResult : Type := Int × List (List Char)

/-- The local variables of `csh_match`. -/
structure CshState where
  pos : Nat
  postfx : Option Nat
  quoted : Bool
  nextchoice : Option Nat
  current : Option Nat
  prefixlen : Int
  currentlen : Int
  level : Int
deriving DecidableEq, Repr

/-- The number of increments made by `while (*eb && *eb != ']') eb++` on the
string `eb` points into. -/
def bracketRun : List Char → Nat
  | [] => 0
  | c :: s => if c = ']' then 0 else bracketRun s + 1

/-- The `case '['` arm: the index `pos` is moved to the closing bracket when
there is one, and left alone otherwise. -/
def cshBracket (pattern : List Char) (pos : Nat) : Nat :=
  let eb := pos + 1
  let eb := if pattern[eb]? = some '!' ∨ pattern[eb]? = some '^' then eb + 1 else eb
  let eb := if pattern[eb]? = some ']' then eb + 1 else eb
  let eb := eb + bracketRun (pattern.drop eb)
  if pattern[eb]? = none then pos else eb

/-- The `switch (*pos)` of the inner loop, on the character `c` read at `pos`. -/
def cshSwitch (pattern : List Char) (c : Char) (st : CshState) : CshState :=
  if c = '{' then
    if st.level + 1 = 1 then
      { st with level := st.level + 1, current := some (st.pos + 1),
                prefixlen := toInt32 (st.pos : Int) }
    else { st with level := st.level + 1 }
  else if c = ',' then
    if st.level = 1 ∧ st.nextchoice = none then
      { st with nextchoice := some (st.pos + 1),
                currentlen := toInt32 ((st.pos : Int) - ((st.current.getD 0 : Nat) : Int)) }
    else st
  else if c = '}' then
    if st.level = 1 then
      { st with postfx := some (st.pos + 1),
                currentlen :=
                  if st.nextchoice = none then
                    toInt32 ((st.pos : Int) - ((st.current.getD 0 : Nat) : Int))
                  else st.currentlen,
                level := st.level - 1 }
    else { st with level := st.level - 1 }
  else if c = '[' then { st with pos := cshBracket pattern st.pos }
  else if c = '\\' then { st with quoted := true }
  else st

/-- The body of the inner `do ... while (!postfx)` loop before `pos++`. -/
def cshBody (pattern : List Char) (st : CshState) : CshState :=
  match pattern[st.pos]? with
  | none => { st with postfx := some st.pos }
  | some c =>
    if st.quoted then { st with quoted := false }
    else cshSwitch pattern c st

/-- One pass through the body of the inner `do ... while (!postfx)` loop,
`pos++` included. -/
def cshStep (pattern : List Char) (st : CshState) : CshState :=
  { cshBody pattern st with pos := (cshBody pattern st).pos + 1 }

/-- The inner `do ... while (!postfx)` loop, bounded by a step count. -/
def cshScan (pattern : List Char) : Nat → CshState → Option CshState
  | 0, _ => none
  | n + 1, st =>
    let st1 := cshStep pattern st
    if st1.postfx.isSome then some st1 else cshScan pattern n st1

/-- The pattern written by
`snprintf(buf, sizeof(buf), "%.*s%.*s%s", prefixlen, pattern, currentlen, current, postfx)`,
where `postfx` is the variable the source calls postfix. -/
def cshBuf (pattern : List Char) (st : CshState) (cur pf : Nat) : List Char :=
  (precTake st.prefixlen pattern ++ precTake st.currentlen (pattern.drop cur)
    ++ pattern.drop pf).take (FILENAME_MAX - 1)

/-- The variables on entry to a pass of the outer loop that scans from `nc`. -/
def cshEnter (v : CshState) (nc : Nat) : CshState :=
  { v with pos := nc, postfx := none, quoted := false, nextchoice := none }

/-- The outer `do ... while (current)` loop, bounded by a pass count; `call`
is the recursive call of `csh_match` on the rebuilt pattern. -/
def cshLoop (call : List Char → Option CshResult) (fnmatch : Fnmatch)
    (pattern string : List Char) (flags : Int) : Nat → CshState → Option CshResult
  | 0, _ => none
  | n + 1, v =>
    match v.nextchoice with
    | none => none
    | some nc =>
      match cshScan pattern (pattern.length + 1) (cshEnter v nc) with
      | none => none
      | some st =>
        match st.current with
        | none => some (fnmatch pattern string flags, [pattern])
        | some cur =>
          match st.postfx with
          | none => none
          | some pf =>
            match call (cshBuf pattern st cur pf) with
            | none => none
            | some r =>
              if r.1 ≠ 0 then
                match st.nextchoice with
                | none => some r
                | some _ =>
                  match cshLoop call fnmatch pattern string flags n
                      { st with current := st.nextchoice, level := 1 } with
                  | none => none
                  | some r2 => some (r2.1, r.2 ++ r2.2)
              else some r

/-- The variables of `csh_match` on entry. -/
def cshInit : CshState :=
  { pos := 0, postfx := none, quoted := false, nextchoice := some 0, current := none,
    prefixlen := -1, currentlen := 0, level := 0 }

/-- The function `csh_match`, bounded by a recursion depth. -/
def csh_match_fuel (fnmatch : Fnmatch) : Nat → List Char → List Char → Int → Option CshResult
  | 0, _, _, _ => none
  | d + 1, pattern, string, flags =>
    cshLoop (fun buf => csh_match_fuel fnmatch d buf string flags) fnmatch pattern string flags
      (pattern.length + 1) cshInit

/-- The function `csh_match`: every rebuilt pattern is shorter than the one it
is built from, so a depth of `strlen(pattern) + 1` is never used up
(`csh_match_fuel_total`). -/
def csh_match (fnmatch : Fnmatch) (pattern string : List Char) (flags : Int) : Option CshResult :=
  csh_match_fuel fnmatch (pattern.length + 1) pattern string flags

/-! ## A reference `fnmatch` for examples -/

/-- A reference matcher for the glob operators `*` (any run) and `?` (any one
character); every other character stands for itself. -/
def globMatch : List Char → List Char → Bool
  | [], s => s.isEmpty
  | c :: p, s =>
    if c = '*' then s.tails.any (fun t => globMatch p t)
    else match s with
      | [] => false
      | d :: s1 => (c = '?' ∨ c = d) && globMatch p s1

/-- The reference matcher with the interface of `fnmatch(3)`. -/
def fnmatchRef : Fnmatch := fun pattern string _ =>
  if globMatch pattern string then 0 else FNM_NOMATCH

/-! ## rex_match -/

/-- The regex engine of libc: `regcomp` gives the error code of compiling a
pattern under the given flags, `regexec` the error code of running the
pattern so compiled on a string. -/
structure RegexEngine where
  regcomp : List Char → Nat → Int
  regexec : List Char → Nat → List Char → Int

/-- The function `rex_match`. -/
def rex_match (re : RegexEngine) (pattern pkgname : List Char) (extended : Int) : Int :=
  let cflags := (if extended ≠ 0 then REG_EXTENDED else REG_BASIC) ||| REG_NOSUB
  let errcode := re.regcomp pattern cflags
  let errcode := if errcode = 0 then re.regexec pattern cflags pkgname else errcode
  if errcode = 0 then 1
  else if errcode ≠ REG_NOMATCH then -1
  else 0

/-! ## pattern_match -/

/-- The match kinds named in `match.c`. -/
inductive legacy_match_t where
  | LEGACY_MATCH_ALL
  | LEGACY_MATCH_EXACT
  | LEGACY_MATCH_GLOB
  | LEGACY_MATCH_NGLOB
  | LEGACY_MATCH_EREGEX
  | LEGACY_MATCH_REGEX
deriving DecidableEq, Repr

/-- The byte at index `i` of a buffer; the terminator is implied at its end. -/
def peek (buf : List Char) (i : Nat) : Char := buf.getD i '\x00'

/-- The C string held by a list of bytes: the bytes before the first NUL. -/
def cstrOf : List Char → List Char
  | [] => []
  | c :: s => if c = '\x00' then [] else c :: cstrOf s

/-- The C string that starts at index `i` of a buffer. -/
def cstr (buf : List Char) (i : Nat) : List Char := cstrOf (buf.drop i)

/-- Offset of the first byte of `set` in the C string held by a list of bytes. -/
def strpbrkFrom (set : List Char) : List Char → Option Nat
  | [] => none
  | c :: s =>
    if c = '\x00' then none
    else if c ∈ set then some 0
    else (strpbrkFrom set s).map (fun k => k + 1)

/-- The call `strpbrk(buf + i, set)`, as an index into `buf`. -/
def strpbrk (buf : List Char) (i : Nat) (set : List Char) : Option Nat :=
  (strpbrkFrom set (buf.drop i)).map (fun k => i + k)

/-- The call `strrchr(s, c)` for a character `c` other than NUL, as an index. -/
def strrchr : List Char → Char → Option Nat
  | [], _ => none
  | d :: s, c =>
    match strrchr s c with
    | some k => some (k + 1)
    | none => if d = c then some 0 else none

/-- The string left in `dst` by `strlcpy(dst, src, size)` for `size > 0`. -/
def strlcpy (src : List Char) (size : Nat) : List Char := src.take (size - 1)

/-- The type of `version_cmp`: two package identifiers to -1, 0 or 1. -/
abbrev VersionCmp : Type := List Char → List Char → Int

/-- Result of `pattern_match`: the return value, the pattern buffer on return,
the strings `pattern` and `fname` as they stand at the `switch` over the match
kind, and the version literals handed to `version_cmp`, in call order. -/
structure PMResult where
  ret : Int
  pattern : List Char
  basePattern : List Char
  fname : List Char
  compared : List (List Char)
deriving DecidableEq, Repr

/-- The `switch (MatchType)` of `pattern_match`; `none` only when `csh_match`
gives no result. -/
def pattern_base (fnmatch : Fnmatch) (re : RegexEngine) (MatchType : legacy_match_t)
    (pattern fname : List Char) : Option Int :=
  match MatchType with
  | .LEGACY_MATCH_EREGEX => some (rex_match re pattern fname 1)
  | .LEGACY_MATCH_REGEX => some (rex_match re pattern fname 0)
  | .LEGACY_MATCH_NGLOB | .LEGACY_MATCH_GLOB =>
    (csh_match fnmatch pattern fname 0).map (fun r => if r.1 = 0 then 1 else 0)
  | .LEGACY_MATCH_EXACT => some (if pattern = fname then 1 else 0)
  | .LEGACY_MATCH_ALL => some 1

/-- The bits of `match` after the `switch (condchar)`, from the bits `m` it
holds before. -/
def condBits (condchar : Char) (m : Nat) : Nat :=
  if condchar = '<' then m ||| 1
  else if condchar = '>' then m ||| 4
  else if condchar = '=' then m ||| 2
  else if condchar = '!' then 5
  else m

/-- The test `(match & (1 << (version_cmp(pkgname, condition) + 1))) == 0`. -/
def condRejects (m : Nat) (cmp : Int) : Bool :=
  m &&& (1 <<< (cmp + 1).toNat) = 0

/-- The `while (condition)` loop of `pattern_match`, bounded by a pass count.
`base` and `fname` are only carried into the result. -/
def condLoop (version_cmp : VersionCmp) (pkgname base fname : List Char) :
    Nat → List Char → Nat → Char → Int → List (List Char) → Option PMResult
  | 0, _, _, _, _, _ => none
  | n + 1, buf, condition, condchar, errcode, compared =>
    let buf := buf.set condition condchar
    if errcode = 1 then
      let eq : Bool := decide (peek buf (condition + 1) = '=')
      let m0 : Nat := if eq then 2 else 0
      let condition := if eq then condition + 2 else condition + 1
      let m := condBits condchar m0
      let nextcondition := strpbrk buf condition ['<', '>', '=', '!']
      let condchar := match nextcondition with
        | some j => peek buf j
        | none => condchar
      let buf := match nextcondition with
        | some j => buf.set j '\x00'
        | none => buf
      let literal := cstr buf condition
      let errcode := if condRejects m (version_cmp pkgname literal) then 0 else errcode
      match nextcondition with
      | none => some { ret := errcode, pattern := buf, basePattern := base, fname := fname,
                       compared := compared ++ [literal] }
      | some j => condLoop version_cmp pkgname base fname n buf j condchar errcode
                    (compared ++ [literal])
    else some { ret := errcode, pattern := buf, basePattern := base, fname := fname,
                compared := compared }

/-- The string `fname` at the `switch` when the pattern has a condition: the
copy `basefname` of the name up to its last hyphen, or `pkgname` itself. -/
def pattern_fname (pkgname : List Char) : List Char :=
  match strrchr pkgname '-' with
  | none => pkgname
  | some ch => if ch < PATH_MAX then strlcpy pkgname (ch + 1) else pkgname

/-- The function `pattern_match`. -/
def pattern_match (version_cmp : VersionCmp) (fnmatch : Fnmatch) (re : RegexEngine)
    (MatchType : legacy_match_t) (pattern pkgname : List Char) : Option PMResult :=
  match strpbrk pattern 0 ['<', '>', '='] with
  | none =>
    match pattern_base fnmatch re MatchType (cstr pattern 0) pkgname with
    | none => none
    | some errcode =>
      some { ret := errcode, pattern := pattern, basePattern := cstr pattern 0,
             fname := pkgname, compared := [] }
  | some c0 =>
    let condition := if 0 < c0 ∧ peek pattern (c0 - 1) = '!' then c0 - 1 else c0
    let condchar := peek pattern condition
    let buf := pattern.set condition '\x00'
    let fname := pattern_fname pkgname
    match pattern_base fnmatch re MatchType (cstr buf 0) fname with
    | none => none
    | some errcode =>
      condLoop version_cmp pkgname (cstr buf 0) fname (pattern.length + 1) buf condition
        condchar errcode []

/-- The string `pattern` as the `switch (MatchType)` of `pattern_match` reads
it, from the argument alone: the buffer up to the NUL written where the
condition starts (at the first of `<`, `>`, `=`, or at the `!` right before
it), and the whole pattern when there is no condition. -/
def pattern_switch_pattern (pattern : List Char) : List Char :=
  match strpbrk pattern 0 ['<', '>', '='] with
  | none => cstr pattern 0
  | some c0 =>
    cstr (pattern.set (if 0 < c0 ∧ peek pattern (c0 - 1) = '!' then c0 - 1 else c0) '\x00') 0

/-- The string `fname` as the `switch (MatchType)` of `pattern_match` reads it,
from the arguments alone: `pkgname` when the pattern has no condition, else
the name part that `pattern_fname` makes of it. -/
def pattern_switch_fname (pattern pkgname : List Char) : List Char :=
  match strpbrk pattern 0 ['<', '>', '='] with
  | none => pkgname
  | some _ => pattern_fname pkgname

/-! ## Reference collaborators for examples -/

/-- The part of an identifier after its last hyphen, the whole of it when it
has none. -/
def versionPart (s : List Char) : List Char :=
  match strrchr s '-' with
  | some k => s.drop (k + 1)
  | none => s

/-- The segments of a version between its dots. -/
def splitDots : List Char → List (List Char)
  | [] => [[]]
  | c :: s =>
    match splitDots s with
    | [] => [[c]]
    | seg :: rest => if c = '.' then [] :: seg :: rest else (c :: seg) :: rest

/-- The number written by the digits of a segment. -/
def segValue (seg : List Char) : Nat :=
  seg.foldl (fun n c => if c.isDigit then 10 * n + (c.toNat - 48) else n) 0

/-- Segment-wise numeric comparison; a missing segment counts as zero. -/
def cmpSegs : List Nat → List Nat → Int
  | [], bs => if bs.all (fun b => b = 0) then 0 else -1
  | a :: as, [] => if 0 < a then 1 else cmpSegs as []
  | a :: as, b :: bs => if a < b then -1 else if b < a then 1 else cmpSegs as bs

/-- Modelled from the spec: `version_cmp` (`lib/version.c` is not among the
sources), for dotted numeric versions: the substrings after each identifier's
final hyphen are compared segment by segment as numbers. -/
def versionCmpRef : VersionCmp := fun a b =>
  cmpSegs ((splitDots (versionPart a)).map segValue) ((splitDots (versionPart b)).map segValue)

/-- Whether the parentheses of a pattern pair up. -/
def parensBalanced : Nat → List Char → Bool
  | d, [] => d = 0
  | d, c :: s =>
    if c = '(' then parensBalanced (d + 1) s
    else if c = ')' then (0 < d) && parensBalanced (d - 1) s
    else parensBalanced d s

/-- Value of `REG_EPAREN` in `<regex.h>`. -/
def REG_EPAREN : Int := 8

/-- A reference regex engine for examples: in extended mode a pattern with
unpaired parentheses does not compile, and a compiled pattern matches the
strings that contain it literally. -/
def regexRef : RegexEngine where
  regcomp := fun pattern cflags =>
    if cflags &&& REG_EXTENDED ≠ 0 ∧ parensBalanced 0 pattern = false then REG_EPAREN else 0
  regexec := fun pattern _ s => if s.tails.any (fun t => pattern.isPrefixOf t) then 0 else REG_NOMATCH

/-! ## Vocabulary of the specification -/

/-- The six operators of a version condition. -/
inductive CondOp where
  | lt
  | le
  | eq
  | ge
  | gt
  | ne
deriving DecidableEq, Repr

/-- The characters that write an operator. -/
def CondOp.chars : CondOp → List Char
  | .lt => ['<']
  | .le => ['<', '=']
  | .eq => ['=']
  | .ge => ['>', '=']
  | .gt => ['>']
  | .ne => ['!', '=']

/-- The comparator outcomes an operator accepts: -1 is Less, 0 is Equal and
1 is Greater. -/
def CondOp.accepts : CondOp → Int → Bool
  | .lt, r => r = -1
  | .le, r => r = -1 ∨ r = 0
  | .eq, r => r = 0
  | .ge, r => r = 0 ∨ r = 1
  | .gt, r => r = 1
  | .ne, r => r = -1 ∨ r = 1

/-- The text of a chain of condition clauses. -/
def renderClauses : List (CondOp × List Char) → List Char
  | [] => []
  | cl :: rest => cl.1.chars ++ cl.2 ++ renderClauses rest

/-- The literals of a chain up to and including the first clause that the
comparator outcome does not satisfy. -/
def comparedUpTo (version_cmp : VersionCmp) (pkgname : List Char) :
    List (CondOp × List Char) → List (List Char)
  | [] => []
  | cl :: rest =>
    cl.2 :: (if cl.1.accepts (version_cmp pkgname cl.2) then
      comparedUpTo version_cmp pkgname rest else [])

/-- A version literal: no operator character, no `!`, no NUL. -/
def LiteralOK (v : List Char) : Prop :=
  ∀ x ∈ v, x ≠ '<' ∧ x ≠ '>' ∧ x ≠ '=' ∧ x ≠ '!' ∧ x ≠ '\x00'

/-- A base name-pattern: no operator character, no NUL, and no `!` at its
end. -/
def BaseOK (b : List Char) : Prop :=
  (∀ x ∈ b, x ≠ '<' ∧ x ≠ '>' ∧ x ≠ '=' ∧ x ≠ '\x00') ∧ b.getLast? ≠ some '!'

/-- The comparator yields -1, 0 or 1. -/
def VersionCmpOK (version_cmp : VersionCmp) : Prop :=
  ∀ a b, version_cmp a b = -1 ∨ version_cmp a b = 0 ∨ version_cmp a b = 1

/-- A chain of clauses that `pattern_match` reads back as written: every
literal is well formed, and every literal that another clause follows is
not empty. -/
def ChainOK : List (CondOp × List Char) → Prop
  | [] => True
  | [cl] => LiteralOK cl.2
  | cl :: cl2 :: rest => LiteralOK cl.2 ∧ cl.2 ≠ [] ∧ ChainOK (cl2 :: rest)

/-- Every clause of the chain is satisfied by the comparator outcome. -/
def allAccepted (version_cmp : VersionCmp) (pkgname : List Char)
    (clauses : List (CondOp × List Char)) : Bool :=
  clauses.all (fun cl => cl.1.accepts (version_cmp pkgname cl.2))

/-- Index of the first occurrence of `<`, `>` or `=` that no backslash
escapes, a backslash escaping the character after it. -/
def firstUnescapedOp : List Char → Option Nat
  | [] => none
  | [c] => if c = '<' ∨ c = '>' ∨ c = '=' then some 0 else none
  | c :: d :: t =>
    if c = '\\' then (firstUnescapedOp t).map (fun k => k + 2)
    else if c = '<' ∨ c = '>' ∨ c = '=' then some 0
    else (firstUnescapedOp (d :: t)).map (fun k => k + 1)

/-- The base name-pattern in the words of the specification: everything before
the first unescaped operator character, a directly preceding `!` being part
of the clause. -/
def specBasePattern (pattern : List Char) : List Char :=
  match firstUnescapedOp pattern with
  | none => pattern
  | some i => pattern.take (if 0 < i ∧ pattern[i - 1]? = some '!' then i - 1 else i)

/-- The length of a terminated bracket expression after its `[`, closing `]`
included, and 0 when the expression is not terminated; `s` is the text after
the `[`. A leading `!` or `^` is allowed, and a `]` right after it is a
literal member. -/
def bracketSkip (s : List Char) : Nat :=
  let a := if s.head? = some '!' ∨ s.head? = some '^' then 1 else 0
  let b := if (s.drop a).head? = some ']' then 1 else 0
  let r := s.drop (a + b)
  if ']' ∈ r then a + b + r.indexOf ']' + 1 else 0

/-- No opening brace of the text is active: each is escaped by a backslash or
lies inside a terminated bracket expression. `skip` counts the characters
left of the bracket expression being passed, `quoted` tells that the
character before was an escaping backslash. -/
def braceInert : Nat → Bool → List Char → Bool
  | _, _, [] => true
  | k + 1, q, _ :: s => braceInert k q s
  | 0, true, _ :: s => braceInert 0 false s
  | 0, false, c :: s =>
    if c = '{' then false
    else if c = '\\' then braceInert 0 true s
    else if c = '[' then braceInert (bracketSkip s) false s
    else braceInert 0 false s

/-- A pattern without an active brace. -/
def noActiveBrace (pattern : List Char) : Bool := braceInert 0 false pattern

/-- The alternatives of a brace group, joined by commas. -/
def joinAlts : List (List Char) → List Char
  | [] => []
  | [a] => a
  | a :: b :: rest => a ++ ',' :: joinAlts (b :: rest)

/-- The pattern `pre{a1,...,an}post`. -/
def bracePattern (pre : List Char) (alts : List (List Char)) (post : List Char) : List Char :=
  pre ++ '{' :: (joinAlts alts ++ '}' :: post)

/-- Text without brace, bracket or backslash. -/
def plainSeg (s : List Char) : Bool :=
  s.all (fun c => c ≠ '{' ∧ c ≠ '}' ∧ c ≠ '[' ∧ c ≠ '\\')

/-- Text with balanced braces and without bracket or backslash, read at brace
depth `d` inside a group; with `commaOK` false it has no comma at the level
of the group itself, so with `d = 0` it is one alternative of the group. -/
def closedSeg (commaOK : Bool) : Nat → List Char → Bool
  | d, [] => d = 0
  | d, c :: s =>
    if c = '{' then closedSeg commaOK (d + 1) s
    else if c = '}' then decide (0 < d) && closedSeg commaOK (d - 1) s
    else if c = ',' then (commaOK || decide (0 < d)) && closedSeg commaOK d s
    else if c = '[' ∨ c = '\\' then false
    else closedSeg commaOK d s

/-- One alternative of a brace group. -/
def altOK (a : List Char) : Bool := closedSeg false 0 a

/-- The alternatives tried in order: the result of the first call that returns
0, or of the last call, with the calls to `fnmatch` of every alternative tried;
`call` is `csh_match` on a rebuilt pattern. -/
def altsResult (call : List Char → Option CshResult) (pre post : List Char) :
    List (List Char) → Option CshResult
  | [] => none
  | [a] => call (pre ++ a ++ post)
  | a :: b :: rest =>
    match call (pre ++ a ++ post) with
    | none => none
    | some r =>
      if r.1 ≠ 0 then
        match altsResult call pre post (b :: rest) with
        | none => none
        | some r2 => some (r2.1, r.2 ++ r2.2)
      else some r

/-- A pattern with balanced, possibly nested braces and without bracket or
backslash. -/
def balancedBraces (pattern : List Char) : Bool := closedSeg true 0 pattern

/-- The text before the first opening brace and the text after it. -/
def splitAtBrace : List Char → Option (List Char × List Char)
  | [] => none
  | c :: s =>
    if c = '{' then some ([], s)
    else (splitAtBrace s).map (fun x => (c :: x.1, x.2))

/-- The body of a brace group and the text after its closing brace; `s` is
the text after the opening brace, read at nesting depth `d` inside the group. -/
def matchClose : Nat → List Char → Option (List Char × List Char)
  | _, [] => none
  | d, c :: s =>
    if c = '}' then
      (if d = 0 then some ([], s)
       else (matchClose (d - 1) s).map (fun x => (c :: x.1, x.2)))
    else if c = '{' then (matchClose (d + 1) s).map (fun x => (c :: x.1, x.2))
    else (matchClose d s).map (fun x => (c :: x.1, x.2))

/-- The alternatives of the body of a brace group: the body cut at its commas
of nesting depth 0. -/
def splitAlts : Nat → List Char → List (List Char)
  | _, [] => [[]]
  | d, c :: s =>
    if c = ',' ∧ d = 0 then [] :: splitAlts d s
    else
      match splitAlts (if c = '{' then d + 1 else if c = '}' then d - 1 else d) s with
      | [] => [[c]]
      | h :: t => (c :: h) :: t

/-- The first brace group of a pattern: the text before it, its alternatives
and the text after it. -/
def firstGroup (pattern : List Char) : Option (List Char × List (List Char) × List Char) :=
  match splitAtBrace pattern with
  | none => none
  | some (pre, x) =>
    match matchClose 0 x with
    | none => none
    | some (body, post) => some (pre, splitAlts 0 body, post)

/-- Recursive brace expansion, bounded by a depth: the first group is replaced
by each of its alternatives in turn, from left to right, and the patterns so
obtained are expanded in the same way. -/
def braceExpand : Nat → List Char → List (List Char)
  | 0, pattern => [pattern]
  | n + 1, pattern =>
    match firstGroup pattern with
    | none => [pattern]
    | some (pre, alts, post) =>
      (alts.map (fun a => braceExpand n (pre ++ a ++ post))).flatten

/-- The recursive brace expansion of a pattern; every replacement of a group
shortens the pattern, so its length bounds the depth. -/
def braceExpansion (pattern : List Char) : List (List Char) :=
  braceExpand pattern.length pattern

/-- The brace-free patterns handed to `fnmatch` in order until one is
accepted: the last return value and the patterns tried. -/
def globAny (fnmatch : Fnmatch) (string : List Char) (flags : Int) :
    List (List Char) → CshResult
  | [] => (FNM_NOMATCH, [])
  | [q] => (fnmatch q string flags, [q])
  | q :: q2 :: rest =>
    if fnmatch q string flags ≠ 0 then
      ((globAny fnmatch string flags (q2 :: rest)).1,
        q :: (globAny fnmatch string flags (q2 :: rest)).2)
    else (fnmatch q string flags, [q])

/-- The return value of a call, when there is one. -/
def callRet (call : List Char → Option CshResult) (pattern : List Char) : Option Int :=
  (call pattern).map Prod.fst

/-- The `fnmatch` calls made by the calls on a list of patterns, in order. -/
def callTraces (call : List Char → Option CshResult) (patterns : List (List Char)) :
    List (List Char) :=
  (patterns.map (fun q => ((call q).map Prod.snd).getD [])).flatten

/-! ## Invariants of csh_match -/

/-- Invariant of the inner scan of a pass that started at index `start`. The
facts about `prefixlen` and `currentlen` are for patterns whose length fits
an `int`. -/
structure CshInv (p : List Char) (start : Nat) (st : CshState) : Prop where
  start_le : start ≤ st.pos
  next : ∀ n, st.nextchoice = some n → start < n ∧ n ≤ st.pos ∧ 1 ≤ st.level
  lvl : 1 ≤ st.level → st.current ≠ none
  cur : p.length < 2147483648 → ∀ c, st.current = some c →
    c ≤ st.pos ∧ ∃ pl : Nat, st.prefixlen = pl ∧ pl < c
  len : p.length < 2147483648 → ∃ cl : Nat, st.currentlen = cl
  alt : p.length < 2147483648 → ∀ n, st.nextchoice = some n →
    ∃ c, st.current = some c ∧ ∃ cl : Nat, st.currentlen = cl ∧ cl + c < n

/-- What holds of the variables when the inner scan of a pass that started at
index `start` has ended. -/
structure CshFinal (p : List Char) (start : Nat) (f : CshState) : Prop where
  pf : ∃ pf, f.postfx = some pf ∧ pf ≤ p.length
  next : ∀ n, f.nextchoice = some n → start < n ∧ n ≤ p.length
  cur : p.length < 2147483648 → ∀ c pf, f.current = some c → f.postfx = some pf →
    c ≤ p.length ∧ ∃ pl cl : Nat, f.prefixlen = pl ∧ f.currentlen = cl ∧ pl < c ∧
      (pf = p.length ∨ cl + c < pf)
  alt : p.length < 2147483648 → ∀ n, f.nextchoice = some n →
    ∃ c, f.current = some c ∧ c < n ∧ ∃ pl cl : Nat, f.prefixlen = pl ∧ pl < c ∧
      f.currentlen = cl

/-- The inner scan, step by step: `CshRuns p st f` when the scan entered with
the variables `st` ends with the variables `f`. -/
inductive CshRuns (p : List Char) : CshState → CshState → Prop where
  | done (st : CshState) : (cshStep p st).postfx ≠ none → CshRuns p st (cshStep p st)
  | step (st f : CshState) : (cshStep p st).postfx = none → CshRuns p (cshStep p st) f →
      CshRuns p st f

/-! ## The result accumulator: storecreate and storeappend

Conventions of this part.

* Memory is not a resource here: `malloc`, `reallocf` and `asprintf` deliver
  what they are asked for. The counters `currlen` and `used` are C `int`s that
  count array elements; they are natural numbers here.
* The array `store->store` is the list of its elements. An element is a
  pointer: `NULL`, a string made by `asprintf`, a string already handed to
  `free`, or whatever `reallocf` left in a new element.
* An access outside the array has no counterpart in the model (a write there
  changes nothing); `storeOK` is the invariant under which none happens.
-/

/-- One element of the array `store->store`. -/
inductive Slot where
  | null : Slot
  | str : List Char → Slot
  | freed : List Char → Slot
  | junk : Slot
deriving DecidableEq, Repr

/-- Whether the element points to a string that has not been released. -/
def Slot.isStr : Slot → Bool
  | Slot.str _ => true
  | _ => false

set_option linter.dupNamespace false

/-- The accumulator `struct store`. -/
structure store where
  currlen : Nat
  used : Nat
  store : Option (List Slot)
deriving DecidableEq, Repr

/-- The loop of `storecreate`: `free(store->store[i])` for every element before
the first `NULL`. -/
def freeRun : List Slot → List Slot
  | [] => []
  | Slot.null :: rest => Slot.null :: rest
  | Slot.str s :: rest => Slot.freed s :: freeRun rest
  | Slot.freed s :: rest => Slot.freed s :: freeRun rest
  | Slot.junk :: rest => Slot.junk :: freeRun rest

/-- The function `storecreate`; the argument and the result are pointers. -/
def storecreate : Option store → Option store
  | none => some { currlen := 0, used := 0, store := none }
  | some st =>
    match st.store with
    | none => some { st with used := 0 }
    | some arr => some { st with store := some ((freeRun arr).set 0 Slot.null), used := 0 }

/-- The array delivered by `reallocf(p, n * sizeof(char *))`: the old elements,
as far as they fit, then new ones. -/
def reallocf (p : Option (List Slot)) (n : Nat) : List Slot :=
  (p.getD []).take n ++ List.replicate (n - ((p.getD []).take n).length) Slot.junk

/-- The function `storeappend`: the accumulator after the call, and the value
returned. -/
def storeappend (st : store) (item : List Char) : store × Int :=
  let st : store :=
    if st.used + 2 > st.currlen then
      { st with currlen := st.currlen + 16, store := some (reallocf st.store (st.currlen + 16)) }
    else st
  ({ st with
      store := st.store.map (fun arr => (arr.set st.used (Slot.str item)).set (st.used + 1) Slot.null),
      used := st.used + 1 }, 0)

/-- The strings a caller reads from a returned array, up to the first `NULL`
(`for (i = 0; list[i] != NULL; i++)`). -/
def untilNull : List Slot → List (List Char)
  | [] => []
  | Slot.null :: _ => []
  | Slot.str s :: rest => s :: untilNull rest
  | Slot.freed s :: rest => s :: untilNull rest
  | Slot.junk :: rest => [] :: untilNull rest

/-- The strings a caller reads through a returned pointer; none through `NULL`. -/
def listOf : Option (List Slot) → List (List Char)
  | none => []
  | some arr => untilNull arr

/-- The elements of an accumulator with `used` strings: that many live
strings, the `NULL` after them, and no live string behind it. -/
def slotsOK : Nat → List Slot → Bool
  | 0, Slot.null :: rest => rest.all (fun x => !x.isStr)
  | n + 1, Slot.str _ :: rest => slotsOK n rest
  | _, _ => false

/-- The invariant of the accumulator that `matchinstalled` keeps in its static
variable. -/
def storeOK : Option store → Bool
  | none => true
  | some st =>
    match st.store with
    | none => st.used == 0 && st.currlen == 0
    | some arr => arr.length == st.currlen && slotsOK st.used arr

/-- The accumulator `st` holds exactly the strings `ss`. -/
def StoreHolds (st : store) (ss : List (List Char)) : Prop :=
  st.used = ss.length ∧
  ((ss = [] ∧ st.store = none ∧ st.currlen = 0) ∨
   ∃ rest, st.store = some (ss.map Slot.str ++ Slot.null :: rest) ∧
     st.currlen = ss.length + 1 + rest.length ∧ ∀ x ∈ rest, x.isStr = false)

/-! ## matchinstalled

* The package database of libpkg is a parameter: whether `pkg_initialized()`
  holds, and what `pkgdb_query(db, pattern, m)` delivers.
* The static variable `store` of `matchinstalled` is explicit state: the
  function takes it and gives it back.
* The argument `retval` is `none` for `NULL` and otherwise the `int` it points
  to; the result carries that `int` as it is on return.
* The result lists the calls of `pkgdb_query`, in order.
-/

/-- The match kinds of libpkg that `matchinstalled` hands to `pkgdb_query`. -/
inductive match_t where
  | MATCH_ALL
  | MATCH_EXACT
  | MATCH_GLOB
  | MATCH_REGEX
deriving DecidableEq, Repr

/-- The package database. `query pattern m` is `none` when
`pkgdb_query(db, pattern, m)` returns `NULL`; otherwise it lists, for the
packages that `pkgdb_it_next` yields with `EPKG_OK`, in that order, the text
that `pkg_snprintf(pkgname, sizeof(pkgname), "%n-%v", pkg, pkg)` leaves in
`pkgname`. -/
structure PkgDb where
  pkg_initialized : Bool
  query : Option (List Char) → match_t → Option (List (List Char))

/-- A call of `pkgdb_query`: the pattern (`none` for `NULL`) and the kind. -/
abbrev Query : Type := Option (List Char) × match_t

/-- What a call of `matchinstalled` leaves behind: the pointer returned, the
`int` behind `retval`, the static accumulator, and the queries made. -/
structure MIResult where
  ret : Option (List Slot)
  retval : Option Int
  acc : Option store
  queries : List Query

/-- The `switch (MatchType)` in the loop over the patterns; `none` is the
`return (NULL)` of `LEGACY_MATCH_NGLOB`. -/
def switchKind : legacy_match_t → Option match_t
  | legacy_match_t.LEGACY_MATCH_EXACT => some match_t.MATCH_EXACT
  | legacy_match_t.LEGACY_MATCH_GLOB => some match_t.MATCH_GLOB
  | legacy_match_t.LEGACY_MATCH_NGLOB => none
  | legacy_match_t.LEGACY_MATCH_REGEX => some match_t.MATCH_REGEX
  | legacy_match_t.LEGACY_MATCH_EREGEX => some match_t.MATCH_REGEX
  | legacy_match_t.LEGACY_MATCH_ALL => some match_t.MATCH_ALL

/-- The loop `while (pkgdb_it_next(...) == EPKG_OK)`: every name the iterator
yields is appended. -/
def storeAll (st : store) : List (List Char) → store
  | [] => st
  | pkgname :: rest => storeAll (storeappend st pkgname).1 rest

/-- The loop `for (len = 0; patterns[len]; len++)`. The first component of the
result tells whether the loop left the function with `return (NULL)`. -/
def matchLoop (db : PkgDb) (MatchType : legacy_match_t) :
    List (List Char) → store → List Query → Bool × store × List Query
  | [], st, qs => (false, st, qs)
  | p :: rest, st, qs =>
    match switchKind MatchType with
    | none => (true, st, qs)
    | some m =>
      match db.query (some p) m with
      | none => matchLoop db MatchType rest st (qs ++ [(some p, m)])
      | some it => matchLoop db MatchType rest (storeAll st it) (qs ++ [(some p, m)])

/-- The end of `matchinstalled`: `NULL` when nothing was stored, else the
array. -/
def storeRet (st : store) : Option (List Slot) :=
  if st.used = 0 then none else st.store

/-- The function `matchinstalled`, with the static accumulator `acc`. -/
def matchinstalled (db : PkgDb) (acc : Option store) (MatchType : legacy_match_t)
    (patterns : Option (List (List Char))) (retval : Option Int) : MIResult :=
  if !db.pkg_initialized then { ret := none, retval := retval, acc := acc, queries := [] }
  else
    match storecreate acc with
    | none => { ret := none, retval := retval.map (fun _ => 1), acc := none, queries := [] }
    | some st =>
      let retval := retval.map (fun _ => (0 : Int))
      match patterns with
      | none => { ret := storeRet st, retval := retval, acc := some st, queries := [] }
      | some ps =>
        if MatchType = legacy_match_t.LEGACY_MATCH_ALL then
          match db.query none match_t.MATCH_ALL with
          | none => { ret := none, retval := retval, acc := some st,
                      queries := [(none, match_t.MATCH_ALL)] }
          | some it =>
            { ret := storeRet (storeAll st it), retval := retval,
              acc := some (storeAll st it), queries := [(none, match_t.MATCH_ALL)] }
        else
          match matchLoop db MatchType ps st [] with
          | (true, st1, qs) => { ret := none, retval := retval, acc := some st1, queries := qs }
          | (false, st1, qs) =>
            { ret := storeRet st1, retval := retval, acc := some st1, queries := qs }

/-! ## matchallbyorigin

The origin recorded for an installed package is read from the file
`+CONTENTS` in its directory under `LOG_DIR`; that reading is the parameter
`origin_of`: `none` when the directory is empty, the file cannot be opened, or
it has no origin line.
-/

/-- Value of `FNM_PATHNAME` in `<fnmatch.h>`. -/
def FNM_PATHNAME : Int := 2

/-- What a call of `matchallbyorigin` leaves behind: the pointer returned (an
array with one element per origin pattern, each `NULL` or an array of names),
the `int` behind `retval`, and the static accumulator of `matchinstalled`. -/
structure MAResult where
  ret : Option (List (Option (List Slot)))
  retval : Option Int
  acc : Option store

/-- The loop over `installed[j]` for one origin pattern: the names whose
recorded origin matches are appended. -/
def originLoop (fnmatch : Fnmatch) (origin : List Char) :
    List (List Char × Option (List Char)) → store → store
  | [], st => st
  | (_, none) :: rest, st => originLoop fnmatch origin rest st
  | (name, some o) :: rest, st =>
    if (csh_match fnmatch origin o FNM_PATHNAME).map Prod.fst = some 0 then
      originLoop fnmatch origin rest (storeappend st name).1
    else originLoop fnmatch origin rest st

/-- The second loop of `matchallbyorigin`, for one origin pattern: a new
accumulator, the names that match, and `NULL` when there is none. -/
def originMatches (fnmatch : Fnmatch) (allorigins : List (List Char × Option (List Char)))
    (origin : List Char) : Option (List Slot) :=
  match storecreate none with
  | none => none
  | some st => storeRet (originLoop fnmatch origin allorigins st)

/-- The function `matchallbyorigin`. -/
def matchallbyorigin (fnmatch : Fnmatch) (db : PkgDb)
    (origin_of : List Char → Option (List Char)) (acc : Option store)
    (origins : List (List Char)) (retval : Option Int) : MAResult :=
  let r := matchinstalled db acc legacy_match_t.LEGACY_MATCH_ALL none
    (retval.map (fun _ => (0 : Int)))
  match r.ret with
  | none => { ret := none, retval := r.retval, acc := r.acc }
  | some installed =>
    let allorigins := (untilNull installed).map (fun name => (name, origin_of name))
    { ret := if origins = [] then none
             else some (origins.map (originMatches fnmatch allorigins)),
      retval := r.retval, acc := r.acc }

/-! ## Vocabulary of the specification: queries -/

/-- Spec-side: the names a query is to deliver, from the kind, the patterns and
the database alone: everything for `LEGACY_MATCH_ALL`, and otherwise the
results of the single queries, pattern after pattern. -/
def specSelected (db : PkgDb) (kind : legacy_match_t) (patterns : List (List Char)) :
    List (List Char) :=
  match kind with
  | legacy_match_t.LEGACY_MATCH_ALL => (db.query none match_t.MATCH_ALL).getD []
  | legacy_match_t.LEGACY_MATCH_NGLOB => []
  | legacy_match_t.LEGACY_MATCH_EXACT =>
    (patterns.map (fun p => (db.query (some p) match_t.MATCH_EXACT).getD [])).flatten
  | legacy_match_t.LEGACY_MATCH_GLOB =>
    (patterns.map (fun p => (db.query (some p) match_t.MATCH_GLOB).getD [])).flatten
  | legacy_match_t.LEGACY_MATCH_REGEX =>
    (patterns.map (fun p => (db.query (some p) match_t.MATCH_REGEX).getD [])).flatten
  | legacy_match_t.LEGACY_MATCH_EREGEX =>
    (patterns.map (fun p => (db.query (some p) match_t.MATCH_REGEX).getD [])).flatten

/-- Spec-side: the queries a call with a pattern list sends to the store, in
order: one for the whole store for `LEGACY_MATCH_ALL`, none for
`LEGACY_MATCH_NGLOB`, and otherwise one per pattern, the two regex kinds under
the same kind of the store. -/
def specQueries (kind : legacy_match_t) (patterns : List (List Char)) : List Query :=
  match kind with
  | legacy_match_t.LEGACY_MATCH_ALL => [(none, match_t.MATCH_ALL)]
  | legacy_match_t.LEGACY_MATCH_NGLOB => []
  | legacy_match_t.LEGACY_MATCH_EXACT => patterns.map (fun p => (some p, match_t.MATCH_EXACT))
  | legacy_match_t.LEGACY_MATCH_GLOB => patterns.map (fun p => (some p, match_t.MATCH_GLOB))
  | legacy_match_t.LEGACY_MATCH_REGEX => patterns.map (fun p => (some p, match_t.MATCH_REGEX))
  | legacy_match_t.LEGACY_MATCH_EREGEX => patterns.map (fun p => (some p, match_t.MATCH_REGEX))

/-- Spec-side: the names a call is to deliver, for any database and any
`patterns` argument: none from a database that is not initialised, none for
`patterns == NULL` (as the code has it), else `specSelected`. -/
def specList (db : PkgDb) (kind : legacy_match_t) (patterns : Option (List (List Char))) :
    List (List Char) :=
  if db.pkg_initialized then
    match patterns with
    | none => []
    | some ps => specSelected db kind ps
  else []

/-! ## A reference database for examples -/

/-- The names of the installed packages of the example. -/
def installedRef : List (List Char) := ["P1".toList, "P2".toList, "P3".toList, "P4".toList]

/-- A package database for examples, with the packages of `installedRef`: an
exact query selects by equality, a glob query by the reference `fnmatch`, a
regex query by containment, and a regex query whose pattern has unpaired
parentheses yields no iterator. -/
def dbRef : PkgDb where
  pkg_initialized := true
  query := fun pattern m =>
    match m, pattern with
    | match_t.MATCH_ALL, _ => some installedRef
    | match_t.MATCH_EXACT, some p => some (installedRef.filter (fun n => n = p))
    | match_t.MATCH_GLOB, some p => some (installedRef.filter (fun n => fnmatchRef p n 0 = 0))
    | match_t.MATCH_REGEX, some p =>
      if parensBalanced 0 p then
        some (installedRef.filter (fun n => n.tails.any (fun t => p.isPrefixOf t)))
      else none
    | _, none => none

/-- A package database that cannot be queried: `pkgdb_query` always returns
`NULL`. -/
def dbDown : PkgDb where
  pkg_initialized := true
  query := fun _ _ => none

/-- The origins recorded for the packages of the example; `P4` has none. -/
def originRef (name : List Char) : Option (List Char) :=
  if name = "P1".toList then some "net/p1".toList
  else if name = "P2".toList then some "www/p2".toList
  else if name = "P3".toList then some "sysutils/p3".toList
  else none

/-! # Properties -/

/-! ## Buffers and C strings -/

theorem set_append_length (l : List Char) (c x : Char) (r : List Char) :
    (l ++ c :: r).set l.length x = l ++ x :: r := by
  induction l with
  | nil => rfl
  | cons a l ih => simp [ih]

theorem peek_append (l r : List Char) (k : Nat) : peek (l ++ r) (l.length + k) = peek r k := by
  induction l with
  | nil => simp
  | cons a l ih =>
    have h : (a :: l).length + k = (l.length + k) + 1 := by simp; omega
    rw [h]
    simpa [peek] using ih

theorem peek_append_zero (l r : List Char) : peek (l ++ r) l.length = peek r 0 := by
  simpa using peek_append l r 0

theorem peek_cons_zero (c : Char) (r : List Char) : peek (c :: r) 0 = c := rfl

theorem peek_nil (k : Nat) : peek [] k = '\x00' := by simp [peek]

theorem cstr_append (l r : List Char) (k : Nat) : cstr (l ++ r) (l.length + k) = cstr r k := by
  simp [cstr]

theorem cstrOf_nulfree (v r : List Char) (hv : ∀ x ∈ v, x ≠ '\x00') :
    cstrOf (v ++ '\x00' :: r) = v := by
  induction v with
  | nil => simp [cstrOf]
  | cons a v ih =>
    have ha : a ≠ '\x00' := hv a (by simp)
    have := ih (fun x hx => hv x (by simp [hx]))
    simp [cstrOf, ha, this]

theorem cstrOf_nulfree_end (v : List Char) (hv : ∀ x ∈ v, x ≠ '\x00') : cstrOf v = v := by
  induction v with
  | nil => simp [cstrOf]
  | cons a v ih =>
    have ha : a ≠ '\x00' := hv a (by simp)
    have := ih (fun x hx => hv x (by simp [hx]))
    simp [cstrOf, ha, this]

theorem strpbrkFrom_skip (set w rest : List Char)
    (hw : ∀ x ∈ w, x ≠ '\x00' ∧ x ∉ set) :
    strpbrkFrom set (w ++ rest) = (strpbrkFrom set rest).map (fun k => w.length + k) := by
  induction w with
  | nil => simp
  | cons a w ih =>
    have ha := hw a (by simp)
    have := ih (fun x hx => hw x (by simp [hx]))
    have h1 : strpbrkFrom set (a :: (w ++ rest))
        = (strpbrkFrom set (w ++ rest)).map (fun k => k + 1) := by
      simp [strpbrkFrom, ha.1, ha.2]
    rw [List.cons_append, h1, this]
    cases strpbrkFrom set rest with
    | none => rfl
    | some k =>
      simp only [Option.map_some', List.length_cons, Option.some.injEq]
      omega

theorem strpbrk_append (l r set : List Char) (k : Nat) :
    strpbrk (l ++ r) (l.length + k) set = (strpbrk r k set).map (fun j => l.length + j) := by
  simp only [strpbrk, Option.map_map]
  have : (l ++ r).drop (l.length + k) = r.drop k := by simp
  rw [this]
  congr 1
  funext j
  simp only [Function.comp]
  omega

/-! ## The condition loop -/

theorem ite_flip (a : Bool) :
    (if a = false then (0 : Int) else 1) = if a = true then 1 else 0 := by
  cases a <;> rfl

theorem condRejects_bits (r : Int) (hr : r = -1 ∨ r = 0 ∨ r = 1) :
    condRejects (condBits '<' 0) r = !CondOp.lt.accepts r ∧
    condRejects (condBits '<' 2) r = !CondOp.le.accepts r ∧
    condRejects (condBits '=' 0) r = !CondOp.eq.accepts r ∧
    condRejects (condBits '>' 2) r = !CondOp.ge.accepts r ∧
    condRejects (condBits '>' 0) r = !CondOp.gt.accepts r ∧
    condRejects (condBits '!' 2) r = !CondOp.ne.accepts r := by
  rcases hr with h | h | h <;> subst h <;> decide

theorem strpbrk_literal (l v : List Char) (hv : LiteralOK v) :
    strpbrk (l ++ v) l.length ['<', '>', '=', '!'] = none := by
  have h := strpbrk_append l v ['<', '>', '=', '!'] 0
  simp only [Nat.add_zero] at h
  rw [h]
  have h2 := strpbrkFrom_skip ['<', '>', '=', '!'] v [] (fun x hx => by
    have := hv x hx
    simp [this.1, this.2.1, this.2.2.1, this.2.2.2.1, this.2.2.2.2])
  simp only [List.append_nil] at h2
  rw [strpbrk, List.drop_zero, h2]
  simp [strpbrkFrom]

theorem strpbrk_literal_next (l v tail : List Char) (c : Char) (hv : LiteralOK v)
    (hc : c ∈ ['<', '>', '=', '!']) :
    strpbrk (l ++ (v ++ c :: tail)) l.length ['<', '>', '=', '!'] = some (l.length + v.length) := by
  have h := strpbrk_append l (v ++ c :: tail) ['<', '>', '=', '!'] 0
  simp only [Nat.add_zero] at h
  rw [h]
  have h2 := strpbrkFrom_skip ['<', '>', '=', '!'] v (c :: tail) (fun x hx => by
    have := hv x hx
    simp [this.1, this.2.1, this.2.2.1, this.2.2.2.1, this.2.2.2.2])
  have hc0 : c ≠ '\x00' := by
    intro h0
    subst h0
    revert hc
    decide
  rw [strpbrk, List.drop_zero, h2]
  simp only [strpbrkFrom, hc0, hc, if_true, if_false, Option.map_some']
  simp

theorem peek_after (pre : List Char) (o : Char) (X : List Char) :
    peek (pre ++ o :: X) (pre.length + 1) = peek X 0 := by
  have := peek_append (pre ++ [o]) X 0
  simpa using this

theorem peek_after2 (pre : List Char) (o p : Char) (X : List Char) :
    peek (pre ++ o :: p :: X) (pre.length + 2) = peek X 0 := by
  have := peek_append (pre ++ [o, p]) X 0
  simpa using this

theorem literal_head_ne (v rest : List Char) (hv : LiteralOK v)
    (hrest : rest = [] ∨ (v ≠ [] ∧ ∃ c tail, rest = c :: tail ∧ c ∈ ['<', '>', '=', '!'])) :
    peek (v ++ rest) 0 ≠ '=' := by
  cases v with
  | nil =>
    rcases hrest with h | ⟨h, _⟩
    · subst h; decide
    · exact absurd rfl h
  | cons a v1 =>
    have := hv a (by simp)
    simpa [peek] using this.2.2.1

/-- The clause at the head of the loop: the state after one pass. -/
theorem condLoop_clause (vc : VersionCmp) (hvc : VersionCmpOK vc)
    (pkgname base fname : List Char) (n : Nat) (pre : List Char) (op : CondOp)
    (o : Char) (ot : List Char) (hop : op.chars = o :: ot)
    (v rest : List Char) (cmps : List (List Char)) (hv : LiteralOK v)
    (hrest : rest = [] ∨ (v ≠ [] ∧ ∃ c tail, rest = c :: tail ∧ c ∈ ['<', '>', '=', '!'])) :
    condLoop vc pkgname base fname (n + 1) (pre ++ '\x00' :: (ot ++ (v ++ rest)))
        pre.length o 1 cmps
      = match rest with
        | [] => some { ret := if op.accepts (vc pkgname v) then 1 else 0,
                       pattern := pre ++ (op.chars ++ v), basePattern := base, fname := fname,
                       compared := cmps ++ [v] }
        | c :: tail =>
          condLoop vc pkgname base fname n ((pre ++ (op.chars ++ v)) ++ '\x00' :: tail)
            (pre ++ (op.chars ++ v)).length c (if op.accepts (vc pkgname v) then 1 else 0)
            (cmps ++ [v]) := by
  have hne := literal_head_ne v rest hv hrest
  have hnul : ∀ x ∈ v, x ≠ '\x00' := fun x hx => (hv x hx).2.2.2.2
  obtain ⟨hb1, hb2, hb3, hb4, hb5, hb6⟩ := condRejects_bits (vc pkgname v) (hvc pkgname v)
  rw [condLoop]
  simp only [set_append_length]
  cases rest with
  | nil =>
    simp only [List.append_nil] at hne ⊢
    have hs1 : ∀ o : Char, strpbrk (pre ++ o :: v) (pre.length + 1) ['<', '>', '=', '!'] = none := by
      intro o
      have := strpbrk_literal (pre ++ [o]) v hv
      simpa using this
    have hs2 : ∀ o p : Char, strpbrk (pre ++ o :: p :: v) (pre.length + 2) ['<', '>', '=', '!'] = none := by
      intro o p
      have := strpbrk_literal (pre ++ [o, p]) v hv
      simpa using this
    have hc1 : ∀ o : Char, cstr (pre ++ o :: v) (pre.length + 1) = v := by
      intro o
      have := cstr_append (pre ++ [o]) v 0
      simp only [List.append_assoc, List.singleton_append, List.length_append, List.length_singleton, Nat.add_zero] at this
      rw [this, cstr, List.drop_zero, cstrOf_nulfree_end v hnul]
    have hc2 : ∀ o p : Char, cstr (pre ++ o :: p :: v) (pre.length + 2) = v := by
      intro o p
      have := cstr_append (pre ++ [o, p]) v 0
      simp only [List.append_assoc, List.cons_append, List.nil_append, List.length_append, List.length_cons, List.length_nil, Nat.add_zero] at this
      rw [this, cstr, List.drop_zero, cstrOf_nulfree_end v hnul]
    cases op <;> simp only [CondOp.chars, List.cons.injEq] at hop <;> obtain ⟨rfl, rfl⟩ := hop <;>
      simp [peek_after, peek_cons_zero, hne, hs1, hs2, hc1, hc2, hb1, hb2, hb3, hb4, hb5, hb6,
        CondOp.chars] <;>
      exact ite_flip _
  | cons c tail =>
    have hcm : c ∈ ['<', '>', '=', '!'] := by
      rcases hrest with h | ⟨_, c1, t1, h, hc⟩
      · cases h
      · cases h; exact hc
    have hs1 : ∀ o : Char, strpbrk (pre ++ o :: (v ++ c :: tail)) (pre.length + 1)
        ['<', '>', '=', '!'] = some (pre.length + 1 + v.length) := by
      intro o
      have := strpbrk_literal_next (pre ++ [o]) v tail c hv hcm
      simpa using this
    have hs2 : ∀ o p : Char, strpbrk (pre ++ o :: p :: (v ++ c :: tail)) (pre.length + 2)
        ['<', '>', '=', '!'] = some (pre.length + 2 + v.length) := by
      intro o p
      have := strpbrk_literal_next (pre ++ [o, p]) v tail c hv hcm
      simpa using this
    have hset1 : ∀ o : Char, (pre ++ o :: (v ++ c :: tail)).set (pre.length + 1 + v.length) '\x00'
        = pre ++ o :: (v ++ '\x00' :: tail) := by
      intro o
      have e1 : pre ++ o :: (v ++ c :: tail) = (pre ++ o :: v) ++ c :: tail := by simp
      have e2 : pre.length + 1 + v.length = (pre ++ o :: v).length := by
        simp only [List.length_append, List.length_cons]; omega
      rw [e1, e2, set_append_length]; simp
    have hset2 : ∀ o p : Char, (pre ++ o :: p :: (v ++ c :: tail)).set (pre.length + 2 + v.length) '\x00'
        = pre ++ o :: p :: (v ++ '\x00' :: tail) := by
      intro o p
      have e1 : pre ++ o :: p :: (v ++ c :: tail) = (pre ++ o :: p :: v) ++ c :: tail := by simp
      have e2 : pre.length + 2 + v.length = (pre ++ o :: p :: v).length := by
        simp only [List.length_append, List.length_cons]; omega
      rw [e1, e2, set_append_length]; simp
    have hpk1 : ∀ o : Char, peek (pre ++ o :: (v ++ c :: tail)) (pre.length + 1 + v.length) = c := by
      intro o
      have e1 : pre ++ o :: (v ++ c :: tail) = (pre ++ o :: v) ++ c :: tail := by simp
      have e2 : pre.length + 1 + v.length = (pre ++ o :: v).length := by
        simp only [List.length_append, List.length_cons]; omega
      rw [e1, e2, peek_append_zero, peek_cons_zero]
    have hpk2 : ∀ o p : Char, peek (pre ++ o :: p :: (v ++ c :: tail)) (pre.length + 2 + v.length) = c := by
      intro o p
      have e1 : pre ++ o :: p :: (v ++ c :: tail) = (pre ++ o :: p :: v) ++ c :: tail := by simp
      have e2 : pre.length + 2 + v.length = (pre ++ o :: p :: v).length := by
        simp only [List.length_append, List.length_cons]; omega
      rw [e1, e2, peek_append_zero, peek_cons_zero]
    have hc1 : ∀ o : Char, cstr (pre ++ o :: (v ++ '\x00' :: tail)) (pre.length + 1) = v := by
      intro o
      have := cstr_append (pre ++ [o]) (v ++ '\x00' :: tail) 0
      simp only [List.append_assoc, List.singleton_append, List.length_append, List.length_singleton, Nat.add_zero] at this
      rw [this, cstr, List.drop_zero, cstrOf_nulfree v tail hnul]
    have hc2 : ∀ o p : Char, cstr (pre ++ o :: p :: (v ++ '\x00' :: tail)) (pre.length + 2) = v := by
      intro o p
      have := cstr_append (pre ++ [o, p]) (v ++ '\x00' :: tail) 0
      simp only [List.append_assoc, List.cons_append, List.nil_append, List.length_append, List.length_cons, List.length_nil, Nat.add_zero] at this
      rw [this, cstr, List.drop_zero, cstrOf_nulfree v tail hnul]
    cases op <;> simp only [CondOp.chars, List.cons.injEq] at hop <;> obtain ⟨rfl, rfl⟩ := hop <;>
      simp only [List.nil_append, List.cons_append, peek_after, peek_cons_zero, hne, decide_True,
        decide_False, if_true, if_false, hs1, hs2, hset1, hset2, hpk1, hpk2, hc1, hc2,
        hb1, hb2, hb3, hb4, hb5, hb6, CondOp.chars, Bool.false_eq_true, Bool.not_eq_true',
        ite_flip] <;>
      simp only [List.append_assoc, List.cons_append, List.nil_append, List.length_append,
        List.length_cons, List.length_nil] <;>
      congr 1 <;> omega

theorem CondOp.chars_cons (op : CondOp) :
    ∃ o ot, op.chars = o :: ot ∧ o ∈ ['<', '>', '=', '!'] := by
  cases op <;> simp [CondOp.chars]

theorem condLoop_stop (vc : VersionCmp) (pkgname base fname : List Char) (n : Nat)
    (pre tail : List Char) (c : Char) (e : Int) (he : e ≠ 1) (cmps : List (List Char)) :
    condLoop vc pkgname base fname (n + 1) (pre ++ '\x00' :: tail) pre.length c e cmps
      = some { ret := e, pattern := pre ++ c :: tail, basePattern := base, fname := fname,
               compared := cmps } := by
  rw [condLoop]
  simp [set_append_length, he]

theorem condLoop_break (vc : VersionCmp) (pkgname base fname : List Char) (n : Nat)
    (pre tail : List Char) (c : Char) (cmps : List (List Char)) :
    condLoop vc pkgname base fname (n + 1) (pre ++ '\x00' :: tail) pre.length c 0 cmps
      = some { ret := 0, pattern := pre ++ c :: tail, basePattern := base, fname := fname,
               compared := cmps } :=
  condLoop_stop vc pkgname base fname n pre tail c 0 (by decide) cmps

/-- The loop over a whole chain of clauses. -/
theorem condLoop_chain (vc : VersionCmp) (hvc : VersionCmpOK vc)
    (pkgname base fname : List Char) :
    ∀ (clauses : List (CondOp × List Char)) (cl : CondOp × List Char) (pre : List Char)
      (n : Nat) (cmps : List (List Char)) (o : Char) (ot : List Char),
      cl.1.chars = o :: ot → ChainOK (cl :: clauses) → clauses.length + 2 ≤ n →
      condLoop vc pkgname base fname n
          (pre ++ '\x00' :: (ot ++ (cl.2 ++ renderClauses clauses))) pre.length o 1 cmps
        = some { ret := if allAccepted vc pkgname (cl :: clauses) then 1 else 0,
                 pattern := pre ++ renderClauses (cl :: clauses),
                 basePattern := base, fname := fname,
                 compared := cmps ++ comparedUpTo vc pkgname (cl :: clauses) } := by
  intro clauses
  induction clauses with
  | nil =>
    intro cl pre n cmps o ot hop hok hn
    obtain ⟨m, rfl⟩ : ∃ m, n = m + 1 := ⟨n - 1, by omega⟩
    have h := condLoop_clause vc hvc pkgname base fname m pre cl.1 o ot hop cl.2 [] cmps hok
      (Or.inl rfl)
    simp only [renderClauses, List.append_nil] at h ⊢
    rw [h]
    simp [allAccepted, comparedUpTo]
  | cons cl2 more ih =>
    intro cl pre n cmps o ot hop hok hn
    obtain ⟨m, rfl⟩ : ∃ m, n = m + 1 := ⟨n - 1, by omega⟩
    obtain ⟨o2, ot2, hop2, ho2⟩ := cl2.1.chars_cons
    obtain ⟨hlit, hne, hok2⟩ := hok
    have hr : renderClauses (cl2 :: more) = o2 :: (ot2 ++ (cl2.2 ++ renderClauses more)) := by
      simp [renderClauses, hop2]
    have h := condLoop_clause vc hvc pkgname base fname m pre cl.1 o ot hop cl.2
      (o2 :: (ot2 ++ (cl2.2 ++ renderClauses more))) cmps hlit
      (Or.inr ⟨hne, o2, _, rfl, ho2⟩)
    rw [hr, h]
    simp only
    by_cases hacc : cl.1.accepts (vc pkgname cl.2) = true
    · have := ih cl2 (pre ++ (cl.1.chars ++ cl.2)) m (cmps ++ [cl.2]) o2 ot2 hop2 hok2
        (by simp only [List.length_cons] at hn; omega)
      simp only [hacc, if_true]
      rw [this]
      simp only [allAccepted, comparedUpTo, hacc, renderClauses, hop2, List.all_cons,
        Bool.true_and, if_true, List.append_assoc, List.cons_append, List.nil_append,
        List.singleton_append]
    · obtain ⟨k, rfl⟩ : ∃ k, m = k + 1 := ⟨m - 1, by simp only [List.length_cons] at hn; omega⟩
      have hacc2 : cl.1.accepts (vc pkgname cl.2) = false := by simpa using hacc
      simp only [hacc2, Bool.false_eq_true, if_false]
      rw [condLoop_break]
      simp only [allAccepted, comparedUpTo, hacc2, renderClauses, hop2, List.all_cons,
        Bool.false_and, Bool.false_eq_true, if_false, List.append_assoc, List.cons_append,
        List.nil_append, List.singleton_append]

/-! ## pattern_match on a pattern with a chain of conditions -/

theorem peek_last_ne (b X : List Char) (h : b.getLast? ≠ some '!') :
    ¬ (0 < b.length ∧ peek (b ++ X) (b.length - 1) = '!') := by
  rcases List.eq_nil_or_concat b with rfl | ⟨b1, a, rfl⟩
  · simp
  · intro hh
    rw [List.concat_eq_append] at h hh
    have ha : a ≠ '!' := by
      intro e
      apply h
      simp [e]
    have hp : peek (b1 ++ [a] ++ X) ((b1 ++ [a]).length - 1) = a := by
      have := peek_append_zero b1 (a :: X)
      simpa [peek_cons_zero] using this
    exact ha (hp ▸ hh.2)

theorem length_renderClauses (clauses : List (CondOp × List Char)) :
    clauses.length ≤ (renderClauses clauses).length := by
  induction clauses with
  | nil => simp
  | cons cl rest ih =>
    obtain ⟨o, ot, ho, _⟩ := cl.1.chars_cons
    simp only [renderClauses, List.length_append, List.length_cons, ho]
    omega

/-- The function `pattern_match` on a base pattern followed by a chain of version
conditions. -/
theorem pattern_match_chain (vc : VersionCmp) (hvc : VersionCmpOK vc) (fn : Fnmatch)
    (re : RegexEngine) (kind : legacy_match_t) (b : List Char) (hb : BaseOK b)
    (cl : CondOp × List Char) (clauses : List (CondOp × List Char))
    (hok : ChainOK (cl :: clauses)) (c : List Char) :
    pattern_match vc fn re kind (b ++ renderClauses (cl :: clauses)) c
      = match pattern_base fn re kind b (pattern_fname c) with
        | none => none
        | some e =>
          some { ret := if e = 1 then (if allAccepted vc c (cl :: clauses) then 1 else 0) else e,
                 pattern := b ++ renderClauses (cl :: clauses),
                 basePattern := b, fname := pattern_fname c,
                 compared := if e = 1 then comparedUpTo vc c (cl :: clauses) else [] } := by
  obtain ⟨o, ot, hop, ho⟩ := cl.1.chars_cons
  have hr : renderClauses (cl :: clauses) = o :: (ot ++ (cl.2 ++ renderClauses clauses)) := by
    simp [renderClauses, hop]
  have hbn : ∀ x ∈ b, x ≠ '\x00' := fun x hx => (hb.1 x hx).2.2.2
  have hskip := fun rest => strpbrkFrom_skip ['<', '>', '=']  b rest (fun x hx => by
    have := hb.1 x hx
    simp [this.1, this.2.1, this.2.2.1, this.2.2.2])
  have hlast := peek_last_ne b (o :: (ot ++ (cl.2 ++ renderClauses clauses))) hb.2
  have hcond : ∃ c0, strpbrk (b ++ o :: (ot ++ (cl.2 ++ renderClauses clauses))) 0 ['<', '>', '=']
        = some c0 ∧
      (if 0 < c0 ∧ peek (b ++ o :: (ot ++ (cl.2 ++ renderClauses clauses))) (c0 - 1) = '!'
        then c0 - 1 else c0) = b.length := by
    by_cases hne : o = '!'
    · subst hne
      have hot : ot = ['='] := by
        cases h : cl.1 <;> rw [h] at hop <;> simp [CondOp.chars] at hop
        exact hop.symm
      subst hot
      refine ⟨b.length + 1, ?_, ?_⟩
      · rw [strpbrk, List.drop_zero, hskip]
        simp [strpbrkFrom]
      · have := peek_append_zero b ('!' :: '=' :: (cl.2 ++ renderClauses clauses))
        simp [this, peek_cons_zero]
    · refine ⟨b.length, ?_, ?_⟩
      · rw [strpbrk, List.drop_zero, hskip]
        have ho3 : o ∈ ['<', '>', '='] := by
          simp only [List.mem_cons, List.mem_singleton, List.not_mem_nil, or_false] at ho ⊢
          tauto
        have ho0 : o ≠ '\x00' := by
          intro h0; subst h0; revert ho3; decide
        simp [strpbrkFrom, ho3, ho0]
      · rw [if_neg hlast]
  obtain ⟨c0, hc0, hcd⟩ := hcond
  have hfuel : clauses.length + 2 ≤ (b ++ o :: (ot ++ (cl.2 ++ renderClauses clauses))).length + 1 := by
    have := length_renderClauses clauses
    simp only [List.length_append, List.length_cons]
    omega
  rw [hr, pattern_match, hc0]
  simp only [hcd, set_append_length, peek_append_zero, peek_cons_zero]
  have hcs : cstr (b ++ '\x00' :: (ot ++ (cl.2 ++ renderClauses clauses))) 0 = b := by
    rw [cstr, List.drop_zero, cstrOf_nulfree b _ hbn]
  rw [hcs]
  cases hbase : pattern_base fn re kind b (pattern_fname c) with
  | none => rfl
  | some e =>
    simp only
    by_cases he : e = 1
    · subst he
      rw [condLoop_chain vc hvc c b (pattern_fname c) clauses cl b _ [] o ot hop hok hfuel]
      simp [hr]
    · obtain ⟨n, hn⟩ : ∃ n, (b ++ o :: (ot ++ (cl.2 ++ renderClauses clauses))).length + 1 = n + 1 :=
        ⟨_, rfl⟩
      rw [condLoop_stop vc c b (pattern_fname c) _ b _ o e he []]
      simp [he]

theorem cmpSegs_range : ∀ (xs ys : List Nat),
    cmpSegs xs ys = -1 ∨ cmpSegs xs ys = 0 ∨ cmpSegs xs ys = 1 := by
  intro xs
  induction xs with
  | nil =>
    intro ys
    simp only [cmpSegs]
    split_ifs <;> simp
  | cons a as ih =>
    intro ys
    cases ys with
    | nil =>
      simp only [cmpSegs]
      split_ifs
      · simp
      · exact ih []
    | cons b bs =>
      simp only [cmpSegs]
      split_ifs
      · simp
      · simp
      · exact ih bs

theorem versionCmpRef_ok : VersionCmpOK versionCmpRef :=
  fun _ _ => cmpSegs_range _ _

/-- C1: for a base pattern `b` without operator characters and not ending in
`!`, an operator `op`, a version literal `v` and a candidate `c`, with
`version_cmp` yielding -1, 0 or 1: when the base match of `b` against the name
part of `c` is 1, `pattern_match` on `b op v` returns 1 if `op` accepts
`version_cmp(c, v)` and 0 otherwise; when the base match is 0 it returns 0. -/
theorem pattern_match_single_condition (vc : VersionCmp) (hvc : VersionCmpOK vc)
    (fn : Fnmatch) (re : RegexEngine) (kind : legacy_match_t)
    (b : List Char) (hb : BaseOK b) (op : CondOp) (v : List Char) (hv : LiteralOK v)
    (c : List Char) :
    (pattern_base fn re kind b (pattern_fname c) = some 1 →
      (pattern_match vc fn re kind (b ++ op.chars ++ v) c).map PMResult.ret
        = some (if op.accepts (vc c v) then 1 else 0)) ∧
    (pattern_base fn re kind b (pattern_fname c) = some 0 →
      (pattern_match vc fn re kind (b ++ op.chars ++ v) c).map PMResult.ret = some 0) := by
  have h := pattern_match_chain vc hvc fn re kind b hb (op, v) [] hv c
  have hp : b ++ renderClauses [(op, v)] = b ++ op.chars ++ v := by
    simp [renderClauses]
  rw [hp] at h
  constructor
  · intro h1
    rw [h, h1]
    simp [allAccepted]
  · intro h0
    rw [h, h0]
    simp

/-- Witness of C1: with the reference comparator, `foo>=1.2` matches `foo-1.5`
and not `foo-1.0`, and `foo!=1.5` matches `foo-1.0` and not `foo-1.5`. -/
theorem pattern_match_single_condition_witness :
    (pattern_match versionCmpRef fnmatchRef regexRef .LEGACY_MATCH_EXACT
        "foo>=1.2".toList "foo-1.5".toList).map PMResult.ret = some 1 ∧
    (pattern_match versionCmpRef fnmatchRef regexRef .LEGACY_MATCH_EXACT
        "foo>=1.2".toList "foo-1.0".toList).map PMResult.ret = some 0 ∧
    (pattern_match versionCmpRef fnmatchRef regexRef .LEGACY_MATCH_EXACT
        "foo!=1.5".toList "foo-1.0".toList).map PMResult.ret = some 1 ∧
    (pattern_match versionCmpRef fnmatchRef regexRef .LEGACY_MATCH_EXACT
        "foo!=1.5".toList "foo-1.5".toList).map PMResult.ret = some 0 :=
  ⟨((pattern_match_single_condition versionCmpRef versionCmpRef_ok fnmatchRef regexRef
      .LEGACY_MATCH_EXACT "foo".toList (by unfold BaseOK; decide) .ge "1.2".toList
      (by unfold LiteralOK; decide) "foo-1.5".toList).1 (by decide)).trans (by decide),
   ((pattern_match_single_condition versionCmpRef versionCmpRef_ok fnmatchRef regexRef
      .LEGACY_MATCH_EXACT "foo".toList (by unfold BaseOK; decide) .ge "1.2".toList
      (by unfold LiteralOK; decide) "foo-1.0".toList).1 (by decide)).trans (by decide),
   ((pattern_match_single_condition versionCmpRef versionCmpRef_ok fnmatchRef regexRef
      .LEGACY_MATCH_EXACT "foo".toList (by unfold BaseOK; decide) .ne "1.5".toList
      (by unfold LiteralOK; decide) "foo-1.0".toList).1 (by decide)).trans (by decide),
   ((pattern_match_single_condition versionCmpRef versionCmpRef_ok fnmatchRef regexRef
      .LEGACY_MATCH_EXACT "foo".toList (by unfold BaseOK; decide) .ne "1.5".toList
      (by unfold LiteralOK; decide) "foo-1.5".toList).1 (by decide)).trans (by decide)⟩

/-! ## csh_match: the inner scan always ends -/

theorem cshBracket_bounds (p : List Char) (pos : Nat) :
    cshBracket p pos = pos ∨ (pos < cshBracket p pos ∧ cshBracket p pos < p.length) := by
  have key : ∀ eb, pos < eb →
      (if p[eb]? = none then pos else eb) = pos ∨
        (pos < (if p[eb]? = none then pos else eb) ∧
          (if p[eb]? = none then pos else eb) < p.length) := by
    intro eb h
    by_cases h0 : p[eb]? = none
    · left; simp [h0]
    · right
      simp only [h0, if_false]
      refine ⟨h, ?_⟩
      by_contra hge
      exact h0 (List.getElem?_eq_none (by omega))
  unfold cshBracket
  exact key _ (by split_ifs <;> omega)

theorem cshSwitch_pos (p : List Char) (c : Char) (st : CshState) :
    (cshSwitch p c st).pos = st.pos ∨
      (st.pos < (cshSwitch p c st).pos ∧ (cshSwitch p c st).pos < p.length) := by
  unfold cshSwitch
  have hb := cshBracket_bounds p st.pos
  split_ifs <;> first | (left; rfl) | exact hb

theorem cshBody_pos (p : List Char) (st : CshState) :
    (cshBody p st).pos = st.pos ∨
      (st.pos < (cshBody p st).pos ∧ (cshBody p st).pos < p.length) := by
  unfold cshBody
  split
  · left; rfl
  · split_ifs
    · left; rfl
    · exact cshSwitch_pos p _ st

theorem cshStep_pos (p : List Char) (st : CshState) : st.pos < (cshStep p st).pos := by
  have := cshBody_pos p st
  simp only [cshStep]
  omega

theorem cshBody_postfx_none (p : List Char) (st : CshState)
    (hpf : (cshBody p st).postfx = none) : st.pos < p.length := by
  unfold cshBody at hpf
  split at hpf
  · simp at hpf
  · rename_i c hc
    by_contra hge
    rw [List.getElem?_eq_none (by omega)] at hc
    cases hc

/-- A step that does not end the scan leaves `pos` inside the string. -/
theorem cshStep_pos_le (p : List Char) (st : CshState)
    (hpf : (cshStep p st).postfx = none) :
    (cshStep p st).pos ≤ p.length := by
  have h1 := cshBody_postfx_none p st hpf
  have := cshBody_pos p st
  simp only [cshStep]
  omega

/-- Reading the terminator ends the scan. -/
theorem cshStep_end (p : List Char) (st : CshState) (h : p.length ≤ st.pos) :
    (cshStep p st).postfx = some st.pos := by
  simp [cshStep, cshBody, List.getElem?_eq_none h]

/-- The inner scan ends within `strlen(pattern) + 1 - pos` steps. -/
theorem cshScan_total (p : List Char) : ∀ (n : Nat) (st : CshState),
    st.postfx = none → st.pos ≤ p.length → p.length + 1 ≤ n + st.pos →
    ∃ f, cshScan p n st = some f ∧ f.postfx ≠ none := by
  intro n
  induction n with
  | zero => intro st _ h1 h2; omega
  | succ n ih =>
    intro st h0 h1 h2
    rw [cshScan]
    by_cases hpf : (cshStep p st).postfx = none
    · simp only [hpf, Option.isSome_none, Bool.false_eq_true, if_false]
      have hle := cshStep_pos_le p st hpf
      have hlt := cshStep_pos p st
      exact ih _ hpf hle (by omega)
    · refine ⟨cshStep p st, ?_, hpf⟩
      have : (cshStep p st).postfx.isSome = true := by
        cases h : (cshStep p st).postfx with
        | none => exact absurd h hpf
        | some _ => rfl
      simp [this]

/-- More steps do not change the outcome of a scan that ends. -/
theorem cshScan_mono (p : List Char) : ∀ (n m : Nat) (st f : CshState),
    cshScan p n st = some f → n ≤ m → cshScan p m st = some f := by
  intro n
  induction n with
  | zero => intro m st f h; simp [cshScan] at h
  | succ n ih =>
    intro m st f h hnm
    obtain ⟨k, rfl⟩ : ∃ k, m = k + 1 := ⟨m - 1, by omega⟩
    rw [cshScan] at h ⊢
    split_ifs at h ⊢ with hs
    · exact h
    · exact ih k _ f h (by omega)

/-! ## csh_match: every rebuilt pattern is shorter -/

theorem toInt32_natCast (n : Nat) (h : n < 2147483648) : toInt32 (n : Int) = n := by
  unfold toInt32; omega

theorem toInt32_sub (a b : Nat) (h : a < 2147483648) (hb : b ≤ a) :
    toInt32 ((a : Int) - (b : Int)) = ((a - b : Nat) : Int) := by
  unfold toInt32; omega

theorem cshInv_mono (p : List Char) (start : Nat) (st st1 : CshState)
    (hinv : CshInv p start st) (hp : st.pos ≤ st1.pos) (h1 : st1.nextchoice = st.nextchoice)
    (h2 : st1.current = st.current) (h3 : st1.prefixlen = st.prefixlen)
    (h4 : st1.currentlen = st.currentlen) (h5 : st1.level = st.level) :
    CshInv p start st1 := by
  obtain ⟨hs, hnext, hlvl, hcur, hlen, halt⟩ := hinv
  refine ⟨by omega, ?_, ?_, ?_, ?_, ?_⟩
  · intro n hn
    rw [h1] at hn
    have := hnext n hn
    rw [h5]
    exact ⟨this.1, by omega, this.2.2⟩
  · rw [h5, h2]; exact hlvl
  · intro h31 c hc
    rw [h2] at hc
    obtain ⟨a, pl, b, d⟩ := hcur h31 c hc
    exact ⟨by omega, pl, by rw [h3]; exact b, d⟩
  · intro h31
    rw [h4]; exact hlen h31
  · intro h31 n hn
    rw [h1] at hn
    rw [h2, h4]
    exact halt h31 n hn

theorem cshInv_step (p : List Char) (start : Nat) (st : CshState)
    (hinv : CshInv p start st) (h0 : st.postfx = none) (hpos : st.pos ≤ p.length) :
    ((cshStep p st).postfx = none → CshInv p start (cshStep p st)) ∧
    ((cshStep p st).postfx ≠ none → CshFinal p start (cshStep p st)) := by
  obtain ⟨hs, hnext, hlvl, hcur, hlen, halt⟩ := hinv
  cases hc : p[st.pos]? with
  | none =>
    have hL : p.length ≤ st.pos := by
      by_contra h
      have := List.getElem?_eq_getElem (l := p) (n := st.pos) (by omega)
      rw [this] at hc; cases hc
    have hst : cshStep p st = { st with postfx := some st.pos, pos := st.pos + 1 } := by
      simp [cshStep, cshBody, hc]
    rw [hst]
    refine ⟨by simp, fun _ => ?_⟩
    refine ⟨⟨st.pos, rfl, hpos⟩, ?_, ?_, ?_⟩
    · intro n hn
      have := hnext n hn
      exact ⟨this.1, by simp only at hn ⊢; omega⟩
    · intro h31 c pf hcc hpf
      simp only [Option.some.injEq] at hpf
      obtain ⟨h1, pl, h2, h3⟩ := hcur h31 c hcc
      obtain ⟨cl, h4⟩ := hlen h31
      exact ⟨by omega, pl, cl, h2, h4, h3, Or.inl (by omega)⟩
    · intro h31 n hn
      obtain ⟨c, h1, cl, h2, h3⟩ := halt h31 n hn
      obtain ⟨_, pl, h5, h6⟩ := hcur h31 c h1
      exact ⟨c, h1, by omega, pl, cl, h5, h6, h2⟩
  | some c =>
    have hlt : st.pos < p.length := by
      by_contra h
      rw [List.getElem?_eq_none (by omega)] at hc
      cases hc
    by_cases hq : st.quoted = true
    · have hst : cshStep p st = { st with quoted := false, pos := st.pos + 1 } := by
        simp [cshStep, cshBody, hc, hq]
      rw [hst]
      exact ⟨fun _ => cshInv_mono p start st _ ⟨hs, hnext, hlvl, hcur, hlen, halt⟩
        (by simp) rfl rfl rfl rfl rfl, fun h => absurd h0 h⟩
    · have hst : cshStep p st
          = { cshSwitch p c st with pos := (cshSwitch p c st).pos + 1 } := by
        simp [cshStep, cshBody, hc, hq]
      rw [hst]
      have hbr := cshBracket_bounds p st.pos
      unfold cshSwitch
      split_ifs with hc1 hl1 hc2 hl2 hc3 hl3 hc4 hc5 hc6
      · -- an opening brace at level 0
        refine ⟨fun _ => ⟨?_, ?_, ?_, ?_, ?_, ?_⟩, fun h => absurd h0 h⟩
        · simp only; omega
        · intro n hn
          have := hnext n hn
          omega
        · intro _; simp
        · intro h31 c1 hc1
          simp only [Option.some.injEq] at hc1
          subst hc1
          exact ⟨by simp, st.pos, by simp only; exact toInt32_natCast _ (by omega), by omega⟩
        · intro h31
          exact hlen h31
        · intro h31 n hn
          have := hnext n hn
          omega
      · -- an opening brace at another level
        refine ⟨fun _ => ⟨?_, ?_, ?_, ?_, ?_, ?_⟩, fun h => absurd h0 h⟩
        · simp only; omega
        · intro n hn
          have := hnext n hn
          simp only at hn ⊢
          omega
        · intro h1
          simp only at h1 ⊢
          exact hlvl (by omega)
        · intro h31 c1 hc1
          obtain ⟨a, pl, b, d⟩ := hcur h31 c1 hc1
          exact ⟨by simp only; omega, pl, b, d⟩
        · intro h31
          exact hlen h31
        · intro h31 n hn
          exact halt h31 n hn
      · -- the first comma at level 1
        obtain ⟨hl, hn0⟩ := hl2
        obtain ⟨cur, hcu⟩ : ∃ cur, st.current = some cur := by
          cases h : st.current with
          | none => exact absurd h (hlvl (by omega))
          | some cur => exact ⟨cur, rfl⟩
        refine ⟨fun _ => ⟨?_, ?_, ?_, ?_, ?_, ?_⟩, fun h => absurd h0 h⟩
        · simp only; omega
        · intro n hn
          simp only [Option.some.injEq] at hn
          simp only
          omega
        · intro _; simp [hcu]
        · intro h31 c1 hc1
          obtain ⟨a, pl, b, d⟩ := hcur h31 c1 hc1
          exact ⟨by simp only; omega, pl, b, d⟩
        · intro h31
          obtain ⟨a, pl, b, d⟩ := hcur h31 cur hcu
          exact ⟨st.pos - cur, by simp only [hcu, Option.getD_some]; exact toInt32_sub _ _ (by omega) a⟩
        · intro h31 n hn
          simp only [Option.some.injEq] at hn
          obtain ⟨a, pl, b, d⟩ := hcur h31 cur hcu
          refine ⟨cur, hcu, st.pos - cur, ?_, by omega⟩
          simp only [hcu, Option.getD_some]
          exact toInt32_sub _ _ (by omega) a
      · -- another comma
        exact ⟨fun _ => cshInv_mono p start st _ ⟨hs, hnext, hlvl, hcur, hlen, halt⟩
          (by simp) rfl rfl rfl rfl rfl, fun h => absurd h0 h⟩
      · -- the closing brace at level 1, no comma seen
        refine ⟨fun h => by simp at h, fun _ => ⟨⟨st.pos + 1, rfl, by omega⟩, ?_, ?_, ?_⟩⟩
        · intro n hn
          have := hnext n hn
          exact ⟨this.1, by omega⟩
        · intro h31 c1 pf hc1 hpf
          simp only [Option.some.injEq] at hpf
          subst hpf
          obtain ⟨a, pl, b, d⟩ := hcur h31 c1 hc1
          refine ⟨by omega, pl, st.pos - c1, b, ?_, d, Or.inr (by omega)⟩
          simp only at hc1
          simp only [hc1, Option.getD_some]
          exact toInt32_sub _ _ (by omega) a
        · intro h31 n hn
          simp only at hn
          rw [hc4] at hn
          cases hn
      · -- the closing brace at level 1, after a comma
        refine ⟨fun h => by simp at h, fun _ => ⟨⟨st.pos + 1, rfl, by omega⟩, ?_, ?_, ?_⟩⟩
        · intro n hn
          have := hnext n hn
          exact ⟨this.1, by omega⟩
        · intro h31 c1 pf hc1 hpf
          simp only [Option.some.injEq] at hpf
          subst hpf
          obtain ⟨a, pl, b, d⟩ := hcur h31 c1 hc1
          refine ⟨by omega, pl, ?_⟩
          cases hn : st.nextchoice with
          | none => exact absurd hn hc4
          | some n =>
            obtain ⟨c2, e1, cl, e2, e3⟩ := halt h31 n hn
            have := hnext n hn
            simp only at hc1
            rw [hc1] at e1
            cases e1
            exact ⟨cl, b, e2, d, Or.inr (by omega)⟩
        · intro h31 n hn
          obtain ⟨c2, e1, cl, e2, e3⟩ := halt h31 n hn
          obtain ⟨a, pl, b, d⟩ := hcur h31 c2 e1
          exact ⟨c2, e1, by omega, pl, cl, b, d, e2⟩
      · -- a closing brace at another level
        refine ⟨fun _ => ⟨?_, ?_, ?_, ?_, ?_, ?_⟩, fun h => absurd h0 h⟩
        · simp only; omega
        · intro n hn
          have := hnext n hn
          simp only at hn ⊢
          omega
        · intro h1
          simp only at h1 ⊢
          exact hlvl (by omega)
        · intro h31 c1 hc1
          obtain ⟨a, pl, b, d⟩ := hcur h31 c1 hc1
          exact ⟨by simp only; omega, pl, b, d⟩
        · intro h31
          exact hlen h31
        · intro h31 n hn
          exact halt h31 n hn
      · -- a bracket
        exact ⟨fun _ => cshInv_mono p start st _ ⟨hs, hnext, hlvl, hcur, hlen, halt⟩
          (by simp only; omega) rfl rfl rfl rfl rfl, fun h => absurd h0 h⟩
      · -- a backslash
        exact ⟨fun _ => cshInv_mono p start st _ ⟨hs, hnext, hlvl, hcur, hlen, halt⟩
          (by simp) rfl rfl rfl rfl rfl, fun h => absurd h0 h⟩
      · -- any other character
        exact ⟨fun _ => cshInv_mono p start st _ ⟨hs, hnext, hlvl, hcur, hlen, halt⟩
          (by simp) rfl rfl rfl rfl rfl, fun h => absurd h0 h⟩

theorem cshScan_final (p : List Char) (start : Nat) : ∀ (n : Nat) (st f : CshState),
    CshInv p start st → st.postfx = none → st.pos ≤ p.length →
    cshScan p n st = some f → CshFinal p start f := by
  intro n
  induction n with
  | zero => intro st f _ _ _ h; simp [cshScan] at h
  | succ n ih =>
    intro st f hinv h0 hpos h
    have hstep := cshInv_step p start st hinv h0 hpos
    rw [cshScan] at h
    by_cases hpf : (cshStep p st).postfx = none
    · simp only [hpf, Option.isSome_none, Bool.false_eq_true, if_false] at h
      exact ih _ f (hstep.1 hpf) hpf (cshStep_pos_le p st hpf) h
    · have : (cshStep p st).postfx.isSome = true := by
        cases h1 : (cshStep p st).postfx with
        | none => exact absurd h1 hpf
        | some _ => rfl
      simp only [this, if_true, Option.some.injEq] at h
      subst h
      exact hstep.2 hpf

theorem precTake_length_le (n : Nat) (l : List Char) :
    (precTake (n : Int) l).length ≤ n ∧ (precTake (n : Int) l).length ≤ l.length := by
  have : ¬ ((n : Int) < 0) := by omega
  simp only [precTake, this, if_false, Int.toNat_ofNat, List.length_take]
  omega

/-- The pattern rebuilt for the recursive call is strictly shorter than the
pattern it is built from. -/
theorem cshBuf_length (p : List Char) (start : Nat) (f : CshState) (cur pf : Nat)
    (hfin : CshFinal p start f) (hcur : f.current = some cur) (hpf : f.postfx = some pf) :
    (cshBuf p f cur pf).length < p.length := by
  by_cases hL : p.length < FILENAME_MAX
  · have h31 : p.length < 2147483648 := by
      unfold FILENAME_MAX at hL; omega
    obtain ⟨hc, pl, cl, e1, e2, hlt, hor⟩ := hfin.cur h31 cur pf hcur hpf
    obtain ⟨pf1, e3, hpfle⟩ := hfin.pf
    rw [hpf] at e3
    cases e3
    have h1 := precTake_length_le pl p
    have h2 := precTake_length_le cl (p.drop cur)
    have h3 : (cshBuf p f cur pf).length ≤
        (precTake (pl : Int) p).length + (precTake (cl : Int) (p.drop cur)).length
          + (p.drop pf).length := by
      simp only [cshBuf, e1, e2, List.length_take, List.length_append]
      omega
    simp only [List.length_drop] at h2 h3
    omega
  · have : (cshBuf p f cur pf).length ≤ FILENAME_MAX - 1 := by
      simp only [cshBuf, List.length_take]
      omega
    unfold FILENAME_MAX at hL this
    omega

theorem cshInv_init (p : List Char) : CshInv p 0 (cshEnter cshInit 0) := by
  refine ⟨by simp [cshEnter], ?_, ?_, ?_, ?_, ?_⟩
  · intro n hn; simp [cshEnter] at hn
  · intro h; simp [cshEnter, cshInit] at h
  · intro _ c hc; simp [cshEnter, cshInit] at hc
  · intro _; exact ⟨0, by simp [cshEnter, cshInit]⟩
  · intro _ n hn; simp [cshEnter] at hn

theorem cshInv_enter (p : List Char) (start : Nat) (f : CshState) (n : Nat)
    (hfin : CshFinal p start f) (hn : f.nextchoice = some n) :
    CshInv p n (cshEnter { f with current := f.nextchoice, level := 1 } n) := by
  refine ⟨by simp [cshEnter], ?_, ?_, ?_, ?_, ?_⟩
  · intro m hm; simp [cshEnter] at hm
  · intro _; simp [cshEnter, hn]
  · intro h31 c hc
    simp only [cshEnter, hn, Option.some.injEq] at hc
    subst hc
    obtain ⟨c, h1, h2, pl, cl, h3, h4, h5⟩ := hfin.alt h31 _ hn
    exact ⟨by simp [cshEnter], pl, by simpa [cshEnter] using h3, by omega⟩
  · intro h31
    obtain ⟨c, h1, h2, pl, cl, h3, h4, h5⟩ := hfin.alt h31 _ hn
    exact ⟨cl, by simpa [cshEnter] using h5⟩
  · intro _ m hm; simp [cshEnter] at hm

/-- The outer loop ends when the recursive call ends on every shorter pattern. -/
theorem cshLoop_total (call : List Char → Option CshResult) (fn : Fnmatch)
    (p s : List Char) (flags : Int)
    (hcall : ∀ buf : List Char, buf.length < p.length → call buf ≠ none) :
    ∀ (n : Nat) (v : CshState) (nc : Nat), v.nextchoice = some nc → nc ≤ p.length →
      CshInv p nc (cshEnter v nc) → p.length + 1 ≤ n + nc →
      ∃ r, cshLoop call fn p s flags n v = some r := by
  intro n
  induction n with
  | zero => intro v nc _ h1 _ h2; omega
  | succ n ih =>
    intro v nc hv hnc hinv hfuel
    rw [cshLoop]
    simp only [hv]
    obtain ⟨f, hf, hfp⟩ := cshScan_total p (p.length + 1) (cshEnter v nc) rfl hnc
      (by simp [cshEnter])
    have hfin := cshScan_final p nc _ _ f hinv rfl hnc hf
    rw [hf]
    simp only
    cases hcur : f.current with
    | none => exact ⟨_, rfl⟩
    | some cur =>
      simp only
      obtain ⟨pf, hpf, _⟩ := hfin.pf
      rw [hpf]
      simp only
      have hlen := cshBuf_length p nc f cur pf hfin hcur hpf
      cases hr : call (cshBuf p f cur pf) with
      | none => exact absurd hr (hcall _ hlen)
      | some r =>
        simp only
        by_cases h0 : r.1 = 0
        · simp [h0]
        · simp only [ne_eq, h0, not_false_eq_true, if_true]
          cases hn2 : f.nextchoice with
          | none => exact ⟨_, rfl⟩
          | some n2 =>
            simp only
            have hb := hfin.next n2 hn2
            obtain ⟨r2, hr2⟩ := ih { f with current := f.nextchoice, level := 1 } n2 hn2 hb.2
              (cshInv_enter p nc f n2 hfin hn2) (by omega)
            rw [hn2, hpf] at hr2
            rw [hr2]
            exact ⟨_, rfl⟩

/-- The function `csh_match` ends: a depth of `strlen(pattern) + 1` is enough. -/
theorem csh_match_fuel_total (fn : Fnmatch) (s : List Char) (flags : Int) :
    ∀ (d : Nat) (p : List Char), p.length + 1 ≤ d →
      ∃ r, csh_match_fuel fn d p s flags = some r := by
  intro d
  induction d with
  | zero => intro p h; omega
  | succ d ih =>
    intro p h
    rw [csh_match_fuel]
    apply cshLoop_total _ fn p s flags _ (p.length + 1) cshInit 0 rfl (by omega)
      (cshInv_init p) (by omega)
    intro buf hbuf
    obtain ⟨r, hr⟩ := ih buf (by omega)
    rw [hr]
    simp

theorem csh_match_total (fn : Fnmatch) (p s : List Char) (flags : Int) :
    ∃ r, csh_match fn p s flags = some r :=
  csh_match_fuel_total fn s flags _ p (Nat.le_refl _)

/-! ## csh_match: independence of the bounds -/

theorem cshLoop_congr (call call2 : List Char → Option CshResult) (fn : Fnmatch)
    (p s : List Char) (flags : Int)
    (hcall : ∀ buf : List Char, buf.length < p.length → call buf = call2 buf) :
    ∀ (n : Nat) (v : CshState) (nc : Nat), v.nextchoice = some nc → nc ≤ p.length →
      CshInv p nc (cshEnter v nc) →
      cshLoop call fn p s flags n v = cshLoop call2 fn p s flags n v := by
  intro n
  induction n with
  | zero => intro v nc _ _ _; rfl
  | succ n ih =>
    intro v nc hv hnc hinv
    rw [cshLoop, cshLoop]
    simp only [hv]
    obtain ⟨f, hf, hfp⟩ := cshScan_total p (p.length + 1) (cshEnter v nc) rfl hnc
      (by simp [cshEnter])
    have hfin := cshScan_final p nc _ _ f hinv rfl hnc hf
    rw [hf]
    simp only
    cases hcur : f.current with
    | none => rfl
    | some cur =>
      simp only
      obtain ⟨pf, hpf, _⟩ := hfin.pf
      rw [hpf]
      simp only
      have hlen := cshBuf_length p nc f cur pf hfin hcur hpf
      rw [← hcall _ hlen]
      cases hr : call (cshBuf p f cur pf) with
      | none => rfl
      | some r =>
        simp only
        by_cases h0 : r.1 = 0
        · simp [h0]
        · simp only [ne_eq, h0, not_false_eq_true, if_true]
          cases hn2 : f.nextchoice with
          | none => rfl
          | some n2 =>
            simp only
            have hb := hfin.next n2 hn2
            have := ih { f with current := f.nextchoice, level := 1 } n2 hn2 hb.2
              (cshInv_enter p nc f n2 hfin hn2)
            rw [hn2, hpf] at this
            rw [this]

theorem cshLoop_mono (call : List Char → Option CshResult) (fn : Fnmatch)
    (p s : List Char) (flags : Int) :
    ∀ (n m : Nat) (v : CshState) (r : CshResult),
      cshLoop call fn p s flags n v = some r → n ≤ m →
      cshLoop call fn p s flags m v = some r := by
  intro n
  induction n with
  | zero => intro m v r h; simp [cshLoop] at h
  | succ n ih =>
    intro m v r h hnm
    obtain ⟨k, rfl⟩ : ∃ k, m = k + 1 := ⟨m - 1, by omega⟩
    rw [cshLoop] at h ⊢
    cases hv : v.nextchoice with
    | none => simp [hv] at h
    | some nc =>
      simp only [hv] at h ⊢
      cases hf : cshScan p (p.length + 1) (cshEnter v nc) with
      | none => simp [hf] at h
      | some f =>
        simp only [hf] at h ⊢
        cases hcur : f.current with
        | none => simpa [hcur] using h
        | some cur =>
          simp only [hcur] at h ⊢
          cases hpf : f.postfx with
          | none => simp [hpf] at h
          | some pf =>
            simp only [hpf] at h ⊢
            cases hr : call (cshBuf p f cur pf) with
            | none => simp [hr] at h
            | some r1 =>
              simp only [hr] at h ⊢
              by_cases h0 : r1.1 = 0
              · simpa [h0] using h
              · simp only [ne_eq, h0, not_false_eq_true, if_true] at h ⊢
                cases hn2 : f.nextchoice with
                | none => simpa [hn2] using h
                | some n2 =>
                  simp only [hn2] at h ⊢
                  cases hl : cshLoop call fn p s flags n
                      { pos := f.pos, postfx := some pf, quoted := f.quoted,
                        nextchoice := some n2, current := some n2, prefixlen := f.prefixlen,
                        currentlen := f.currentlen, level := 1 } with
                  | none => simp [hl] at h
                  | some r2 =>
                    rw [ih k _ r2 hl (by omega)]
                    simpa [hl] using h

/-- A depth above `strlen(pattern) + 1` gives the same result. -/
theorem csh_match_fuel_eq (fn : Fnmatch) (s : List Char) (flags : Int) :
    ∀ (d : Nat) (p : List Char), p.length + 1 ≤ d →
      csh_match_fuel fn d p s flags = csh_match fn p s flags := by
  intro d
  induction d using Nat.strong_induction_on with
  | _ d ih =>
    intro p hd
    obtain ⟨e, rfl⟩ : ∃ e, d = e + 1 := ⟨d - 1, by omega⟩
    rw [csh_match, csh_match_fuel, csh_match_fuel]
    apply cshLoop_congr _ _ fn p s flags _ (p.length + 1) cshInit 0 rfl (by omega)
      (cshInv_init p)
    intro buf hbuf
    rw [ih e (by omega) buf (by omega)]
    by_cases hp : p.length = e
    · rw [hp, ih e (by omega) buf (by omega)]
    · rw [ih p.length (by omega) buf (by omega)]

/-- The function `csh_match` in terms of itself: the recursive call is the
function again. -/
theorem csh_match_unfold (fn : Fnmatch) (p s : List Char) (flags : Int) :
    csh_match fn p s flags
      = cshLoop (fun buf => csh_match fn buf s flags) fn p s flags (p.length + 1) cshInit := by
  rw [csh_match, csh_match_fuel]
  apply cshLoop_congr _ _ fn p s flags _ (p.length + 1) cshInit 0 rfl (by omega)
    (cshInv_init p)
  intro buf hbuf
  exact csh_match_fuel_eq fn s flags _ buf (by omega)

/-! ## csh_match: the scan, step by step -/

theorem cshRuns_scan (p : List Char) (st f : CshState) (h : CshRuns p st f) :
    ∃ n, cshScan p n st = some f := by
  induction h with
  | done st hpf =>
    refine ⟨1, ?_⟩
    have : (cshStep p st).postfx.isSome = true := by
      cases h1 : (cshStep p st).postfx with
      | none => exact absurd h1 hpf
      | some _ => rfl
    simp [cshScan, this]
  | step st f hpf _ ih =>
    obtain ⟨n, hn⟩ := ih
    exact ⟨n + 1, by simp [cshScan, hpf, hn]⟩

/-- A scan followed step by step is the scan of the function. -/
theorem cshScan_of_runs (p : List Char) (st f : CshState) (h : CshRuns p st f)
    (h0 : st.postfx = none) (hpos : st.pos ≤ p.length) :
    cshScan p (p.length + 1) st = some f := by
  obtain ⟨n, hn⟩ := cshRuns_scan p st f h
  obtain ⟨f1, hf1, _⟩ := cshScan_total p (p.length + 1) st h0 hpos (by omega)
  have e1 := cshScan_mono p n (max n (p.length + 1)) st f hn (le_max_left _ _)
  have e2 := cshScan_mono p (p.length + 1) (max n (p.length + 1)) st f1 hf1 (le_max_right _ _)
  rw [e1] at e2
  cases e2
  exact hf1

/-! ## pattern_match: results -/

theorem pattern_base_total (fn : Fnmatch) (re : RegexEngine) (kind : legacy_match_t)
    (pat fname : List Char) : ∃ e, pattern_base fn re kind pat fname = some e := by
  obtain ⟨r, hr⟩ := csh_match_total fn pat fname 0
  cases kind <;> simp [pattern_base, hr]

theorem chainOK_of_all : ∀ (l : List (CondOp × List Char)),
    (∀ x ∈ l, x.2 ≠ [] ∧ LiteralOK x.2) → ChainOK l
  | [], _ => trivial
  | [x], h => (h x (by simp)).2
  | x :: y :: rest, h =>
    ⟨(h x (by simp)).2, (h x (by simp)).1,
      chainOK_of_all (y :: rest) (fun z hz => h z (List.mem_cons_of_mem _ hz))⟩

theorem comparedUpTo_all (vc : VersionCmp) (c : List Char) :
    ∀ (l : List (CondOp × List Char)), (∀ x ∈ l, x.1.accepts (vc c x.2) = true) →
      comparedUpTo vc c l = l.map Prod.snd
  | [], _ => rfl
  | x :: rest, h => by
    have h1 := h x (by simp)
    have h2 := comparedUpTo_all vc c rest (fun z hz => h z (List.mem_cons_of_mem _ hz))
    simp [comparedUpTo, h1, h2]

theorem comparedUpTo_split (vc : VersionCmp) (c : List Char) (x : CondOp × List Char)
    (post : List (CondOp × List Char)) (hx : x.1.accepts (vc c x.2) = false) :
    ∀ (pre : List (CondOp × List Char)), (∀ y ∈ pre, y.1.accepts (vc c y.2) = true) →
      comparedUpTo vc c (pre ++ x :: post) = (pre ++ [x]).map Prod.snd
  | [], _ => by simp [comparedUpTo, hx]
  | y :: pre, h => by
    have h1 := h y (by simp)
    have h2 := comparedUpTo_split vc c x post hx pre
      (fun z hz => h z (List.mem_cons_of_mem _ hz))
    show comparedUpTo vc c (y :: (pre ++ x :: post)) = _
    rw [comparedUpTo, h1, if_pos rfl, h2]
    rfl

/-- C2: chained version conditions are a left-to-right logical AND. On a base
pattern followed by clauses `op1 v1 ... opn vn` (literals non-empty and
well formed), `pattern_match` returns a result; it returns 1 exactly when the
base match is 1 and every clause is accepted; when the base match is 1 and the
first clause that is not accepted is `x`, it returns 0 and the literals handed
to `version_cmp` are those of the clauses up to `x` and no later one. -/
theorem pattern_match_chained_conditions (vc : VersionCmp) (hvc : VersionCmpOK vc)
    (fn : Fnmatch) (re : RegexEngine) (kind : legacy_match_t)
    (b : List Char) (hb : BaseOK b) (cl : CondOp × List Char)
    (clauses : List (CondOp × List Char))
    (hcl : ∀ x ∈ cl :: clauses, x.2 ≠ [] ∧ LiteralOK x.2) (c : List Char) :
    ∃ e r, pattern_base fn re kind b (pattern_fname c) = some e ∧
      pattern_match vc fn re kind (b ++ renderClauses (cl :: clauses)) c = some r ∧
      (r.ret = 1 ↔ e = 1 ∧ ∀ x ∈ cl :: clauses, x.1.accepts (vc c x.2) = true) ∧
      (e = 1 → (∀ x ∈ cl :: clauses, x.1.accepts (vc c x.2) = true) →
        r.compared = (cl :: clauses).map Prod.snd) ∧
      (e = 1 → ∀ pre x post, cl :: clauses = pre ++ x :: post →
        (∀ y ∈ pre, y.1.accepts (vc c y.2) = true) → x.1.accepts (vc c x.2) = false →
        r.ret = 0 ∧ r.compared = (pre ++ [x]).map Prod.snd) := by
  obtain ⟨e, he⟩ := pattern_base_total fn re kind b (pattern_fname c)
  have h := pattern_match_chain vc hvc fn re kind b hb cl clauses (chainOK_of_all _ hcl) c
  rw [he] at h
  refine ⟨e, _, he, h, ?_, ?_, ?_⟩
  · simp only
    by_cases h1 : e = 1
    · simp only [h1, if_true, true_and]
      by_cases ha : allAccepted vc c (cl :: clauses) = true
      · simp only [ha, if_true, true_iff]
        simpa [allAccepted] using ha
      · simp only [ha, if_false]
        simp only [allAccepted, List.all_eq_true] at ha
        constructor
        · intro h; exact absurd h (by decide)
        · intro h; exact absurd h ha
    · simp [h1]
  · intro h1 hall
    simp only [h1, if_true]
    exact comparedUpTo_all vc c _ hall
  · intro h1 pre x post hsplit hpre hx
    simp only [h1, if_true]
    constructor
    · have : allAccepted vc c (cl :: clauses) = false := by
        rw [hsplit]
        simp [allAccepted, hx]
      simp [this]
    · rw [hsplit]
      exact comparedUpTo_split vc c x post hx pre hpre

/-- Witness of C2: with the reference comparator, `foo>=1.0<2.0` matches
`foo-1.5`, and does not match `foo-2.0` nor `foo-0.9`; on `foo-0.9` only the
literal `1.0` is compared. -/
theorem pattern_match_chained_conditions_witness :
    (pattern_match versionCmpRef fnmatchRef regexRef .LEGACY_MATCH_GLOB
        "foo>=1.0<2.0".toList "foo-1.5".toList).map PMResult.ret = some 1 ∧
    (pattern_match versionCmpRef fnmatchRef regexRef .LEGACY_MATCH_GLOB
        "foo>=1.0<2.0".toList "foo-2.0".toList).map PMResult.ret = some 0 ∧
    (pattern_match versionCmpRef fnmatchRef regexRef .LEGACY_MATCH_GLOB
        "foo>=1.0<2.0".toList "foo-0.9".toList).map (fun r => (r.ret, r.compared))
      = some (0, ["1.0".toList]) := by
  have hk := fun c => pattern_match_chained_conditions versionCmpRef versionCmpRef_ok
    fnmatchRef regexRef .LEGACY_MATCH_GLOB "foo".toList (by unfold BaseOK; decide)
    (.ge, "1.0".toList) [(.lt, "2.0".toList)] (by unfold LiteralOK; decide) c
  refine ⟨?_, ?_, ?_⟩
  · obtain ⟨e, r, he, hr, hiff, _, _⟩ := hk "foo-1.5".toList
    have e1 : e = 1 := by
      have : pattern_base fnmatchRef regexRef .LEGACY_MATCH_GLOB "foo".toList
          (pattern_fname "foo-1.5".toList) = some 1 := by decide
      rw [this] at he
      exact (Option.some.inj he).symm
    have hp : "foo".toList ++ renderClauses [(CondOp.ge, "1.0".toList), (CondOp.lt, "2.0".toList)]
        = "foo>=1.0<2.0".toList := by decide
    rw [hp] at hr
    rw [hr]
    exact congrArg some (hiff.2 ⟨e1, by decide⟩)
  · obtain ⟨e, r, he, hr, _, _, hsplit⟩ := hk "foo-2.0".toList
    have e1 : e = 1 := by
      have : pattern_base fnmatchRef regexRef .LEGACY_MATCH_GLOB "foo".toList
          (pattern_fname "foo-2.0".toList) = some 1 := by decide
      rw [this] at he
      exact (Option.some.inj he).symm
    have hp : "foo".toList ++ renderClauses [(CondOp.ge, "1.0".toList), (CondOp.lt, "2.0".toList)]
        = "foo>=1.0<2.0".toList := by decide
    rw [hp] at hr
    rw [hr]
    exact congrArg some
      (hsplit e1 [(.ge, "1.0".toList)] (.lt, "2.0".toList) [] rfl (by decide) (by decide)).1
  · obtain ⟨e, r, he, hr, _, _, hsplit⟩ := hk "foo-0.9".toList
    have e1 : e = 1 := by
      have : pattern_base fnmatchRef regexRef .LEGACY_MATCH_GLOB "foo".toList
          (pattern_fname "foo-0.9".toList) = some 1 := by decide
      rw [this] at he
      exact (Option.some.inj he).symm
    have hp : "foo".toList ++ renderClauses [(CondOp.ge, "1.0".toList), (CondOp.lt, "2.0".toList)]
        = "foo>=1.0<2.0".toList := by decide
    rw [hp] at hr
    rw [hr]
    have := hsplit e1 [] (.ge, "1.0".toList) [(.lt, "2.0".toList)] rfl (by decide) (by decide)
    simp only [Option.map_some', this.1, this.2]
    rfl

/-! ## pattern_match on every pattern -/

theorem strpbrkFrom_bound (set : List Char) : ∀ (l : List Char) (k : Nat),
    strpbrkFrom set l = some k → k < l.length
  | [], k, h => by simp [strpbrkFrom] at h
  | c :: l, k, h => by
    rw [strpbrkFrom] at h
    split_ifs at h with h1 h2
    · cases h; simp
    · cases hr : strpbrkFrom set l with
      | none => simp [hr] at h
      | some j =>
        have := strpbrkFrom_bound set l j hr
        simp only [hr, Option.map_some', Option.some.injEq] at h
        simp only [List.length_cons]
        omega

theorem strpbrk_bound (buf : List Char) (i : Nat) (set : List Char) (j : Nat)
    (h : strpbrk buf i set = some j) : i ≤ j ∧ j < buf.length := by
  unfold strpbrk at h
  cases hr : strpbrkFrom set (buf.drop i) with
  | none => simp [hr] at h
  | some k =>
    have := strpbrkFrom_bound set _ k hr
    simp only [hr, Option.map_some', Option.some.injEq, List.length_drop] at h this
    omega

/-- The condition loop ends on every buffer, and only ever lowers a base
match of 1 to 0. -/
theorem condLoop_total (vc : VersionCmp) (pkgname base fname : List Char) :
    ∀ (n : Nat) (buf : List Char) (cond : Nat) (cc : Char) (e : Int) (cmps : List (List Char)),
      cond < buf.length → buf.length ≤ n + cond →
      ∃ r, condLoop vc pkgname base fname n buf cond cc e cmps = some r ∧
        r.basePattern = base ∧ r.fname = fname ∧
        (e ≠ 1 → r.ret = e ∧ r.compared = cmps) ∧ (e = 1 → r.ret = 0 ∨ r.ret = 1) := by
  intro n
  induction n with
  | zero => intro buf cond cc e cmps h1 h2; omega
  | succ n ih =>
    intro buf cond cc e cmps h1 h2
    rw [condLoop]
    by_cases he : e = 1
    · subst he
      simp only [if_true]
      cases hnx : strpbrk (buf.set cond cc)
          (if decide (peek (buf.set cond cc) (cond + 1) = '=') = true then cond + 2 else cond + 1)
          ['<', '>', '=', '!'] with
      | none =>
        refine ⟨_, rfl, rfl, rfl, fun h => absurd rfl h, fun _ => ?_⟩
        simp only
        split_ifs <;> simp
      | some j =>
        simp only
        have hb := strpbrk_bound _ _ _ _ hnx
        have hj : cond < j := by
          have := hb.1
          split_ifs at this <;> omega
        have hlen : ((buf.set cond cc).set j '\x00').length = buf.length := by simp
        have hjl : j < buf.length := by simpa using hb.2
        have key : ∀ (e1 : Int) (cm : List (List Char)), (e1 = 0 ∨ e1 = 1) →
            ∃ r, condLoop vc pkgname base fname n ((buf.set cond cc).set j '\x00') j
                (peek (buf.set cond cc) j) e1 cm = some r ∧
              r.basePattern = base ∧ r.fname = fname ∧ (r.ret = 0 ∨ r.ret = 1) := by
          intro e1 cm he1
          obtain ⟨r, hr, h3, h4, h5, h6⟩ := ih ((buf.set cond cc).set j '\x00') j
            (peek (buf.set cond cc) j) e1 cm (by rw [hlen]; exact hjl) (by rw [hlen]; omega)
          refine ⟨r, hr, h3, h4, ?_⟩
          rcases he1 with h | h
          · subst h
            exact Or.inl (h5 (by decide)).1
          · exact h6 h
        obtain ⟨r, hr, h3, h4, h5⟩ := key
          (if condRejects
              (condBits cc (if decide (peek (buf.set cond cc) (cond + 1) = '=') = true then 2 else 0))
              (vc pkgname (cstr ((buf.set cond cc).set j '\x00')
                (if decide (peek (buf.set cond cc) (cond + 1) = '=') = true then cond + 2
                  else cond + 1))) = true then 0 else 1)
          (cmps ++ [cstr ((buf.set cond cc).set j '\x00')
                (if decide (peek (buf.set cond cc) (cond + 1) = '=') = true then cond + 2
                  else cond + 1)])
          (by split_ifs <;> simp)
        exact ⟨r, hr, h3, h4, fun h => absurd rfl h, fun _ => h5⟩
    · rw [if_neg he]
      exact ⟨_, rfl, rfl, rfl, fun _ => ⟨rfl, rfl⟩, fun h => absurd h he⟩

/-- The function `pattern_match` returns on every input; its result is governed
by the base match on the strings recorded as `basePattern` and `fname`. -/
theorem pattern_match_total (vc : VersionCmp) (fn : Fnmatch) (re : RegexEngine)
    (kind : legacy_match_t) (pattern c : List Char) :
    ∃ r e, pattern_match vc fn re kind pattern c = some r ∧
      pattern_base fn re kind r.basePattern r.fname = some e ∧
      (e ≠ 1 → r.ret = e ∧ r.compared = []) ∧ (e = 1 → r.ret = 0 ∨ r.ret = 1) ∧
      (strpbrk pattern 0 ['<', '>', '='] = none →
        r.fname = c ∧ r.basePattern = cstr pattern 0) ∧
      (∀ c0, strpbrk pattern 0 ['<', '>', '='] = some c0 →
        r.fname = pattern_fname c ∧
        r.basePattern = cstr (pattern.set
          (if 0 < c0 ∧ peek pattern (c0 - 1) = '!' then c0 - 1 else c0) '\x00') 0) := by
  unfold pattern_match
  cases hs : strpbrk pattern 0 ['<', '>', '='] with
  | none =>
    simp only
    obtain ⟨e, he⟩ := pattern_base_total fn re kind (cstr pattern 0) c
    rw [he]
    exact ⟨_, e, rfl, he, fun _ => ⟨rfl, rfl⟩, fun h => Or.inr h, fun _ => ⟨rfl, rfl⟩,
      fun c0 h => Option.noConfusion h⟩
  | some c0 =>
    simp only
    have hb := strpbrk_bound _ _ _ _ hs
    obtain ⟨e, he⟩ := pattern_base_total fn re kind
      (cstr (pattern.set (if 0 < c0 ∧ peek pattern (c0 - 1) = '!' then c0 - 1 else c0) '\x00') 0)
      (pattern_fname c)
    rw [he]
    simp only
    have hcl : (if 0 < c0 ∧ peek pattern (c0 - 1) = '!' then c0 - 1 else c0) < pattern.length := by
      split_ifs <;> omega
    obtain ⟨r, hr, h3, h4, h5, h6⟩ := condLoop_total vc c
      (cstr (pattern.set (if 0 < c0 ∧ peek pattern (c0 - 1) = '!' then c0 - 1 else c0) '\x00') 0)
      (pattern_fname c) (pattern.length + 1)
      (pattern.set (if 0 < c0 ∧ peek pattern (c0 - 1) = '!' then c0 - 1 else c0) '\x00')
      (if 0 < c0 ∧ peek pattern (c0 - 1) = '!' then c0 - 1 else c0)
      (peek pattern (if 0 < c0 ∧ peek pattern (c0 - 1) = '!' then c0 - 1 else c0)) e []
      (by simpa using hcl) (by simp only [List.length_set]; omega)
    refine ⟨r, e, hr, ?_, h5, h6, ⟨fun h => Option.noConfusion h, fun c1 h => ?_⟩⟩
    · rw [h3, h4]
      exact he
    · cases h
      exact ⟨h4, h3⟩

theorem strpbrk_zero_none (set l : List Char) (hl : ∀ x ∈ l, x ≠ '\x00' ∧ x ∉ set) :
    strpbrk l 0 set = none := by
  have := strpbrkFrom_skip set l [] hl
  simp only [List.append_nil] at this
  simp [strpbrk, this, strpbrkFrom]

theorem strpbrk_zero_first (set b rest : List Char) (x : Char)
    (hb : ∀ y ∈ b, y ≠ '\x00' ∧ y ∉ set) (hx : x ∈ set) (hx0 : x ≠ '\x00') :
    strpbrk (b ++ x :: rest) 0 set = some b.length := by
  have := strpbrkFrom_skip set b (x :: rest) hb
  simp [strpbrk, this, strpbrkFrom, hx, hx0]

/-- A character of the set in a string without NUL is found by `strpbrk`. -/
theorem strpbrk_zero_some (set : List Char) : ∀ (l : List Char),
    (∀ x ∈ l, x ≠ '\x00') → (∃ x ∈ l, x ∈ set) → ∃ k, strpbrk l 0 set = some k := by
  intro l hl hex
  by_contra hne
  have hnone : strpbrkFrom set l = none := by
    cases h : strpbrkFrom set l with
    | none => rfl
    | some k => exact absurd ⟨k, by simp [strpbrk, h]⟩ hne
  clear hne
  induction l with
  | nil => simp at hex
  | cons a l ih =>
    have ha := hl a (by simp)
    rw [strpbrkFrom] at hnone
    simp only [ha, if_false] at hnone
    split_ifs at hnone with h1
    simp only [Option.map_eq_none'] at hnone
    obtain ⟨x, hx, hxs⟩ := hex
    rcases List.mem_cons.1 hx with rfl | hx
    · exact h1 hxs
    · exact ih (fun y hy => hl y (List.mem_cons_of_mem _ hy)) ⟨x, hx, hxs⟩ hnone

theorem strrchr_none (c : Char) : ∀ (l : List Char), c ∉ l → strrchr l c = none
  | [], _ => rfl
  | d :: l, h => by
    have h1 : d ≠ c := fun e => h (by simp [e])
    have h2 := strrchr_none c l (fun hm => h (List.mem_cons_of_mem _ hm))
    simp [strrchr, h2, h1]

theorem strrchr_split (c : Char) (v : List Char) (hv : c ∉ v) : ∀ (n : List Char),
    strrchr (n ++ c :: v) c = some n.length
  | [] => by simp [strrchr, strrchr_none c v hv]
  | d :: n => by
    have := strrchr_split c v hv n
    simp [strrchr, this]

theorem pattern_fname_split (c n v : List Char) (hc : c.length < PATH_MAX)
    (h : c = n ++ '-' :: v) (hv : '-' ∉ v) : pattern_fname c = n := by
  subst h
  have hn : n.length < PATH_MAX := by
    simp only [List.length_append, List.length_cons] at hc
    omega
  simp [pattern_fname, strrchr_split '-' v hv n, hn, strlcpy]

theorem pattern_fname_whole (c : List Char) (h : '-' ∉ c) : pattern_fname c = c := by
  simp [pattern_fname, strrchr_none '-' c h]

/-- C3: name/version split at the last hyphen. For a candidate `c` shorter than
`PATH_MAX`, `pattern_match` returns a result governed by the base match on the
recorded `basePattern` and `fname`; when the pattern carries a condition,
`fname` is the part of `c` before its last hyphen (all of `c` when it has
none); when the pattern carries no condition, `fname` is `c`. -/
theorem pattern_match_name_split (vc : VersionCmp) (fn : Fnmatch) (re : RegexEngine)
    (kind : legacy_match_t) (pattern c : List Char)
    (hp : ∀ x ∈ pattern, x ≠ '\x00') (hc : c.length < PATH_MAX) :
    ∃ r e, pattern_match vc fn re kind pattern c = some r ∧
      pattern_base fn re kind r.basePattern r.fname = some e ∧
      (e ≠ 1 → r.ret = e) ∧ (r.ret = 1 → e = 1) ∧
      ((∃ x ∈ pattern, x = '<' ∨ x = '>' ∨ x = '=') →
        (∀ n v, c = n ++ '-' :: v → '-' ∉ v → r.fname = n) ∧ ('-' ∉ c → r.fname = c)) ∧
      ((∀ x ∈ pattern, x ≠ '<' ∧ x ≠ '>' ∧ x ≠ '=') → r.fname = c) := by
  obtain ⟨r, e, hr, he, h1, h2, hnone, hsome⟩ := pattern_match_total vc fn re kind pattern c
  refine ⟨r, e, hr, he, fun h => (h1 h).1, ?_, ?_, ?_⟩
  · intro hret
    by_contra hne
    exact hne ((h1 hne).1 ▸ hret)
  · intro hex
    obtain ⟨k, hk⟩ := strpbrk_zero_some ['<', '>', '='] pattern hp (by
      obtain ⟨x, hx, hxo⟩ := hex
      exact ⟨x, hx, by simpa using hxo⟩)
    have hf := (hsome k hk).1
    exact ⟨fun n v hnv hv => hf.trans (pattern_fname_split c n v hc hnv hv),
      fun h => hf.trans (pattern_fname_whole c h)⟩
  · intro hno
    have := strpbrk_zero_none ['<', '>', '='] pattern (fun x hx => by
      have := hno x hx
      exact ⟨hp x hx, by simp [this.1, this.2.1, this.2.2]⟩)
    exact (hnone this).1

/-- Witness of C3: for `lib-foo-bar-1.2.3` the name used is `lib-foo-bar`, so
the exact pattern `lib-foo-bar>=0` has base match 1 on it, while the pattern
`lib-foo-bar` without a condition is matched against the whole identifier and
fails. -/
theorem pattern_match_name_split_witness :
    (pattern_match versionCmpRef fnmatchRef regexRef .LEGACY_MATCH_EXACT
        "lib-foo-bar>=0".toList "lib-foo-bar-1.2.3".toList).map PMResult.fname
      = some "lib-foo-bar".toList ∧
    pattern_base fnmatchRef regexRef .LEGACY_MATCH_EXACT "lib-foo-bar".toList
        "lib-foo-bar".toList = some 1 ∧
    (pattern_match versionCmpRef fnmatchRef regexRef .LEGACY_MATCH_EXACT
        "lib-foo-bar".toList "lib-foo-bar-1.2.3".toList).map (fun r => (r.ret, r.fname))
      = some (0, "lib-foo-bar-1.2.3".toList) := by
  refine ⟨?_, by decide, ?_⟩
  · obtain ⟨r, e, hr, _, _, _, hcond, _⟩ := pattern_match_name_split versionCmpRef fnmatchRef
      regexRef .LEGACY_MATCH_EXACT "lib-foo-bar>=0".toList "lib-foo-bar-1.2.3".toList
      (by decide) (by decide)
    rw [hr]
    exact congrArg some ((hcond (by decide)).1 "lib-foo-bar".toList "1.2.3".toList
      (by decide) (by decide))
  · obtain ⟨r, e, hr, he, hne, _, _, hplain⟩ := pattern_match_name_split versionCmpRef
      fnmatchRef regexRef .LEGACY_MATCH_EXACT "lib-foo-bar".toList "lib-foo-bar-1.2.3".toList
      (by decide) (by decide)
    have hf := hplain (by decide)
    rw [hr]
    have hb : r.basePattern = "lib-foo-bar".toList := by
      have : pattern_match versionCmpRef fnmatchRef regexRef .LEGACY_MATCH_EXACT
          "lib-foo-bar".toList "lib-foo-bar-1.2.3".toList
          = some ⟨0, "lib-foo-bar".toList, "lib-foo-bar".toList, "lib-foo-bar-1.2.3".toList, []⟩ := by
        decide
      rw [this] at hr
      cases hr
      rfl
    rw [hb, hf] at he
    have e0 : e = 0 := by
      have : pattern_base fnmatchRef regexRef .LEGACY_MATCH_EXACT "lib-foo-bar".toList
          "lib-foo-bar-1.2.3".toList = some 0 := by decide
      rw [this] at he
      exact (Option.some.inj he).symm
    simp only [Option.map_some', hf, hne (by rw [e0]; decide), e0]

theorem cstr_set_base (b rest : List Char) (x : Char) (hb : ∀ y ∈ b, y ≠ '\x00') :
    cstr ((b ++ x :: rest).set
      (if 0 < b.length ∧ peek (b ++ x :: rest) (b.length - 1) = '!' then b.length - 1
        else b.length) '\x00') 0
      = if b.getLast? = some '!' then b.dropLast else b := by
  rcases List.eq_nil_or_concat b with rfl | ⟨b1, a, rfl⟩
  · simp [cstr, cstrOf]
  · rw [List.concat_eq_append] at hb ⊢
    have hp : peek (b1 ++ [a] ++ x :: rest) ((b1 ++ [a]).length - 1) = a := by
      have := peek_append_zero b1 (a :: x :: rest)
      simpa [peek_cons_zero] using this
    have hb1 : ∀ y ∈ b1, y ≠ '\x00' := fun y hy => hb y (by simp [hy])
    rw [hp]
    by_cases ha : a = '!'
    · subst ha
      have h1 : (b1 ++ ['!'] ++ x :: rest) = b1 ++ '!' :: (x :: rest) := by simp
      have h2 : (b1 ++ ['!']).length - 1 = b1.length := by simp
      simp only [List.length_append, List.length_singleton, Nat.zero_lt_succ, and_self, if_true,
        List.getLast?_append, List.getLast?_singleton, Option.or_some, List.dropLast_concat]
      rw [h1]
      simp only [Nat.add_sub_cancel, set_append_length]
      rw [cstr, List.drop_zero, cstrOf_nulfree b1 _ hb1]
    · have h1 : (b1 ++ [a] ++ x :: rest).set (b1 ++ [a]).length '\x00'
          = (b1 ++ [a]) ++ '\x00' :: rest := set_append_length _ _ _ _
      simp only [ha, and_false, if_false, h1]
      rw [cstr, List.drop_zero, cstrOf_nulfree _ _ hb]
      simp [ha]

/-- C4 as amended: the condition of a pattern starts at the first occurrence of
`<`, `>` or `=`, escaped or not. For a pattern `b x rest` where `x` is the
first operator character, the base name-pattern of `pattern_match` is `b`, less
a `!` at its end; for a pattern without operator characters it is the whole
pattern. -/
theorem pattern_match_condition_start (vc : VersionCmp) (fn : Fnmatch) (re : RegexEngine)
    (kind : legacy_match_t) (pattern c : List Char) (hp : ∀ x ∈ pattern, x ≠ '\x00') :
    ∃ r e, pattern_match vc fn re kind pattern c = some r ∧
      pattern_base fn re kind r.basePattern r.fname = some e ∧
      (e ≠ 1 → r.ret = e) ∧ (r.ret = 1 → e = 1) ∧
      (∀ b x rest, pattern = b ++ x :: rest → (∀ y ∈ b, y ≠ '<' ∧ y ≠ '>' ∧ y ≠ '=') →
        (x = '<' ∨ x = '>' ∨ x = '=') →
        r.basePattern = if b.getLast? = some '!' then b.dropLast else b) ∧
      ((∀ y ∈ pattern, y ≠ '<' ∧ y ≠ '>' ∧ y ≠ '=') → r.basePattern = pattern) := by
  obtain ⟨r, e, hr, he, h1, h2, hnone, hsome⟩ := pattern_match_total vc fn re kind pattern c
  refine ⟨r, e, hr, he, fun h => (h1 h).1, ?_, ?_, ?_⟩
  · intro hret
    by_contra hne
    exact hne ((h1 hne).1 ▸ hret)
  · intro b x rest hsplit hb hx
    subst hsplit
    have hbn : ∀ y ∈ b, y ≠ '\x00' := fun y hy => hp y (by simp [hy])
    have hx0 : x ≠ '\x00' := hp x (by simp)
    have hk := strpbrk_zero_first ['<', '>', '='] b rest x (fun y hy => by
      have := hb y hy
      exact ⟨hbn y hy, by simp [this.1, this.2.1, this.2.2]⟩) (by simpa using hx) hx0
    rw [(hsome _ hk).2]
    exact cstr_set_base b rest x hbn
  · intro hno
    have := strpbrk_zero_none ['<', '>', '='] pattern (fun x hx => by
      have := hno x hx
      exact ⟨hp x hx, by simp [this.1, this.2.1, this.2.2]⟩)
    rw [(hnone this).2, cstr, List.drop_zero, cstrOf_nulfree_end pattern hp]

/-- Witness of C4 as amended: in `a\<1` the operator is preceded by a backslash
and still starts the condition; the base name-pattern is `a\`. -/
theorem pattern_match_condition_start_witness :
    (pattern_match versionCmpRef fnmatchRef regexRef .LEGACY_MATCH_EXACT
        ['a', '\\', '<', '1'] ['a', '\\', '-', '0']).map PMResult.basePattern
      = some ['a', '\\'] := by
  obtain ⟨r, e, hr, _, _, _, hfirst, _⟩ := pattern_match_condition_start versionCmpRef
    fnmatchRef regexRef .LEGACY_MATCH_EXACT ['a', '\\', '<', '1'] ['a', '\\', '-', '0']
    (by decide)
  rw [hr]
  exact congrArg some (hfirst ['a', '\\'] '<' ['1'] rfl (by decide) (by decide))

/-- Counterexample to C4 as stated: on the pattern `a\<1` the only operator
character is escaped, so the specification takes the whole pattern as base
name-pattern; `pattern_match` takes `a\` and matches the candidate `a\-0`. -/
theorem pattern_match_escaped_operator_counterexample :
    specBasePattern ['a', '\\', '<', '1'] = ['a', '\\', '<', '1'] ∧
    (pattern_match versionCmpRef fnmatchRef regexRef .LEGACY_MATCH_EXACT
        ['a', '\\', '<', '1'] ['a', '\\', '-', '0']).map (fun r => (r.ret, r.basePattern))
      = some (1, ['a', '\\']) ∧
    (pattern_match versionCmpRef fnmatchRef regexRef .LEGACY_MATCH_EXACT
        ['a', '\\', '<', '1'] ['a', '\\', '-', '0']).map PMResult.basePattern
      ≠ some (specBasePattern ['a', '\\', '<', '1']) := by
  decide

/-- C5: `rex_match` returns 1 when the engine reports success, 0 when it
reports no-match and -1 for every other code, as for a pattern with an
unpaired `(` in extended mode. On every input `pattern_match` returns, and it
returns -1 exactly when the kind is a regex kind and `rex_match` returns -1 on
the base pattern and the name that the `switch` reads, both given here as
functions of the arguments `pattern` and `c` (`pattern_switch_pattern`,
`pattern_switch_fname`); no version is then compared; otherwise it returns 0
or 1. For a pattern without NUL the base pattern is the whole pattern when it
has none of `<`, `>`, `=`, and otherwise what stands before the first of them,
less a `!` at its end; the name is `c` without a condition and
`pattern_fname c` with one. With the reference engine the extended pattern
`fo(o>=1` gives -1 on the candidate `foo-1.0`. -/
theorem pattern_match_regex_error :
    (∀ (re : RegexEngine) (pattern pkgname : List Char) (extended : Int),
      rex_match re pattern pkgname extended
        = (let cflags := (if extended ≠ 0 then REG_EXTENDED else REG_BASIC) ||| REG_NOSUB
           let code := if re.regcomp pattern cflags = 0 then re.regexec pattern cflags pkgname
                       else re.regcomp pattern cflags
           if code = 0 then 1 else if code = REG_NOMATCH then 0 else -1)) ∧
    rex_match regexRef "fo(o".toList "foo".toList 1 = -1 ∧
    (∀ (vc : VersionCmp) (fn : Fnmatch) (re : RegexEngine) (kind : legacy_match_t)
      (pattern c : List Char),
      ∃ r, pattern_match vc fn re kind pattern c = some r ∧
        r.basePattern = pattern_switch_pattern pattern ∧
        r.fname = pattern_switch_fname pattern c ∧
        (r.ret = -1 ↔
          (kind = .LEGACY_MATCH_EREGEX ∧
            rex_match re (pattern_switch_pattern pattern) (pattern_switch_fname pattern c) 1
              = -1) ∨
          (kind = .LEGACY_MATCH_REGEX ∧
            rex_match re (pattern_switch_pattern pattern) (pattern_switch_fname pattern c) 0
              = -1)) ∧
        (r.ret = -1 → r.compared = []) ∧
        (r.ret = -1 ∨ r.ret = 0 ∨ r.ret = 1)) ∧
    (∀ (pattern c : List Char), (∀ y ∈ pattern, y ≠ '\x00') →
      ((∀ y ∈ pattern, y ≠ '<' ∧ y ≠ '>' ∧ y ≠ '=') →
        pattern_switch_pattern pattern = pattern ∧ pattern_switch_fname pattern c = c) ∧
      (∀ b x rest, pattern = b ++ x :: rest → (∀ y ∈ b, y ≠ '<' ∧ y ≠ '>' ∧ y ≠ '=') →
        (x = '<' ∨ x = '>' ∨ x = '=') →
        pattern_switch_pattern pattern = (if b.getLast? = some '!' then b.dropLast else b) ∧
        pattern_switch_fname pattern c = pattern_fname c)) ∧
    (pattern_match versionCmpRef fnmatchRef regexRef .LEGACY_MATCH_EREGEX
        "fo(o>=1".toList "foo-1.0".toList).map (fun r => (r.ret, r.basePattern, r.fname))
      = some (-1, "fo(o".toList, "foo".toList) := by
  refine ⟨?_, by decide, ?_, ?_, by decide⟩
  · intro re pattern pkgname extended
    simp only [rex_match]
    split_ifs <;> simp_all
  rotate_left
  · intro pattern c hp
    refine ⟨fun hno => ?_, fun b x rest hsplit hb hx => ?_⟩
    · have hk := strpbrk_zero_none ['<', '>', '='] pattern (fun x hx => by
        have := hno x hx
        exact ⟨hp x hx, by simp [this.1, this.2.1, this.2.2]⟩)
      simp only [pattern_switch_pattern, pattern_switch_fname, hk]
      exact ⟨by rw [cstr, List.drop_zero, cstrOf_nulfree_end pattern hp], trivial⟩
    · subst hsplit
      have hbn : ∀ y ∈ b, y ≠ '\x00' := fun y hy => hp y (by simp [hy])
      have hx0 : x ≠ '\x00' := hp x (by simp)
      have hk := strpbrk_zero_first ['<', '>', '='] b rest x (fun y hy => by
        have := hb y hy
        exact ⟨hbn y hy, by simp [this.1, this.2.1, this.2.2]⟩) (by simpa using hx) hx0
      simp only [pattern_switch_pattern, pattern_switch_fname, hk]
      exact ⟨cstr_set_base b rest x hbn, trivial⟩
  · intro vc fn re kind pattern c
    obtain ⟨r, e, hr, he, h1, h2, hnone, hsome⟩ := pattern_match_total vc fn re kind pattern c
    have hbp : r.basePattern = pattern_switch_pattern pattern := by
      unfold pattern_switch_pattern
      cases hs : strpbrk pattern 0 ['<', '>', '='] with
      | none => exact (hnone hs).2
      | some c0 => exact (hsome c0 hs).2
    have hfn : r.fname = pattern_switch_fname pattern c := by
      unfold pattern_switch_fname
      cases hs : strpbrk pattern 0 ['<', '>', '='] with
      | none => exact (hnone hs).1
      | some c0 => exact (hsome c0 hs).1
    refine ⟨r, hr, hbp, hfn, ?_⟩
    rw [← hbp, ← hfn]
    have hrex : ∀ (a b : List Char) (x : Int),
        rex_match re a b x = 1 ∨ rex_match re a b x = 0 ∨ rex_match re a b x = -1 := by
      intro a b x
      simp only [rex_match]
      split_ifs <;> simp
    by_cases h : e = 1
    · have hr01 := h2 h
      subst h
      refine ⟨⟨fun hm => ?_, fun hm => ?_⟩, fun hm => ?_, ?_⟩
      · rcases hr01 with h0 | h0 <;> rw [h0] at hm <;> exact absurd hm (by decide)
      · exfalso
        rcases hm with ⟨hk, hx⟩ | ⟨hk, hx⟩ <;> subst hk <;>
          simp only [pattern_base, Option.some.injEq] at he <;> rw [hx] at he <;>
          exact absurd he (by decide)
      · rcases hr01 with h0 | h0 <;> rw [h0] at hm <;> exact absurd hm (by decide)
      · rcases hr01 with h0 | h0
        · exact Or.inr (Or.inl h0)
        · exact Or.inr (Or.inr h0)
    · obtain ⟨hret, hcmp⟩ := h1 h
      rw [hret]
      refine ⟨⟨fun hm => ?_, fun hm => ?_⟩, fun _ => hcmp, ?_⟩
      · subst hm
        cases kind <;> simp only [pattern_base, Option.some.injEq] at he
        · exact absurd he (by decide)
        · split_ifs at he
        · cases hcs : csh_match fn r.basePattern r.fname 0 with
          | none => simp [hcs] at he
          | some q =>
            simp only [hcs, Option.map_some', Option.some.injEq] at he
            split_ifs at he
        · cases hcs : csh_match fn r.basePattern r.fname 0 with
          | none => simp [hcs] at he
          | some q =>
            simp only [hcs, Option.map_some', Option.some.injEq] at he
            split_ifs at he
        · exact Or.inl ⟨rfl, he⟩
        · exact Or.inr ⟨rfl, he⟩
      · rcases hm with ⟨hk, hx⟩ | ⟨hk, hx⟩ <;> subst hk <;>
          simp only [pattern_base, Option.some.injEq] at he <;> rw [hx] at he <;>
          exact he.symm
      · cases kind <;> simp only [pattern_base, Option.some.injEq] at he
        · exact absurd he.symm h
        · split_ifs at he <;> subst he <;> simp
        · cases hcs : csh_match fn r.basePattern r.fname 0 with
          | none => simp [hcs] at he
          | some q =>
            simp only [hcs, Option.map_some', Option.some.injEq] at he
            split_ifs at he <;> subst he <;> simp
        · cases hcs : csh_match fn r.basePattern r.fname 0 with
          | none => simp [hcs] at he
          | some q =>
            simp only [hcs, Option.map_some', Option.some.injEq] at he
            split_ifs at he <;> subst he <;> simp
        · subst he
          rcases hrex r.basePattern r.fname 1 with h0 | h0 | h0 <;> simp [h0]
        · subst he
          rcases hrex r.basePattern r.fname 0 with h0 | h0 | h0 <;> simp [h0]

/-! ## csh_match without an active brace -/

theorem bracketRun_eq (r : List Char) : bracketRun r = r.indexOf ']' := by
  induction r with
  | nil => rfl
  | cons c r ih =>
    by_cases h : c = ']'
    · simp [bracketRun, h]
    · simp [bracketRun, h, List.indexOf_cons_ne _ h, ih]

theorem bracket_tail (p : List Char) (eb pos : Nat) :
    (if p[eb + bracketRun (p.drop eb)]? = none then pos else eb + bracketRun (p.drop eb))
      = if ']' ∈ p.drop eb then eb + (p.drop eb).indexOf ']' else pos := by
  rw [bracketRun_eq]
  have h1 : p[eb + (p.drop eb).indexOf ']']? = (p.drop eb)[(p.drop eb).indexOf ']']? := by
    rw [List.getElem?_drop]
  rw [h1]
  by_cases hm : ']' ∈ p.drop eb
  · have := List.indexOf_lt_length.2 hm
    rw [if_pos hm, if_neg]
    rw [List.getElem?_eq_getElem this]
    simp
  · have := List.indexOf_eq_length.2 hm
    rw [if_neg hm, if_pos]
    exact List.getElem?_eq_none (by omega)

theorem cshBracket_eq (p : List Char) (pos : Nat) :
    cshBracket p pos = pos + bracketSkip (p.drop (pos + 1)) := by
  unfold cshBracket bracketSkip
  simp only [bracket_tail, List.head?_drop, List.drop_drop]
  split_ifs <;> simp only [Nat.add_zero, Nat.zero_add, ← Nat.add_assoc] at * <;> omega

theorem braceInert_drop : ∀ (s : List Char) (k : Nat) (q : Bool),
    braceInert k q s = true → braceInert 0 q (s.drop k) = true
  | [], k, q, _ => by simp [braceInert]
  | c :: t, 0, q, h => by simpa using h
  | c :: t, k + 1, q, h => by
    rw [braceInert] at h
    simpa using braceInert_drop t k q h

theorem drop_of_getElem? (p : List Char) (i : Nat) (c : Char) (h : p[i]? = some c) :
    p.drop i = c :: p.drop (i + 1) := by
  have hlt : i < p.length := by
    by_contra hge
    rw [List.getElem?_eq_none (by omega)] at h
    cases h
  rw [List.drop_eq_getElem_cons hlt]
  rw [List.getElem?_eq_getElem hlt] at h
  cases h
  rfl

theorem cshStep_quoted (p : List Char) (st : CshState) (c : Char)
    (hc : p[st.pos]? = some c) (hq : st.quoted = true) :
    cshStep p st = { st with quoted := false, pos := st.pos + 1 } := by
  simp [cshStep, cshBody, hc, hq]

theorem cshStep_switch (p : List Char) (st : CshState) (c : Char)
    (hc : p[st.pos]? = some c) (hq : st.quoted = false) :
    cshStep p st = { cshSwitch p c st with pos := (cshSwitch p c st).pos + 1 } := by
  simp [cshStep, cshBody, hc, hq]

theorem cshStep_nul (p : List Char) (st : CshState) (hc : p[st.pos]? = none) :
    cshStep p st = { st with postfx := some st.pos, pos := st.pos + 1 } := by
  simp [cshStep, cshBody, hc]

/-- Without an active brace, a step of the scan leaves `current` unset. -/
theorem cshStep_inert (p : List Char) (st : CshState)
    (hcur : st.current = none) (hlvl : st.level ≤ 0)
    (hin : braceInert 0 st.quoted (p.drop st.pos) = true) :
    (cshStep p st).current = none ∧ (cshStep p st).level ≤ 0 ∧
      ((cshStep p st).postfx = none →
        braceInert 0 (cshStep p st).quoted (p.drop (cshStep p st).pos) = true) := by
  cases hc : p[st.pos]? with
  | none =>
    rw [cshStep_nul p st hc]
    exact ⟨hcur, hlvl, fun h => by simp at h⟩
  | some c =>
    have hd := drop_of_getElem? p st.pos c hc
    rw [hd] at hin
    cases hq : st.quoted with
    | true =>
      rw [cshStep_quoted p st c hc hq]
      rw [hq, braceInert] at hin
      exact ⟨hcur, hlvl, fun _ => hin⟩
    | false =>
      rw [cshStep_switch p st c hc hq]
      rw [hq, braceInert] at hin
      by_cases h1 : c = '{'
      · simp [h1] at hin
      · by_cases h2 : c = '\\'
        · subst h2
          simp only [h1, if_false, if_true] at hin
          have : cshSwitch p '\\' st = { st with quoted := true } := by
            simp [cshSwitch]
          rw [this]
          exact ⟨hcur, hlvl, fun _ => hin⟩
        · by_cases h3 : c = '['
          · subst h3
            simp only [h1, h2, if_false, if_true] at hin
            have : cshSwitch p '[' st = { st with pos := cshBracket p st.pos } := by
              simp [cshSwitch]
            rw [this]
            refine ⟨hcur, hlvl, fun _ => ?_⟩
            simp only [hq]
            have hdr := braceInert_drop _ _ _ hin
            rw [List.drop_drop] at hdr
            rw [cshBracket_eq]
            have e : st.pos + 1 + bracketSkip (List.drop (st.pos + 1) p)
                = st.pos + bracketSkip (List.drop (st.pos + 1) p) + 1 := by omega
            rw [← e]
            exact hdr
          · simp only [h1, h2, h3, if_false] at hin
            have hl1 : ¬ st.level = 1 := by omega
            by_cases h4 : c = ','
            · subst h4
              have : cshSwitch p ',' st = st := by
                simp [cshSwitch, hl1]
              rw [this]
              exact ⟨hcur, hlvl, fun _ => by simpa [hq] using hin⟩
            · by_cases h5 : c = '}'
              · subst h5
                have : cshSwitch p '}' st = { st with level := st.level - 1 } := by
                  simp [cshSwitch, hl1]
                rw [this]
                exact ⟨hcur, by simp only; omega, fun _ => by simpa [hq] using hin⟩
              · have : cshSwitch p c st = st := by
                  simp [cshSwitch, h1, h2, h3, h4, h5]
                rw [this]
                exact ⟨hcur, hlvl, fun _ => by simpa [hq] using hin⟩

theorem cshScan_inert (p : List Char) : ∀ (n : Nat) (st f : CshState),
    st.current = none → st.level ≤ 0 → braceInert 0 st.quoted (p.drop st.pos) = true →
    cshScan p n st = some f → f.current = none := by
  intro n
  induction n with
  | zero => intro st f _ _ _ h; simp [cshScan] at h
  | succ n ih =>
    intro st f hcur hlvl hin h
    obtain ⟨h1, h2, h3⟩ := cshStep_inert p st hcur hlvl hin
    rw [cshScan] at h
    by_cases hpf : (cshStep p st).postfx = none
    · simp only [hpf, Option.isSome_none, Bool.false_eq_true, if_false] at h
      exact ih _ f h1 h2 (h3 hpf) h
    · have : (cshStep p st).postfx.isSome = true := by
        cases h4 : (cshStep p st).postfx with
        | none => exact absurd h4 hpf
        | some _ => rfl
      simp only [this, if_true, Option.some.injEq] at h
      subst h
      exact h1

/-- Without an active brace, `csh_match` is one call of `fnmatch` on the
pattern as given. -/
theorem csh_match_inert (fn : Fnmatch) (p s : List Char) (flags : Int)
    (h : noActiveBrace p = true) :
    csh_match fn p s flags = some (fn p s flags, [p]) := by
  rw [csh_match_unfold, cshLoop]
  obtain ⟨f, hf, _⟩ := cshScan_total p (p.length + 1) (cshEnter cshInit 0) rfl
    (by simp [cshEnter]) (by simp [cshEnter])
  have hcur := cshScan_inert p _ _ f rfl (by simp [cshEnter, cshInit])
    (by simpa [cshEnter, cshInit, noActiveBrace] using h) hf
  have hn : cshInit.nextchoice = some 0 := rfl
  simp only [hn, hf, hcur]

/-- C10: without an active brace, `csh_match` is exactly `fnmatch`. When every
`\x7b` of the pattern is escaped by a backslash or lies inside a terminated
bracket expression, `csh_match` makes the single call `fnmatch(pattern, s,
flags)` on the pattern as given and returns its result. -/
theorem csh_match_without_active_brace (fn : Fnmatch) (pattern s : List Char) (flags : Int)
    (h : noActiveBrace pattern = true) :
    csh_match fn pattern s flags = some (fn pattern s flags, [pattern]) :=
  csh_match_inert fn pattern s flags h

/-- Witness of C10: in `a\\\x7bb[^]\x7b,\x7d]c` one brace is escaped and the other
brace, the comma and the closing brace are members of a bracket expression. -/
theorem csh_match_without_active_brace_witness :
    noActiveBrace "a\\\x7bb[^]\x7b,\x7d]c".toList = true ∧
    csh_match fnmatchRef "a\\\x7bb[^]\x7b,\x7d]c".toList "abc".toList 0
      = some (fnmatchRef "a\\\x7bb[^]\x7b,\x7d]c".toList "abc".toList 0,
          ["a\\\x7bb[^]\x7b,\x7d]c".toList]) :=
  ⟨by decide, csh_match_without_active_brace fnmatchRef "a\\\x7bb[^]\x7b,\x7d]c".toList
    "abc".toList 0 (by decide)⟩

/-- C8, the behaviour of the code: on the pattern `lib\x7ba`, whose brace is never
closed, `csh_match` does not call `fnmatch` on the pattern as given; it calls
it once, on `lib`. With the reference `fnmatch` the string `lib` is accepted
and the string `lib\x7ba` is rejected, the opposite of matching the pattern
literally. On `lib\x7ba,bcd` the second alternative is cut to the length of the
first, so that `libb` is accepted. -/
theorem csh_match_unterminated_brace :
    (∀ (fn : Fnmatch) (s : List Char) (flags : Int),
      csh_match fn "lib\x7ba".toList s flags = some (fn "lib".toList s flags, ["lib".toList])) ∧
    csh_match fnmatchRef "lib\x7ba".toList "lib".toList 0 = some (0, ["lib".toList]) ∧
    fnmatchRef "lib\x7ba".toList "lib".toList 0 = FNM_NOMATCH ∧
    csh_match fnmatchRef "lib\x7ba".toList "lib\x7ba".toList 0
      = some (FNM_NOMATCH, ["lib".toList]) ∧
    fnmatchRef "lib\x7ba".toList "lib\x7ba".toList 0 = 0 ∧
    csh_match fnmatchRef "lib\x7ba,bcd".toList "libb".toList 0
      = some (0, ["liba".toList, "libb".toList]) := by
  refine ⟨?_, by decide, by decide, by decide, by decide, by decide⟩
  intro fn s flags
  rw [csh_match_unfold, cshLoop]
  have hn : cshInit.nextchoice = some 0 := rfl
  have hscan : cshScan "lib\x7ba".toList ("lib\x7ba".toList.length + 1) (cshEnter cshInit 0)
      = some ⟨6, some 5, false, none, some 4, 3, 0, 1⟩ := by
    decide
  have hbuf : cshBuf "lib\x7ba".toList ⟨6, some 5, false, none, some 4, 3, 0, 1⟩ 4 5
      = "lib".toList := by decide
  have hrec := csh_match_inert fn "lib".toList s flags (by decide)
  simp only [hn, hscan, hbuf, hrec]
  split_ifs <;> rfl

/-! ## csh_match on a brace group -/

theorem getElem?_split (l r : List Char) (c : Char) : (l ++ c :: r)[l.length]? = some c := by
  rw [List.getElem?_append_right (Nat.le_refl _)]
  simp

/-- A step over a character that the `switch` leaves without effect. -/
theorem cshRuns_skip (p : List Char) (st f : CshState) (c : Char)
    (hc : p[st.pos]? = some c) (hq : st.quoted = false) (h0 : st.postfx = none)
    (hsw : cshSwitch p c st = st)
    (h : CshRuns p { st with pos := st.pos + 1 } f) : CshRuns p st f := by
  have hst := cshStep_switch p st c hc hq
  rw [hsw] at hst
  apply CshRuns.step st f
  · rw [hst]; exact h0
  · rw [hst]; exact h

/-- A step over a brace that only changes the level. -/
theorem cshRuns_level (p : List Char) (st f : CshState) (c : Char) (lv : Int)
    (hc : p[st.pos]? = some c) (hq : st.quoted = false) (h0 : st.postfx = none)
    (hsw : cshSwitch p c st = { st with level := lv })
    (h : CshRuns p { st with pos := st.pos + 1, level := lv } f) : CshRuns p st f := by
  have hst := cshStep_switch p st c hc hq
  rw [hsw] at hst
  apply CshRuns.step st f
  · rw [hst]; exact h0
  · rw [hst]; exact h

theorem cshRuns_plain (p : List Char) : ∀ (seg l r : List Char) (st f : CshState),
    p = l ++ (seg ++ r) → st.pos = l.length → st.quoted = false → st.postfx = none →
    st.level = 0 → plainSeg seg = true →
    CshRuns p { st with pos := l.length + seg.length } f → CshRuns p st f := by
  intro seg
  induction seg with
  | nil =>
    intro l r st f _ hpos _ _ _ _ h
    have : ({ st with pos := l.length + ([] : List Char).length } : CshState) = st := by
      cases st; simp at hpos ⊢; omega
    rw [this] at h
    exact h
  | cons c seg ih =>
    intro l r st f hp hpos hq h0 hl hplain h
    simp only [plainSeg, List.all_cons, Bool.and_eq_true, decide_eq_true_eq] at hplain
    obtain ⟨⟨h1, h2, h3, h4⟩, hrest⟩ := hplain
    have hc : p[st.pos]? = some c := by
      rw [hp, hpos]; exact getElem?_split l (seg ++ r) c
    have hsw : cshSwitch p c st = st := by
      simp [cshSwitch, h1, h2, h3, h4, hl]
    apply cshRuns_skip p st f c hc hq h0 hsw
    apply ih (l ++ [c]) r { st with pos := st.pos + 1 } f (by simp [hp]) (by simp [hpos]) hq
      h0 hl (by simpa [plainSeg] using hrest)
    have : ({ st with pos := l.length + (c :: seg).length } : CshState)
        = { ({ st with pos := st.pos + 1 } : CshState) with
            pos := (l ++ [c]).length + seg.length } := by
      simp only [List.length_cons, List.length_append, List.length_nil, CshState.mk.injEq,
        and_true]
      omega
    rw [← this]
    exact h

theorem cshRuns_closed (p : List Char) (commaOK : Bool) :
    ∀ (seg : List Char) (d : Nat) (l r : List Char) (st f : CshState),
    p = l ++ (seg ++ r) → st.pos = l.length → st.quoted = false → st.postfx = none →
    st.level = 1 + (d : Int) → (commaOK = true → st.nextchoice ≠ none) →
    closedSeg commaOK d seg = true →
    CshRuns p { st with pos := l.length + seg.length, level := 1 } f → CshRuns p st f := by
  intro seg
  induction seg with
  | nil =>
    intro d l r st f _ hpos _ _ hl _ hcl h
    simp only [closedSeg, decide_eq_true_eq] at hcl
    subst hcl
    have : ({ st with pos := l.length + ([] : List Char).length, level := 1 } : CshState)
        = st := by
      cases st; simp at hpos hl ⊢; omega
    rw [this] at h
    exact h
  | cons c seg ih =>
    intro d l r st f hp hpos hq h0 hl hcm hcl h
    have hc : p[st.pos]? = some c := by
      rw [hp, hpos]; exact getElem?_split l (seg ++ r) c
    have hfin : ∀ lv : Int, ({ st with pos := l.length + (c :: seg).length, level := 1 } : CshState)
        = { ({ st with pos := st.pos + 1, level := lv } : CshState) with
            pos := (l ++ [c]).length + seg.length, level := 1 } := by
      intro lv
      simp only [List.length_cons, List.length_append, List.length_nil, CshState.mk.injEq,
        and_true]
      omega
    rw [closedSeg] at hcl
    by_cases h1 : c = '{'
    · subst h1
      simp only [if_true] at hcl
      have hsw : cshSwitch p '{' st = { st with level := st.level + 1 } := by
        have : ¬ st.level + 1 = 1 := by omega
        simp [cshSwitch, this]
      apply cshRuns_level p st f '{' _ hc hq h0 hsw
      apply ih (d + 1) (l ++ ['{']) r { st with pos := st.pos + 1, level := st.level + 1 } f
        (by simp [hp]) (by simp [hpos]) hq h0 (by simp only [hl]; push_cast; omega) hcm hcl
      rw [← hfin]
      exact h
    · by_cases h2 : c = '}'
      · subst h2
        simp only [h1, if_false, if_true, Bool.and_eq_true, decide_eq_true_eq] at hcl
        have hsw : cshSwitch p '}' st = { st with level := st.level - 1 } := by
          have : ¬ st.level = 1 := by omega
          simp [cshSwitch, this]
        apply cshRuns_level p st f '}' _ hc hq h0 hsw
        apply ih (d - 1) (l ++ ['}']) r { st with pos := st.pos + 1, level := st.level - 1 } f
          (by simp [hp]) (by simp [hpos]) hq h0 (by simp only [hl]; omega) hcm hcl.2
        rw [← hfin]
        exact h
      · by_cases h3 : c = ','
        · subst h3
          simp only [h1, h2, if_false, if_true, Bool.and_eq_true, Bool.or_eq_true,
            decide_eq_true_eq] at hcl
          have hsw : cshSwitch p ',' st = st := by
            have : ¬ (st.level = 1 ∧ st.nextchoice = none) := by
              rintro ⟨ha, hb⟩
              rcases hcl.1 with hk | hk
              · exact hcm hk hb
              · omega
            simp [cshSwitch, this]
          apply cshRuns_skip p st f ',' hc hq h0 hsw
          have := ih d (l ++ [',']) r { st with pos := st.pos + 1 } f (by simp [hp])
            (by simp [hpos]) hq h0 hl hcm hcl.2
          apply this
          have e := hfin st.level
          have e2 : ({ st with pos := st.pos + 1, level := st.level } : CshState)
              = { st with pos := st.pos + 1 } := rfl
          rw [e2] at e
          rw [← e]
          exact h
        · by_cases h4 : c = '[' ∨ c = '\\'
          · simp [h1, h2, h3, h4] at hcl
          · simp only [h1, h2, h3, h4, if_false] at hcl
            have hsw : cshSwitch p c st = st := by
              have h5 : ¬ c = '[' := fun e => h4 (Or.inl e)
              have h6 : ¬ c = '\\' := fun e => h4 (Or.inr e)
              simp [cshSwitch, h1, h2, h3, h5, h6]
            apply cshRuns_skip p st f c hc hq h0 hsw
            have := ih d (l ++ [c]) r { st with pos := st.pos + 1 } f (by simp [hp])
              (by simp [hpos]) hq h0 hl hcm hcl
            apply this
            have e := hfin st.level
            have e2 : ({ st with pos := st.pos + 1, level := st.level } : CshState)
                = { st with pos := st.pos + 1 } := rfl
            rw [e2] at e
            rw [← e]
            exact h

/-- The scan of the last alternative of a group, from its first character. -/
theorem cshRuns_alt_last (P L a post : List Char) (pl cl : Int)
    (hP : P = L ++ (a ++ '}' :: post)) (ha : altOK a = true) (h31 : P.length < 2147483648) :
    CshRuns P ⟨L.length, none, false, none, some L.length, pl, cl, 1⟩
      ⟨L.length + a.length + 1, some (L.length + a.length + 1), false, none,
        some L.length, pl, (a.length : Int), 0⟩ := by
  apply cshRuns_closed P false a 0 L ('}' :: post) _ _ hP rfl rfl rfl (by simp)
    (fun h => by cases h) ha
  have hc : P[L.length + a.length]? = some '}' := by
    have := getElem?_split (L ++ a) post '}'
    simpa [hP] using this
  have hlen : L.length + a.length < 2147483648 := by
    have : (L ++ (a ++ '}' :: post)).length = P.length := by rw [hP]
    simp only [List.length_append, List.length_cons] at this
    omega
  have hst := cshStep_switch P ⟨L.length + a.length, none, false, none, some L.length, pl, cl, 1⟩
    '}' hc rfl
  have hsw : cshSwitch P '}' ⟨L.length + a.length, none, false, none, some L.length, pl, cl, 1⟩
      = ⟨L.length + a.length, some (L.length + a.length + 1), false, none, some L.length, pl,
          (a.length : Int), 0⟩ := by
    have := toInt32_natCast a.length (by omega)
    simp only [cshSwitch]
    simp [this]
  rw [hsw] at hst
  have hd := CshRuns.done (p := P)
    ⟨L.length + a.length, none, false, none, some L.length, pl, cl, 1⟩
    (by rw [hst]; simp)
  rw [hst] at hd
  exact hd

theorem closedSeg_mono : ∀ (s : List Char) (d : Nat),
    closedSeg false d s = true → closedSeg true d s = true
  | [], d, h => by simpa [closedSeg] using h
  | c :: s, d, h => by
    rw [closedSeg] at h ⊢
    split_ifs at h ⊢ with h1 h2 h3 h4
    · exact closedSeg_mono s _ h
    · simp only [Bool.and_eq_true, decide_eq_true_eq] at h ⊢
      exact ⟨h.1, closedSeg_mono s _ h.2⟩
    · simp only [Bool.and_eq_true, Bool.or_eq_true, decide_eq_true_eq] at h ⊢
      exact ⟨Or.inl trivial, closedSeg_mono s _ h.2⟩
    · exact closedSeg_mono s _ h

theorem closedSeg_append (k : Bool) (b : List Char) (hb : closedSeg k 0 b = true) :
    ∀ (a : List Char) (d : Nat), closedSeg k d a = true → closedSeg k d (a ++ b) = true
  | [], d, h => by
    simp only [closedSeg, decide_eq_true_eq] at h
    subst h
    simpa using hb
  | c :: a, d, h => by
    rw [List.cons_append]
    rw [closedSeg] at h ⊢
    split_ifs at h ⊢ with h1 h2 h3 h4
    · exact closedSeg_append k b hb a _ h
    · simp only [Bool.and_eq_true, decide_eq_true_eq] at h ⊢
      exact ⟨h.1, closedSeg_append k b hb a _ h.2⟩
    · simp only [Bool.and_eq_true] at h ⊢
      exact ⟨h.1, closedSeg_append k b hb a _ h.2⟩
    · exact closedSeg_append k b hb a _ h

theorem closedSeg_join : ∀ (alts : List (List Char)), (∀ x ∈ alts, altOK x = true) →
    closedSeg true 0 (joinAlts alts) = true
  | [], _ => by simp [joinAlts, closedSeg]
  | [a], h => closedSeg_mono a 0 (h a (by simp))
  | a :: b :: rest, h => by
    have h1 := closedSeg_mono a 0 (h a (by simp))
    have h2 := closedSeg_join (b :: rest) (fun x hx => h x (List.mem_cons_of_mem _ hx))
    rw [joinAlts]
    apply closedSeg_append true _ _ a 0 h1
    rw [closedSeg]
    simp [h2]

theorem length_joinAlts : ∀ (alts : List (List Char)),
    alts.length ≤ (joinAlts alts).length + 1
  | [] => by simp
  | [a] => by simp [joinAlts]
  | a :: b :: rest => by
    have := length_joinAlts (b :: rest)
    simp only [joinAlts, List.length_cons, List.length_append] at this ⊢
    omega

/-- The scan of an alternative that another one follows, from its first
character. -/
theorem cshRuns_alt_more (P L a rest post : List Char) (pl cl : Int)
    (hP : P = L ++ (a ++ ',' :: (rest ++ '}' :: post))) (ha : altOK a = true)
    (hrest : closedSeg true 0 rest = true) (h31 : P.length < 2147483648) :
    CshRuns P ⟨L.length, none, false, none, some L.length, pl, cl, 1⟩
      ⟨L.length + a.length + 1 + rest.length + 1,
        some (L.length + a.length + 1 + rest.length + 1), false,
        some (L.length + a.length + 1), some L.length, pl, (a.length : Int), 0⟩ := by
  apply cshRuns_closed P false a 0 L (',' :: (rest ++ '}' :: post)) _ _ hP rfl rfl rfl (by simp)
    (fun h => by cases h) ha
  have hplen : (L ++ (a ++ ',' :: (rest ++ '}' :: post))).length = P.length := by rw [hP]
  simp only [List.length_append, List.length_cons] at hplen
  have hc : P[L.length + a.length]? = some ',' := by
    have := getElem?_split (L ++ a) (rest ++ '}' :: post) ','
    simpa [hP] using this
  have hst := cshStep_switch P ⟨L.length + a.length, none, false, none, some L.length, pl, cl, 1⟩
    ',' hc rfl
  have hsw : cshSwitch P ',' ⟨L.length + a.length, none, false, none, some L.length, pl, cl, 1⟩
      = ⟨L.length + a.length, none, false, some (L.length + a.length + 1), some L.length, pl,
          (a.length : Int), 1⟩ := by
    have := toInt32_natCast a.length (by omega)
    simp only [cshSwitch]
    simp [this]
  rw [hsw] at hst
  apply CshRuns.step _ _ (by rw [hst])
  rw [hst]
  have hP2 : P = (L ++ a ++ [',']) ++ (rest ++ '}' :: post) := by simp [hP]
  have e1 : (L ++ a ++ [',']).length = L.length + a.length + 1 := by
    simp only [List.length_append, List.length_singleton]
  apply cshRuns_closed P true rest 0 (L ++ a ++ [',']) ('}' :: post) _ _ hP2 e1.symm rfl rfl
    (by simp) (fun _ => by simp) hrest
  have hc2 : P[L.length + a.length + 1 + rest.length]? = some '}' := by
    have hP3 : P = (L ++ a ++ [','] ++ rest) ++ '}' :: post := by simp [hP]
    have e3 : L.length + a.length + 1 + rest.length = (L ++ a ++ [','] ++ rest).length := by
      simp only [List.length_append, List.length_singleton]
    rw [e3, hP3]
    exact getElem?_split _ _ _
  have hst2 := cshStep_switch P ⟨L.length + a.length + 1 + rest.length, none, false,
    some (L.length + a.length + 1), some L.length, pl, (a.length : Int), 1⟩ '}' hc2 rfl
  have hsw2 : cshSwitch P '}' ⟨L.length + a.length + 1 + rest.length, none, false,
      some (L.length + a.length + 1), some L.length, pl, (a.length : Int), 1⟩
      = ⟨L.length + a.length + 1 + rest.length,
          some (L.length + a.length + 1 + rest.length + 1), false,
          some (L.length + a.length + 1), some L.length, pl, (a.length : Int), 0⟩ := by
    simp [cshSwitch]
  rw [hsw2] at hst2
  have hd := CshRuns.done (p := P) ⟨L.length + a.length + 1 + rest.length, none, false,
    some (L.length + a.length + 1), some L.length, pl, (a.length : Int), 1⟩
    (by rw [hst2]; simp)
  rw [hst2] at hd
  simp only [e1]
  exact hd

/-- The first pass up to the opening brace of the first group. -/
theorem cshRuns_first (P pre R : List Char) (hP : P = pre ++ '{' :: R)
    (hpre : plainSeg pre = true) (h31 : P.length < 2147483648) (f : CshState)
    (h : CshRuns P ⟨pre.length + 1, none, false, none, some (pre.length + 1),
      (pre.length : Int), 0, 1⟩ f) :
    CshRuns P (cshEnter cshInit 0) f := by
  apply cshRuns_plain P pre [] ('{' :: R) _ f (by simpa using hP) rfl rfl rfl rfl hpre
  have hplen : (pre ++ '{' :: R).length = P.length := by rw [hP]
  simp only [List.length_append, List.length_cons] at hplen
  have hc : P[pre.length]? = some '{' := by
    rw [hP]; exact getElem?_split pre R '{'
  have hst := cshStep_switch P ⟨pre.length, none, false, none, none, -1, 0, 0⟩ '{' hc rfl
  have hsw : cshSwitch P '{' ⟨pre.length, none, false, none, none, -1, 0, 0⟩
      = ⟨pre.length, none, false, none, some (pre.length + 1), (pre.length : Int), 0, 1⟩ := by
    have := toInt32_natCast pre.length (by omega)
    simp [cshSwitch, this]
  rw [hsw] at hst
  have e : ({ cshEnter cshInit 0 with pos := ([] : List Char).length + pre.length } : CshState)
      = ⟨pre.length, none, false, none, none, -1, 0, 0⟩ := by
    simp [cshEnter, cshInit]
  rw [e]
  apply CshRuns.step _ _ (by rw [hst])
  rw [hst]
  exact h

/-- The pattern rebuilt for an alternative. -/
theorem cshBuf_alt (P pre X L a R post : List Char) (pf : Nat) (st : CshState)
    (hP1 : P = pre ++ X) (hP2 : P = L ++ (a ++ R)) (hpost : P.drop pf = post)
    (hpl : st.prefixlen = (pre.length : Int)) (hcl : st.currentlen = (a.length : Int))
    (hlen : pre.length + a.length + post.length < FILENAME_MAX) :
    cshBuf P st L.length pf = pre ++ a ++ post := by
  have h1 : precTake (pre.length : Int) P = pre := by
    have : ¬ ((pre.length : Int) < 0) := by omega
    simp [precTake, this, hP1]
  have h2 : precTake (a.length : Int) (P.drop L.length) = a := by
    have : ¬ ((a.length : Int) < 0) := by omega
    simp [precTake, this, hP2]
  rw [cshBuf, hpl, hcl, h1, h2, hpost]
  apply List.take_of_length_le
  simp only [List.length_append]
  omega

/-- The outer loop over the alternatives of a brace group. -/
theorem cshLoop_alts (call : List Char → Option CshResult) (fn : Fnmatch)
    (P pre X post s : List Char) (flags : Int) (hlen : P.length < FILENAME_MAX)
    (hP1 : P = pre ++ X) :
    ∀ (alts : List (List Char)) (a L : List Char) (cl : Int) (n : Nat) (v : CshState)
      (nc : Nat),
      P = L ++ (joinAlts (a :: alts) ++ '}' :: post) → pre.length < L.length →
      (∀ x ∈ a :: alts, altOK x = true) → alts.length + 1 ≤ n →
      v.nextchoice = some nc → nc ≤ P.length →
      (∀ f, CshRuns P ⟨L.length, none, false, none, some L.length, (pre.length : Int), cl, 1⟩ f →
        CshRuns P (cshEnter v nc) f) →
      cshLoop call fn P s flags n v = altsResult call pre post (a :: alts) := by
  have h31 : P.length < 2147483648 := by
    unfold FILENAME_MAX at hlen; omega
  intro alts
  induction alts with
  | nil =>
    intro a L cl n v nc hP hpl hok hn hv hnc hrun
    obtain ⟨m, rfl⟩ : ∃ m, n = m + 1 := ⟨n - 1, by omega⟩
    simp only [joinAlts] at hP
    have hplen : (L ++ (a ++ '}' :: post)).length = P.length := by rw [hP]
    simp only [List.length_append, List.length_cons] at hplen
    have hscan := cshScan_of_runs P _ _ (hrun _ (cshRuns_alt_last P L a post _ cl hP
      (hok a (by simp)) h31)) rfl hnc
    have hbuf := cshBuf_alt P pre X L a ('}' :: post) post (L.length + a.length + 1)
      ⟨L.length + a.length + 1, some (L.length + a.length + 1), false, none,
        some L.length, (pre.length : Int), (a.length : Int), 0⟩ hP1 hP
      (by rw [hP]
          have : L.length + a.length + 1 = (L ++ a ++ ['}']).length := by
            simp only [List.length_append, List.length_singleton]
          rw [this]
          have e : L ++ (a ++ '}' :: post) = (L ++ a ++ ['}']) ++ post := by simp
          rw [e, List.drop_left])
      rfl rfl (by omega)
    rw [cshLoop]
    simp only [hv, hscan, hbuf, altsResult]
    cases call (pre ++ a ++ post) with
    | none => rfl
    | some r =>
      simp only
      split_ifs <;> rfl
  | cons b more ih =>
    intro a L cl n v nc hP hpl hok hn hv hnc hrun
    obtain ⟨m, rfl⟩ : ∃ m, n = m + 1 := ⟨n - 1, by omega⟩
    rw [joinAlts] at hP
    have hP' : P = L ++ (a ++ ',' :: (joinAlts (b :: more) ++ '}' :: post)) := by
      simpa using hP
    have hplen : (L ++ (a ++ ',' :: (joinAlts (b :: more) ++ '}' :: post))).length = P.length := by
      rw [← hP']
    simp only [List.length_append, List.length_cons] at hplen
    have hrest := closedSeg_join (b :: more) (fun x hx => hok x (List.mem_cons_of_mem _ hx))
    have hscan := cshScan_of_runs P _ _ (hrun _ (cshRuns_alt_more P L a (joinAlts (b :: more))
      post _ cl hP' (hok a (by simp)) hrest h31)) rfl hnc
    have hbuf := cshBuf_alt P pre X L a (',' :: (joinAlts (b :: more) ++ '}' :: post)) post
      (L.length + a.length + 1 + (joinAlts (b :: more)).length + 1)
      ⟨L.length + a.length + 1 + (joinAlts (b :: more)).length + 1,
        some (L.length + a.length + 1 + (joinAlts (b :: more)).length + 1), false,
        some (L.length + a.length + 1), some L.length, (pre.length : Int), (a.length : Int), 0⟩
      hP1 hP'
      (by rw [hP']
          have : L.length + a.length + 1 + (joinAlts (b :: more)).length + 1
              = (L ++ a ++ [','] ++ joinAlts (b :: more) ++ ['}']).length := by
            simp only [List.length_append, List.length_singleton]
          rw [this]
          have e : L ++ (a ++ ',' :: (joinAlts (b :: more) ++ '}' :: post))
              = (L ++ a ++ [','] ++ joinAlts (b :: more) ++ ['}']) ++ post := by simp
          rw [e, List.drop_left])
      rfl rfl (by omega)
    rw [cshLoop]
    simp only [hv, hscan, hbuf]
    rw [altsResult]
    cases call (pre ++ a ++ post) with
    | none => rfl
    | some r =>
      simp only
      by_cases h0 : r.1 = 0
      · simp [h0]
      · simp only [ne_eq, h0, not_false_eq_true, if_true]
        have hL : (L ++ a ++ [',']).length = L.length + a.length + 1 := by
          simp only [List.length_append, List.length_singleton]
        have := ih b (L ++ a ++ [',']) (a.length : Int) m
          ⟨L.length + a.length + 1 + (joinAlts (b :: more)).length + 1,
            some (L.length + a.length + 1 + (joinAlts (b :: more)).length + 1), false,
            some (L.length + a.length + 1), some (L.length + a.length + 1),
            (pre.length : Int), (a.length : Int), 1⟩
          (L.length + a.length + 1) (by simp [hP']) (by rw [hL]; omega)
          (fun x hx => hok x (List.mem_cons_of_mem _ hx))
          (by simp only [List.length_cons] at hn; omega) rfl (by omega)
          (fun f hf => by
            rw [hL] at hf
            exact hf)
        rw [this]

/-- The function `csh_match` on a pattern with a brace group: the alternatives
of the first group are tried in order. -/
theorem csh_match_brace (fn : Fnmatch) (pre : List Char) (alts : List (List Char))
    (post s : List Char) (flags : Int) (hpre : plainSeg pre = true) (hne : alts ≠ [])
    (hok : ∀ x ∈ alts, altOK x = true)
    (hlen : (bracePattern pre alts post).length < FILENAME_MAX) :
    csh_match fn (bracePattern pre alts post) s flags
      = altsResult (fun buf => csh_match fn buf s flags) pre post alts := by
  obtain ⟨a, rest, rfl⟩ : ∃ a rest, alts = a :: rest := by
    cases alts with
    | nil => exact absurd rfl hne
    | cons a rest => exact ⟨a, rest, rfl⟩
  have h31 : (bracePattern pre (a :: rest) post).length < 2147483648 := by
    unfold FILENAME_MAX at hlen; omega
  rw [csh_match_unfold]
  have hjl := length_joinAlts (a :: rest)
  have hplen : (bracePattern pre (a :: rest) post).length
      = pre.length + 1 + (joinAlts (a :: rest)).length + 1 + post.length := by
    simp only [bracePattern, List.length_append, List.length_cons]
    omega
  apply cshLoop_alts _ fn (bracePattern pre (a :: rest) post) pre
    ('{' :: (joinAlts (a :: rest) ++ '}' :: post)) post s flags hlen rfl rest a
    (pre ++ ['{']) 0 _ cshInit 0 (by simp [bracePattern]) (by simp) hok
    (by simp only [List.length_cons] at hjl; omega) rfl (by omega)
  intro f hf
  apply cshRuns_first _ pre (joinAlts (a :: rest) ++ '}' :: post) rfl hpre h31 f
  simpa using hf

theorem exists_first {α : Type} (P : α → Prop) : ∀ (l : List α), (∃ a ∈ l, P a) →
    ∃ tried a rest, l = tried ++ a :: rest ∧ (∀ b ∈ tried, ¬ P b) ∧ P a
  | [], h => by simp at h
  | x :: l, h => by
    by_cases hx : P x
    · exact ⟨[], x, l, rfl, by simp, hx⟩
    · obtain ⟨a, ha, hpa⟩ := h
      have : ∃ a ∈ l, P a := by
        rcases List.mem_cons.1 ha with rfl | h1
        · exact absurd hpa hx
        · exact ⟨a, h1, hpa⟩
      obtain ⟨tried, a1, rest, e, h1, h2⟩ := exists_first P l this
      refine ⟨x :: tried, a1, rest, by simp [e], ?_, h2⟩
      intro b hb
      rcases List.mem_cons.1 hb with rfl | h3
      · exact hx
      · exact h1 b h3

/-- What `altsResult` computes, when every call returns: the first alternative
whose call returns 0 ends the search. -/
theorem altsResult_first (call : List Char → Option CshResult) (pre post : List Char)
    (htot : ∀ buf, ∃ r, call buf = some r) :
    ∀ (alts : List (List Char)), alts ≠ [] →
      ∃ r, altsResult call pre post alts = some r ∧
        (∀ tried a rest, alts = tried ++ a :: rest →
          (∀ b ∈ tried, callRet call (pre ++ b ++ post) ≠ some 0) →
          callRet call (pre ++ a ++ post) = some 0 →
          r.1 = 0 ∧ r.2 = callTraces call ((tried ++ [a]).map (fun b => pre ++ b ++ post))) ∧
        ((∀ b ∈ alts, callRet call (pre ++ b ++ post) ≠ some 0) →
          r.1 ≠ 0 ∧ r.2 = callTraces call (alts.map (fun b => pre ++ b ++ post)))
  | [], h => absurd rfl h
  | [a], _ => by
    obtain ⟨ra, hra⟩ := htot (pre ++ a ++ post)
    have hra' : call (pre ++ (a ++ post)) = some ra := by simpa using hra
    refine ⟨ra, by simp [altsResult, hra'], ?_, ?_⟩
    · intro tried x rest hsplit _ hx
      cases tried with
      | nil =>
        simp only [List.nil_append, List.cons.injEq] at hsplit
        obtain ⟨rfl, _⟩ := hsplit
        simp only [callRet, hra, Option.map_some', Option.some.injEq] at hx
        exact ⟨hx, by simp [callTraces, hra']⟩
      | cons t tried => simp at hsplit
    · intro hall
      have := hall a (by simp)
      simp only [callRet, hra, Option.map_some', ne_eq, Option.some.injEq] at this
      exact ⟨this, by simp [callTraces, hra']⟩
  | a :: b :: rest, _ => by
    obtain ⟨ra, hra⟩ := htot (pre ++ a ++ post)
    have hra' : call (pre ++ (a ++ post)) = some ra := by simpa using hra
    obtain ⟨r2, hr2, hsp2, hall2⟩ := altsResult_first call pre post htot (b :: rest)
      (by simp)
    rw [altsResult, hra]
    simp only
    by_cases h0 : ra.1 = 0
    · refine ⟨ra, by simp [h0], ?_, ?_⟩
      · intro tried x rest1 hsplit htried hx
        cases tried with
        | nil =>
          simp only [List.nil_append, List.cons.injEq] at hsplit
          obtain ⟨rfl, _⟩ := hsplit
          exact ⟨h0, by simp [callTraces, hra']⟩
        | cons t tried =>
          simp only [List.cons_append, List.cons.injEq] at hsplit
          obtain ⟨rfl, _⟩ := hsplit
          have := htried a (by simp)
          simp [callRet, hra', h0] at this
      · intro hall
        have := hall a (by simp)
        simp [callRet, hra', h0] at this
    · refine ⟨(r2.1, ra.2 ++ r2.2), by simp [h0, hr2], ?_, ?_⟩
      · intro tried x rest1 hsplit htried hx
        cases tried with
        | nil =>
          simp only [List.nil_append, List.cons.injEq] at hsplit
          obtain ⟨rfl, _⟩ := hsplit
          simp only [callRet, hra, Option.map_some', Option.some.injEq] at hx
          exact absurd hx h0
        | cons t tried =>
          simp only [List.cons_append, List.cons.injEq] at hsplit
          obtain ⟨rfl, hs⟩ := hsplit
          obtain ⟨e1, e2⟩ := hsp2 tried x rest1 hs
            (fun y hy => htried y (List.mem_cons_of_mem _ hy)) hx
          refine ⟨e1, ?_⟩
          simp only [e2]
          simp [callTraces, hra']
      · intro hall
        obtain ⟨e1, e2⟩ := hall2 (fun y hy => hall y (List.mem_cons_of_mem _ hy))
        refine ⟨e1, ?_⟩
        simp only [e2]
        simp [callTraces, hra']

/-- C6: brace alternation is a logical OR over the alternatives. For a pattern
`pre\x7ba1,...,an\x7dpost` shorter than `FILENAME_MAX`, with `pre` free of
braces, brackets and backslashes and every `ai` an alternative of the group,
`csh_match` returns a result; it returns 0 exactly when `csh_match` on some
`pre ai post` returns 0; the alternatives are tried from left to right up to
the first one that matches, and no further. -/
theorem csh_match_brace_alternation (fn : Fnmatch) (pre : List Char)
    (alts : List (List Char)) (post s : List Char) (flags : Int)
    (hpre : plainSeg pre = true) (hne : alts ≠ []) (hok : ∀ x ∈ alts, altOK x = true)
    (hlen : (bracePattern pre alts post).length < FILENAME_MAX) :
    ∃ r, csh_match fn (bracePattern pre alts post) s flags = some r ∧
      (r.1 = 0 ↔
        ∃ a ∈ alts, callRet (fun q => csh_match fn q s flags) (pre ++ a ++ post) = some 0) ∧
      (∀ tried a rest, alts = tried ++ a :: rest →
        (∀ b ∈ tried, callRet (fun q => csh_match fn q s flags) (pre ++ b ++ post) ≠ some 0) →
        callRet (fun q => csh_match fn q s flags) (pre ++ a ++ post) = some 0 →
        r.2 = callTraces (fun q => csh_match fn q s flags)
          ((tried ++ [a]).map (fun b => pre ++ b ++ post))) ∧
      ((∀ b ∈ alts, callRet (fun q => csh_match fn q s flags) (pre ++ b ++ post) ≠ some 0) →
        r.2 = callTraces (fun q => csh_match fn q s flags)
          (alts.map (fun b => pre ++ b ++ post))) := by
  obtain ⟨r, hr, hsp, hall⟩ := altsResult_first (fun q => csh_match fn q s flags) pre post
    (fun buf => csh_match_total fn buf s flags) alts hne
  rw [← csh_match_brace fn pre alts post s flags hpre hne hok hlen] at hr
  refine ⟨r, hr, ⟨fun h0 => ?_, fun hex => ?_⟩, fun tried a rest h1 h2 h3 => (hsp tried a rest h1 h2 h3).2,
    fun h => (hall h).2⟩
  · by_contra hno
    have hno2 : ∀ b ∈ alts,
        callRet (fun q => csh_match fn q s flags) (pre ++ b ++ post) ≠ some 0 :=
      fun b hb hc => hno ⟨b, hb, hc⟩
    exact (hall hno2).1 h0
  · obtain ⟨tried, a, rest, e, h1, h2⟩ := exists_first
      (fun a => callRet (fun q => csh_match fn q s flags) (pre ++ a ++ post) = some 0) alts hex
    exact (hsp tried a rest e h1 h2).1

/-- Witness of C6: `lib\x7ba,b\x7d*` matches `liba-1.0` and `libb-2.0` but not
`libc-1.0`; on `libb-2.0` the alternative `a` is tried first, then `b`. -/
theorem csh_match_brace_alternation_witness :
    (csh_match fnmatchRef "lib\x7ba,b\x7d*".toList "liba-1.0".toList 0).map Prod.fst = some 0 ∧
    csh_match fnmatchRef "lib\x7ba,b\x7d*".toList "libb-2.0".toList 0
      = some (0, ["liba*".toList, "libb*".toList]) ∧
    (csh_match fnmatchRef "lib\x7ba,b\x7d*".toList "libc-1.0".toList 0).map Prod.fst
      ≠ some 0 := by
  have hk := fun s => csh_match_brace_alternation fnmatchRef "lib".toList
    ["a".toList, "b".toList] "*".toList s 0 (by decide) (by decide) (by decide) (by decide)
  have hp : bracePattern "lib".toList ["a".toList, "b".toList] "*".toList
      = "lib\x7ba,b\x7d*".toList := by decide
  rw [hp] at hk
  refine ⟨?_, ?_, ?_⟩
  · obtain ⟨r, hr, hiff, _, _⟩ := hk "liba-1.0".toList
    rw [hr]
    exact congrArg some (hiff.2 ⟨"a".toList, by decide, by decide⟩)
  · obtain ⟨r, hr, hiff, hsp, _⟩ := hk "libb-2.0".toList
    rw [hr]
    have h1 := hiff.2 ⟨"b".toList, by decide, by decide⟩
    have h2 := hsp ["a".toList] "b".toList [] rfl (by decide) (by decide)
    have h3 : callTraces (fun q => csh_match fnmatchRef q "libb-2.0".toList 0)
        ((["a".toList] ++ ["b".toList]).map (fun b => "lib".toList ++ b ++ "*".toList))
        = ["liba*".toList, "libb*".toList] := by decide
    rw [h3] at h2
    exact congrArg some (Prod.ext h1 h2)
  · obtain ⟨r, hr, hiff, _, _⟩ := hk "libc-1.0".toList
    rw [hr]
    intro h
    have h0 : r.1 = 0 := by simpa using h
    obtain ⟨a, ha, hm⟩ := hiff.1 h0
    revert a
    decide

/-! ## Brace expansion -/

theorem splitAtBrace_spec : ∀ (P : List Char), closedSeg true 0 P = true →
    (splitAtBrace P = none ∧ plainSeg P = true) ∨
    (∃ pre X, splitAtBrace P = some (pre, X) ∧ P = pre ++ '{' :: X ∧ plainSeg pre = true ∧
      closedSeg true 1 X = true)
  | [], _ => Or.inl ⟨rfl, rfl⟩
  | c :: s, h => by
    rw [closedSeg] at h
    by_cases h1 : c = '{'
    · subst h1
      simp only [if_true] at h
      exact Or.inr ⟨[], s, by simp [splitAtBrace], rfl, rfl, h⟩
    · by_cases h2 : c = '}'
      · simp [h1, h2] at h
      · by_cases h4 : c = '[' ∨ c = '\\'
        · by_cases h3 : c = ','
          · subst h3; simp at h4
          · simp [h1, h2, h3, h4] at h
        · have hs : closedSeg true 0 s = true := by
            by_cases h3 : c = ','
            · simpa [h1, h2, h3] using h
            · simpa [h1, h2, h3, h4] using h
          have h5 : ¬ c = '[' := fun e => h4 (Or.inl e)
          have h6 : ¬ c = '\\' := fun e => h4 (Or.inr e)
          rcases splitAtBrace_spec s hs with ⟨e1, e2⟩ | ⟨pre, X, e1, e2, e3, e4⟩
          · left
            refine ⟨by simp [splitAtBrace, h1, e1], ?_⟩
            simp only [plainSeg, List.all_cons, Bool.and_eq_true, decide_eq_true_eq] at e2 ⊢
            exact ⟨⟨h1, h2, h5, h6⟩, e2⟩
          · right
            refine ⟨c :: pre, X, by simp [splitAtBrace, h1, e1], by simp [e2], ?_, e4⟩
            simp only [plainSeg, List.all_cons, Bool.and_eq_true, decide_eq_true_eq] at e3 ⊢
            exact ⟨⟨h1, h2, h5, h6⟩, e3⟩

theorem matchClose_spec : ∀ (X : List Char) (d : Nat), closedSeg true (d + 1) X = true →
    ∃ body post, matchClose d X = some (body, post) ∧ X = body ++ '}' :: post ∧
      closedSeg true d body = true ∧ closedSeg true 0 post = true
  | [], d, h => by simp [closedSeg] at h
  | c :: s, d, h => by
    rw [closedSeg] at h
    by_cases h1 : c = '{'
    · subst h1
      simp only [if_true] at h
      obtain ⟨body, post, e1, e2, e3, e4⟩ := matchClose_spec s (d + 1) h
      refine ⟨'{' :: body, post, by simp [matchClose, e1], by simp [e2], ?_, e4⟩
      rw [closedSeg]
      simpa using e3
    · by_cases h2 : c = '}'
      · subst h2
        simp only [h1, if_false, if_true, Nat.add_sub_cancel, Bool.and_eq_true] at h
        cases d with
        | zero =>
          exact ⟨[], s, by simp [matchClose], rfl, by simp [closedSeg], h.2⟩
        | succ d1 =>
          obtain ⟨body, post, e1, e2, e3, e4⟩ := matchClose_spec s d1 h.2
          refine ⟨'}' :: body, post, by simp [matchClose, e1], by simp [e2], ?_, e4⟩
          rw [closedSeg]
          simpa using e3
      · by_cases h4 : c = '[' ∨ c = '\\'
        · by_cases h3 : c = ','
          · subst h3; simp at h4
          · simp [h1, h2, h3, h4] at h
        · have hs : closedSeg true (d + 1) s = true := by
            by_cases h3 : c = ','
            · simpa [h1, h2, h3] using h
            · simpa [h1, h2, h3, h4] using h
          obtain ⟨body, post, e1, e2, e3, e4⟩ := matchClose_spec s d hs
          refine ⟨c :: body, post, by simp [matchClose, h1, h2, e1], by simp [e2], ?_, e4⟩
          rw [closedSeg]
          by_cases h3 : c = ','
          · subst h3
            simpa using e3
          · simpa [h1, h2, h3, h4] using e3

theorem splitAlts_spec : ∀ (s : List Char) (d : Nat), closedSeg true d s = true →
    ∃ h t, splitAlts d s = h :: t ∧ closedSeg false d h = true ∧
      (∀ x ∈ t, altOK x = true) ∧ joinAlts (h :: t) = s
  | [], d, hc => by
    simp only [closedSeg, decide_eq_true_eq] at hc
    subst hc
    exact ⟨[], [], rfl, rfl, by simp, rfl⟩
  | c :: s, d, hc => by
    rw [closedSeg] at hc
    by_cases h1 : c = '{'
    · subst h1
      simp only [if_true] at hc
      obtain ⟨h, t, e1, e2, e3, e4⟩ := splitAlts_spec s (d + 1) hc
      refine ⟨'{' :: h, t, by simp [splitAlts, e1], ?_, e3, ?_⟩
      · rw [closedSeg]; simpa using e2
      · cases t with
        | nil => simpa [joinAlts] using e4
        | cons b t => simpa [joinAlts] using e4
    · by_cases h2 : c = '}'
      · subst h2
        simp only [h1, if_false, if_true, Bool.and_eq_true, decide_eq_true_eq] at hc
        obtain ⟨h, t, e1, e2, e3, e4⟩ := splitAlts_spec s (d - 1) hc.2
        refine ⟨'}' :: h, t, by simp [splitAlts, e1], ?_, e3, ?_⟩
        · rw [closedSeg]; simpa [hc.1] using e2
        · cases t with
          | nil => simpa [joinAlts] using e4
          | cons b t => simpa [joinAlts] using e4
      · by_cases h3 : c = ','
        · subst h3
          simp only [h1, h2, if_false, if_true, Bool.true_or, Bool.true_and] at hc
          obtain ⟨h, t, e1, e2, e3, e4⟩ := splitAlts_spec s d hc
          by_cases hd : d = 0
          · subst hd
            refine ⟨[], h :: t, by simp [splitAlts, e1], rfl, ?_, ?_⟩
            · intro x hx
              rcases List.mem_cons.1 hx with rfl | hx
              · exact e2
              · exact e3 x hx
            · simp [joinAlts, e4]
          · refine ⟨',' :: h, t, by simp [splitAlts, hd, e1], ?_, e3, ?_⟩
            · rw [closedSeg]
              have : 0 < d := by omega
              simpa [this] using e2
            · cases t with
              | nil => simpa [joinAlts] using e4
              | cons b t => simpa [joinAlts] using e4
        · by_cases h4 : c = '[' ∨ c = '\\'
          · simp [h1, h2, h3, h4] at hc
          · simp only [h1, h2, h3, h4, if_false] at hc
            obtain ⟨h, t, e1, e2, e3, e4⟩ := splitAlts_spec s d hc
            refine ⟨c :: h, t, by simp [splitAlts, h1, h2, h3, e1], ?_, e3, ?_⟩
            · rw [closedSeg]; simpa [h1, h2, h3, h4] using e2
            · cases t with
              | nil => simpa [joinAlts] using e4
              | cons b t => simpa [joinAlts] using e4

theorem plainSeg_closed : ∀ (s : List Char), plainSeg s = true → closedSeg true 0 s = true
  | [], _ => rfl
  | c :: s, h => by
    simp only [plainSeg, List.all_cons, Bool.and_eq_true, decide_eq_true_eq] at h
    obtain ⟨⟨h1, h2, h3, h4⟩, h5⟩ := h
    have := plainSeg_closed s (by simpa [plainSeg] using h5)
    rw [closedSeg]
    by_cases hc : c = ','
    · simp [h1, h2, hc, this]
    · simp [h1, h2, h3, h4, hc, this]

theorem plainSeg_inert : ∀ (s : List Char), plainSeg s = true → braceInert 0 false s = true
  | [], _ => rfl
  | c :: s, h => by
    simp only [plainSeg, List.all_cons, Bool.and_eq_true, decide_eq_true_eq] at h
    obtain ⟨⟨h1, h2, h3, h4⟩, h5⟩ := h
    have := plainSeg_inert s (by simpa [plainSeg] using h5)
    rw [braceInert]
    simp [h1, h3, h4, this]

/-- The first group of a balanced pattern. -/
theorem firstGroup_spec (P : List Char) (h : balancedBraces P = true) :
    (firstGroup P = none ∧ plainSeg P = true) ∨
    (∃ pre alts post, firstGroup P = some (pre, alts, post) ∧ P = bracePattern pre alts post ∧
      plainSeg pre = true ∧ alts ≠ [] ∧ (∀ x ∈ alts, altOK x = true) ∧
      balancedBraces post = true) := by
  rcases splitAtBrace_spec P h with ⟨e1, e2⟩ | ⟨pre, X, e1, e2, e3, e4⟩
  · exact Or.inl ⟨by simp [firstGroup, e1], e2⟩
  · right
    obtain ⟨body, post, f1, f2, f3, f4⟩ := matchClose_spec X 0 e4
    obtain ⟨a, t, g1, g2, g3, g4⟩ := splitAlts_spec body 0 f3
    refine ⟨pre, a :: t, post, by simp [firstGroup, e1, f1, g1], ?_, e3, by simp, ?_, f4⟩
    · rw [e2, f2, bracePattern, g4]
    · intro x hx
      rcases List.mem_cons.1 hx with rfl | hx
      · exact g2
      · exact g3 x hx

theorem globAny_append (fn : Fnmatch) (s : List Char) (flags : Int) (ys : List (List Char))
    (hys : ys ≠ []) : ∀ (xs : List (List Char)), xs ≠ [] →
    globAny fn s flags (xs ++ ys)
      = if (globAny fn s flags xs).1 ≠ 0 then
          ((globAny fn s flags ys).1, (globAny fn s flags xs).2 ++ (globAny fn s flags ys).2)
        else globAny fn s flags xs
  | [], h => absurd rfl h
  | [q], _ => by
    obtain ⟨y, ys1, rfl⟩ : ∃ y ys1, ys = y :: ys1 := by
      cases ys with
      | nil => exact absurd rfl hys
      | cons y ys1 => exact ⟨y, ys1, rfl⟩
    show globAny fn s flags (q :: y :: ys1) = _
    rw [globAny]
    simp only [globAny]
    split_ifs <;> simp
  | q :: q2 :: rest, _ => by
    have ih := globAny_append fn s flags ys hys (q2 :: rest) (by simp)
    show globAny fn s flags (q :: q2 :: (rest ++ ys)) = _
    rw [globAny]
    have e : q2 :: (rest ++ ys) = (q2 :: rest) ++ ys := rfl
    rw [e, ih]
    rw [globAny.eq_3]
    by_cases h1 : fn q s flags = 0
    · simp [h1]
    · by_cases h2 : (globAny fn s flags (q2 :: rest)).1 = 0
      · simp [h1, h2]
      · simp [h1, h2]

theorem globAny_fail (fn : Fnmatch) (s : List Char) (flags : Int) :
    ∀ (l : List (List Char)), (∀ q ∈ l, fn q s flags ≠ 0) → (globAny fn s flags l).2 = l
  | [], _ => rfl
  | [q], _ => rfl
  | q :: q2 :: rest, h => by
    have h1 := h q (by simp)
    have h2 := globAny_fail fn s flags (q2 :: rest)
      (fun x hx => h x (List.mem_cons_of_mem _ hx))
    rw [globAny]
    simp [h1, h2]

theorem globAny_zero_iff (fn : Fnmatch) (s : List Char) (flags : Int) :
    ∀ (l : List (List Char)), l ≠ [] →
      ((globAny fn s flags l).1 = 0 ↔ ∃ q ∈ l, fn q s flags = 0)
  | [], h => absurd rfl h
  | [q], _ => by simp [globAny]
  | q :: q2 :: rest, _ => by
    have ih := globAny_zero_iff fn s flags (q2 :: rest) (by simp)
    rw [globAny]
    by_cases h1 : fn q s flags = 0
    · simp [h1]
    · simp only [ne_eq, h1, not_false_eq_true, if_true, ih]
      constructor
      · rintro ⟨x, hx, h0⟩
        exact ⟨x, List.mem_cons_of_mem _ hx, h0⟩
      · rintro ⟨x, hx, h0⟩
        rcases List.mem_cons.1 hx with rfl | hx
        · exact absurd h0 h1
        · exact ⟨x, hx, h0⟩

theorem altsResult_globAny (call : List Char → Option CshResult) (fn : Fnmatch)
    (pre post s : List Char) (flags : Int) (E : List Char → List (List Char)) :
    ∀ (alts : List (List Char)), alts ≠ [] →
      (∀ a ∈ alts, E a ≠ [] ∧ call (pre ++ a ++ post) = some (globAny fn s flags (E a))) →
      (alts.map E).flatten ≠ [] ∧
      altsResult call pre post alts = some (globAny fn s flags ((alts.map E).flatten))
  | [], h, _ => absurd rfl h
  | [a], _, hE => by
    obtain ⟨h1, h2⟩ := hE a (by simp)
    have h2' : call (pre ++ (a ++ post)) = some (globAny fn s flags (E a)) := by
      simpa using h2
    simp [altsResult, h1, h2']
  | a :: b :: rest, _, hE => by
    obtain ⟨h1, h2⟩ := hE a (by simp)
    obtain ⟨h3, h4⟩ := altsResult_globAny call fn pre post s flags E (b :: rest) (by simp)
      (fun x hx => hE x (List.mem_cons_of_mem _ hx))
    refine ⟨by simp [h1], ?_⟩
    rw [altsResult, h2, h4]
    have e : ((a :: b :: rest).map E).flatten = E a ++ ((b :: rest).map E).flatten := by
      simp
    rw [e, globAny_append fn s flags _ h3 (E a) h1]
    simp only
    split_ifs <;> rfl

theorem mem_joinAlts_length : ∀ (alts : List (List Char)) (a : List Char), a ∈ alts →
    a.length ≤ (joinAlts alts).length
  | [], a, h => by simp at h
  | [x], a, h => by
    simp only [List.mem_singleton] at h
    subst h
    simp [joinAlts]
  | x :: y :: rest, a, h => by
    rw [joinAlts]
    simp only [List.length_append, List.length_cons]
    rcases List.mem_cons.1 h with rfl | h1
    · omega
    · have := mem_joinAlts_length (y :: rest) a h1
      omega

/-- The function `csh_match` on a balanced pattern hands to `fnmatch` the strings
of the brace expansion, in order, until one is accepted. -/
theorem csh_match_expand (fn : Fnmatch) (s : List Char) (flags : Int) :
    ∀ (n : Nat) (P : List Char), P.length ≤ n → balancedBraces P = true →
      P.length < FILENAME_MAX →
      braceExpand n P ≠ [] ∧
      csh_match fn P s flags = some (globAny fn s flags (braceExpand n P)) := by
  intro n
  induction n with
  | zero =>
    intro P hP _ _
    have : P = [] := List.length_eq_zero.1 (by omega)
    subst this
    refine ⟨by simp [braceExpand], ?_⟩
    rw [csh_match_inert fn [] s flags rfl]
    rfl
  | succ n ih =>
    intro P hP hbal hlen
    rcases firstGroup_spec P hbal with ⟨e1, e2⟩ | ⟨pre, alts, post, e1, e2, e3, e4, e5, e6⟩
    · have hex : braceExpand (n + 1) P = [P] := by simp [braceExpand, e1]
      rw [hex]
      refine ⟨by simp, ?_⟩
      rw [csh_match_inert fn P s flags (plainSeg_inert P e2)]
      rfl
    · have hex : braceExpand (n + 1) P
          = (alts.map (fun a => braceExpand n (pre ++ a ++ post))).flatten := by
        simp [braceExpand, e1]
      have hplen : P.length = pre.length + 1 + (joinAlts alts).length + 1 + post.length := by
        rw [e2]
        simp only [bracePattern, List.length_append, List.length_cons]
        omega
      have hsub : ∀ a ∈ alts, braceExpand n (pre ++ a ++ post) ≠ [] ∧
          csh_match fn (pre ++ a ++ post) s flags
            = some (globAny fn s flags (braceExpand n (pre ++ a ++ post))) := by
        intro a ha
        have hl := mem_joinAlts_length alts a ha
        have hq : (pre ++ a ++ post).length < P.length := by
          simp only [List.length_append]
          omega
        apply ih (pre ++ a ++ post) (by omega) _ (by omega)
        exact closedSeg_append true post e6 (pre ++ a) 0
          (closedSeg_append true a (closedSeg_mono a 0 (e5 a ha)) pre 0 (plainSeg_closed pre e3))
      obtain ⟨h1, h2⟩ := altsResult_globAny (fun q => csh_match fn q s flags) fn pre post s flags
        (fun a => braceExpand n (pre ++ a ++ post)) alts e4 hsub
      rw [hex]
      refine ⟨h1, ?_⟩
      rw [← h2]
      have := csh_match_brace fn pre alts post s flags e3 e4 e5 (by rw [← e2]; exact hlen)
      rw [← e2] at this
      exact this

/-- C7: nested brace groups are fully expanded. For a pattern with balanced
braces, without bracket or backslash and shorter than `FILENAME_MAX`,
`csh_match` returns a result; when `fnmatch` accepts no string of the recursive
brace expansion, the patterns handed to `fnmatch` are exactly the strings of
the expansion, each once, in order; and the result is 0 exactly when `fnmatch`
accepts a string of the expansion. The expansion of `a\x7bb,c\x7bd,e\x7d\x7d` is
`ab`, `acd`, `ace`. -/
theorem csh_match_brace_expansion (fn : Fnmatch) (pattern s : List Char) (flags : Int)
    (hbal : balancedBraces pattern = true) (hlen : pattern.length < FILENAME_MAX) :
    ∃ r, csh_match fn pattern s flags = some r ∧
      ((∀ q ∈ braceExpansion pattern, fn q s flags ≠ 0) → r.2 = braceExpansion pattern) ∧
      (r.1 = 0 ↔ ∃ q ∈ braceExpansion pattern, fn q s flags = 0) ∧
      braceExpansion "a\x7bb,c\x7bd,e\x7d\x7d".toList
        = ["ab".toList, "acd".toList, "ace".toList] := by
  obtain ⟨h1, h2⟩ := csh_match_expand fn s flags pattern.length pattern (Nat.le_refl _) hbal hlen
  exact ⟨_, h2, fun h => globAny_fail fn s flags _ h, globAny_zero_iff fn s flags _ h1,
    by decide⟩

/-- Witness of C7: on `a\x7bb,c\x7bd,e\x7d\x7d` and a string that matches none of
`ab`, `acd`, `ace`, these three are the patterns handed to `fnmatch`. -/
theorem csh_match_brace_expansion_witness :
    csh_match fnmatchRef "a\x7bb,c\x7bd,e\x7d\x7d".toList "zz".toList 0
      = some (FNM_NOMATCH, ["ab".toList, "acd".toList, "ace".toList]) := by
  obtain ⟨r, hr, htrace, hiff, hexp⟩ := csh_match_brace_expansion fnmatchRef
    "a\x7bb,c\x7bd,e\x7d\x7d".toList "zz".toList 0 (by decide) (by decide)
  have h2 := htrace (by rw [hexp]; decide)
  rw [hexp] at h2
  rw [hr]
  have h1 : r.1 = FNM_NOMATCH := by
    have : csh_match fnmatchRef "a\x7bb,c\x7bd,e\x7d\x7d".toList "zz".toList 0
        = some (FNM_NOMATCH, ["ab".toList, "acd".toList, "ace".toList]) := by decide
    rw [this] at hr
    cases hr
    rfl
  exact congrArg some (Prod.ext h1 h2)

/-- C9: `csh_match` terminates on every input. It returns a result on every
pattern, string and flags, and no larger recursion bound changes it. The
variables on entry satisfy the loop invariant, and from variables that satisfy
it every pass of the outer loop ends its inner scan within
`strlen(pattern) + 1 - start` steps, at the terminating NUL at the latest; the
pattern rebuilt for the recursive call is strictly shorter than the pattern;
and the next pass starts strictly further right, inside the string, with the
invariant again. -/
theorem csh_match_terminates (fn : Fnmatch) (pattern s : List Char) (flags : Int) :
    (∃ r, csh_match fn pattern s flags = some r) ∧
    (∀ d, pattern.length + 1 ≤ d →
      csh_match_fuel fn d pattern s flags = csh_match fn pattern s flags) ∧
    CshInv pattern 0 (cshEnter cshInit 0) ∧
    (∀ (v : CshState) (nc : Nat), v.nextchoice = some nc → nc ≤ pattern.length →
      CshInv pattern nc (cshEnter v nc) →
      ∃ f pf, cshScan pattern (pattern.length + 1 - nc) (cshEnter v nc) = some f ∧
        f.postfx = some pf ∧ pf ≤ pattern.length ∧
        (∀ cur, f.current = some cur → (cshBuf pattern f cur pf).length < pattern.length) ∧
        (∀ n2, f.nextchoice = some n2 → nc < n2 ∧ n2 ≤ pattern.length ∧
          CshInv pattern n2 (cshEnter { f with current := f.nextchoice, level := 1 } n2))) := by
  refine ⟨csh_match_total fn pattern s flags,
    fun d hd => csh_match_fuel_eq fn s flags d pattern hd, cshInv_init pattern, ?_⟩
  intro v nc _ hnc hinv
  obtain ⟨f, hf, _⟩ := cshScan_total pattern (pattern.length + 1 - nc) (cshEnter v nc) rfl hnc
    (by simp only [cshEnter]; omega)
  have hfin := cshScan_final pattern nc _ _ f hinv rfl hnc hf
  obtain ⟨pf, hpf, hle⟩ := hfin.pf
  refine ⟨f, pf, hf, hpf, hle, fun cur hcur => cshBuf_length pattern nc f cur pf hfin hcur hpf,
    fun n2 hn2 => ?_⟩
  have := hfin.next n2 hn2
  exact ⟨this.1, this.2, cshInv_enter pattern nc f n2 hfin hn2⟩

/-! ## pattern_match: the pattern buffer on return -/

theorem set_set_peek (l : List Char) (i : Nat) (x : Char) (h : i < l.length) :
    (l.set i x).set i (peek l i) = l := by
  unfold peek
  rw [List.set_set, List.getD_eq_getElem l '\x00' h]
  apply List.ext_getElem (by simp)
  intro k h1 h2
  rw [List.getElem_set]
  split_ifs with hk
  · subst hk; rfl
  · rfl

/-- The condition loop hands the buffer back as it was before the pending NUL
was written: when putting the saved character back at `cond` gives `orig`, the
buffer on return is `orig`. -/
theorem condLoop_restores (vc : VersionCmp) (pkgname base fname orig : List Char) :
    ∀ (n : Nat) (buf : List Char) (cond : Nat) (cc : Char) (e : Int) (cmps : List (List Char))
      (r : PMResult), buf.set cond cc = orig →
      condLoop vc pkgname base fname n buf cond cc e cmps = some r → r.pattern = orig := by
  intro n
  induction n with
  | zero =>
    intro buf cond cc e cmps r _ h
    simp [condLoop] at h
  | succ n ih =>
    intro buf cond cc e cmps r hb h
    rw [condLoop] at h
    by_cases he : e = 1
    · subst he
      simp only [if_true] at h
      rw [hb] at h
      cases hnx : strpbrk orig
          (if decide (peek orig (cond + 1) = '=') = true then cond + 2 else cond + 1)
          ['<', '>', '=', '!'] with
      | none =>
        rw [hnx] at h
        simp only [Option.some.injEq] at h
        rw [← h]
      | some j =>
        rw [hnx] at h
        simp only at h
        have hbd := strpbrk_bound _ _ _ _ hnx
        exact ih _ _ _ _ _ r (set_set_peek orig j _ hbd.2) h
    · rw [if_neg he] at h
      simp only [Option.some.injEq] at h
      rw [← h]
      exact hb

/-- C18: `pattern_match` leaves its pattern argument unchanged. For every match
kind, every pattern buffer and every candidate, with any `version_cmp`,
`fnmatch` and regex engine (so whatever the base match is, -1 included, and
whichever clause of a chain fails), the call returns and the buffer holds on
return exactly the bytes it held on entry. -/
theorem pattern_match_pattern_unchanged (version_cmp : VersionCmp) (fnmatch : Fnmatch)
    (re : RegexEngine) (MatchType : legacy_match_t) (pattern pkgname : List Char) :
    ∃ r, pattern_match version_cmp fnmatch re MatchType pattern pkgname = some r ∧
      r.pattern = pattern := by
  obtain ⟨r, e, hr, -⟩ := pattern_match_total version_cmp fnmatch re MatchType pattern pkgname
  refine ⟨r, hr, ?_⟩
  unfold pattern_match at hr
  cases hs : strpbrk pattern 0 ['<', '>', '='] with
  | none =>
    rw [hs] at hr
    simp only at hr
    cases hb : pattern_base fnmatch re MatchType (cstr pattern 0) pkgname with
    | none => rw [hb] at hr; exact Option.noConfusion hr
    | some e1 =>
      rw [hb] at hr
      simp only [Option.some.injEq] at hr
      rw [← hr]
  | some c0 =>
    rw [hs] at hr
    simp only at hr
    have hbd := strpbrk_bound _ _ _ _ hs
    have hcl : (if 0 < c0 ∧ peek pattern (c0 - 1) = '!' then c0 - 1 else c0) < pattern.length := by
      split_ifs <;> omega
    cases hb : pattern_base fnmatch re MatchType
        (cstr (pattern.set (if 0 < c0 ∧ peek pattern (c0 - 1) = '!' then c0 - 1 else c0) '\x00') 0)
        (pattern_fname pkgname) with
    | none => rw [hb] at hr; exact Option.noConfusion hr
    | some e1 =>
      rw [hb] at hr
      simp only at hr
      exact condLoop_restores version_cmp pkgname _ _ pattern _ _ _ _ _ _ r
        (set_set_peek pattern _ _ hcl) hr

/-! ## The accumulator: what it holds -/

theorem slotsOK_split : ∀ (n : Nat) (arr : List Slot), slotsOK n arr = true →
    ∃ (ss : List (List Char)) (rest : List Slot), ss.length = n ∧
      arr = ss.map Slot.str ++ Slot.null :: rest ∧ ∀ x ∈ rest, x.isStr = false
  | 0, [], h => by simp [slotsOK] at h
  | 0, Slot.null :: rest, h => by
    refine ⟨[], rest, rfl, rfl, ?_⟩
    intro x hx
    simp only [slotsOK, List.all_eq_true] at h
    simpa using h x hx
  | 0, Slot.str _ :: _, h => by simp [slotsOK] at h
  | 0, Slot.freed _ :: _, h => by simp [slotsOK] at h
  | 0, Slot.junk :: _, h => by simp [slotsOK] at h
  | n + 1, [], h => by simp [slotsOK] at h
  | n + 1, Slot.str s :: rest, h => by
    simp only [slotsOK] at h
    obtain ⟨ss, r, h1, h2, h3⟩ := slotsOK_split n rest h
    exact ⟨s :: ss, r, by simp [h1], by simp [h2], h3⟩
  | n + 1, Slot.null :: _, h => by simp [slotsOK] at h
  | n + 1, Slot.freed _ :: _, h => by simp [slotsOK] at h
  | n + 1, Slot.junk :: _, h => by simp [slotsOK] at h

theorem slotsOK_join (rest : List Slot) (hr : ∀ x ∈ rest, x.isStr = false) :
    ∀ ss : List (List Char), slotsOK ss.length (ss.map Slot.str ++ Slot.null :: rest) = true
  | [] => by
    simp only [List.length_nil, List.map_nil, List.nil_append, slotsOK, List.all_eq_true]
    intro x hx
    simp [hr x hx]
  | s :: ss => by
    simp only [List.length_cons, List.map_cons, List.cons_append, slotsOK]
    exact slotsOK_join rest hr ss

/-- The invariant says that the accumulator holds some list of strings. -/
theorem storeOK_holds (st : store) (h : storeOK (some st) = true) : ∃ ss, StoreHolds st ss := by
  cases hs : st.store with
  | none =>
    simp only [storeOK, hs, Bool.and_eq_true, beq_iff_eq] at h
    exact ⟨[], h.1, Or.inl ⟨rfl, hs, h.2⟩⟩
  | some arr =>
    simp only [storeOK, hs, Bool.and_eq_true, beq_iff_eq] at h
    obtain ⟨ss, rest, h1, h2, h3⟩ := slotsOK_split _ _ h.2
    refine ⟨ss, h1.symm, Or.inr ⟨rest, by rw [hs, h2], ?_, h3⟩⟩
    rw [← h.1, h2]
    simp only [List.length_append, List.length_map, List.length_cons]
    omega

theorem holds_storeOK (st : store) (ss : List (List Char)) (h : StoreHolds st ss) :
    storeOK (some st) = true := by
  obtain ⟨hu, h | ⟨rest, h1, h2, h3⟩⟩ := h
  · obtain ⟨h0, h1, h2⟩ := h
    subst h0
    simp [storeOK, h1, h2, hu]
  · simp only [storeOK, h1, Bool.and_eq_true, beq_iff_eq]
    refine ⟨?_, ?_⟩
    · rw [h2]
      simp only [List.length_append, List.length_map, List.length_cons]
      omega
    · rw [hu]
      exact slotsOK_join rest h3 ss

theorem freeRun_strs (rest : List Slot) : ∀ ss : List (List Char),
    freeRun (ss.map Slot.str ++ Slot.null :: rest) = ss.map Slot.freed ++ Slot.null :: rest
  | [] => by simp [freeRun]
  | s :: ss => by
    have ih := freeRun_strs rest ss
    simp only [List.map_cons, List.cons_append, freeRun]
    exact congrArg (fun l => Slot.freed s :: l) ih

/-- The function `storecreate` on an accumulator that satisfies the invariant:
the result holds nothing, with the capacity it had. -/
theorem storecreate_holds (acc : Option store) (h : storeOK acc = true) :
    ∃ st, storecreate acc = some st ∧ StoreHolds st [] ∧
      (∀ st0, acc = some st0 → st.currlen = st0.currlen) ∧
      (∀ arr, st.store = some arr → ∀ x ∈ arr, x.isStr = false) := by
  cases acc with
  | none =>
    refine ⟨_, rfl, ⟨rfl, Or.inl ⟨rfl, rfl, rfl⟩⟩, fun st0 h0 => Option.noConfusion h0, ?_⟩
    intro arr ha
    exact Option.noConfusion ha
  | some st0 =>
    obtain ⟨ss, hu, hh | ⟨rest, h1, h2, h3⟩⟩ := storeOK_holds st0 h
    · obtain ⟨h0, h1, h2⟩ := hh
      refine ⟨{ st0 with used := 0 }, by simp [storecreate, h1], ⟨rfl, Or.inl ⟨rfl, h1, h2⟩⟩,
        fun st1 h1 => by cases h1; rfl, ?_⟩
      intro arr ha
      simp only [h1] at ha
      exact Option.noConfusion ha
    · cases ss with
      | nil =>
        refine ⟨{ st0 with store := some (Slot.null :: rest), used := 0 },
          by simp [storecreate, h1, freeRun], ⟨rfl, Or.inr ⟨rest, rfl, ?_, h3⟩⟩,
          fun st1 h1 => by cases h1; rfl, ?_⟩
        · simpa using h2
        · intro arr ha x hx
          simp only [Option.some.injEq] at ha
          subst ha
          rcases List.mem_cons.1 hx with hx | hx
          · subst hx; rfl
          · exact h3 x hx
      | cons s ss =>
        have hno : ∀ x ∈ ss.map Slot.freed ++ Slot.null :: rest, x.isStr = false := by
          intro x hx
          rcases List.mem_append.1 hx with hx | hx
          · obtain ⟨y, -, rfl⟩ := List.mem_map.1 hx
            rfl
          · rcases List.mem_cons.1 hx with hx | hx
            · subst hx; rfl
            · exact h3 x hx
        refine ⟨⟨st0.currlen, 0, some (Slot.null :: (ss.map Slot.freed ++ Slot.null :: rest))⟩,
          ?_, ⟨rfl, Or.inr ⟨_, rfl, ?_, hno⟩⟩, fun st1 h1 => by cases h1; rfl, ?_⟩
        · simp only [storecreate, h1, freeRun_strs]
          simp
        · simp only [h2, List.length_cons, List.length_nil, List.length_append, List.length_map]
          omega
        · intro arr ha x hx
          simp only [Option.some.injEq] at ha
          subst ha
          rcases List.mem_cons.1 hx with hx | hx
          · subst hx; rfl
          · exact hno x hx

theorem set_two (x y : Slot) : ∀ (l : List Slot) (a b : Slot) (t : List Slot) (n : Nat),
    n = l.length → ((l ++ a :: b :: t).set n x).set (n + 1) y = l ++ x :: y :: t
  | [], a, b, t, n, h => by subst h; rfl
  | c :: l, a, b, t, n, h => by
    subst h
    simp only [List.length_cons, List.cons_append, List.set_cons_succ, List.cons.injEq, true_and]
    exact set_two x y l a b t l.length rfl

theorem storeappend_grow (c u : Nat) (a : Option (List Slot)) (item : List Char)
    (h : u + 2 > c) :
    storeappend ⟨c, u, a⟩ item =
      (⟨c + 16, u + 1,
        some (((reallocf a (c + 16)).set u (Slot.str item)).set (u + 1) Slot.null)⟩, 0) := by
  simp [storeappend, h]

theorem storeappend_keep (c u : Nat) (a : Option (List Slot)) (item : List Char)
    (h : ¬ u + 2 > c) :
    storeappend ⟨c, u, a⟩ item =
      (⟨c, u + 1,
        a.map (fun arr => (arr.set u (Slot.str item)).set (u + 1) Slot.null)⟩, 0) := by
  simp [storeappend, h]

/-- The function `storeappend` on an accumulator that holds `ss`: it then holds
`ss` and the new item. -/
theorem storeappend_holds (st : store) (ss : List (List Char)) (item : List Char)
    (h : StoreHolds st ss) : StoreHolds (storeappend st item).1 (ss ++ [item]) := by
  obtain ⟨c, u, a⟩ := st
  obtain ⟨hu, h | ⟨rest, h1, h2, h3⟩⟩ := h
  · obtain ⟨h0, h1, h2⟩ := h
    simp only at hu h1 h2
    subst h0 h1 h2 hu
    refine ⟨rfl, Or.inr ⟨List.replicate 14 Slot.junk, rfl, rfl, ?_⟩⟩
    intro x hx
    rw [List.eq_of_mem_replicate hx]
    rfl
  · simp only at hu h1 h2
    subst hu h1
    have hmap : List.map Slot.str (ss ++ [item]) = List.map Slot.str ss ++ [Slot.str item] := by
      simp
    cases rest with
    | nil =>
      simp only [List.length_nil, Nat.add_zero] at h2
      subst h2
      rw [storeappend_grow _ _ _ _ (by omega)]
      refine ⟨by simp, Or.inr ⟨List.replicate 15 Slot.junk, ?_, by simp, ?_⟩⟩
      · have hlen : (List.map Slot.str ss ++ [Slot.null]).length = ss.length + 1 := by simp
        simp only [reallocf, Option.getD_some, Option.some.injEq]
        rw [List.take_of_length_le (by rw [hlen]; omega), hlen]
        have h16 : ss.length + 1 + 16 - (ss.length + 1) = 16 := by omega
        rw [h16, hmap, List.append_assoc, List.append_assoc]
        exact set_two (Slot.str item) Slot.null (List.map Slot.str ss) Slot.null Slot.junk
          (List.replicate 15 Slot.junk) ss.length (by simp)
      · intro x hx
        rw [List.eq_of_mem_replicate hx]
        rfl
    | cons r rest =>
      simp only [List.length_cons] at h2
      subst h2
      rw [storeappend_keep _ _ _ _ (by omega)]
      refine ⟨by simp, Or.inr ⟨rest, ?_, by simp; omega,
        fun x hx => h3 x (List.mem_cons_of_mem _ hx)⟩⟩
      simp only [Option.map_some', Option.some.injEq]
      rw [hmap, List.append_assoc]
      exact set_two (Slot.str item) Slot.null (List.map Slot.str ss) Slot.null r rest
        ss.length (by simp)

theorem storeAll_holds : ∀ (items : List (List Char)) (st : store) (ss : List (List Char)),
    StoreHolds st ss → StoreHolds (storeAll st items) (ss ++ items)
  | [], st, ss, h => by simpa [storeAll] using h
  | i :: items, st, ss, h => by
    have := storeAll_holds items _ _ (storeappend_holds st ss i h)
    simpa [storeAll] using this

theorem untilNull_strs (rest : List Slot) : ∀ ss : List (List Char),
    untilNull (ss.map Slot.str ++ Slot.null :: rest) = ss
  | [] => by simp [untilNull]
  | s :: ss => by
    have ih := untilNull_strs rest ss
    simp only [List.map_cons, List.cons_append, untilNull]
    exact congrArg (fun l => s :: l) ih

/-- What `matchinstalled` returns from an accumulator that holds `ss`: `NULL`
when `ss` is empty, else the array with the strings of `ss`, the `NULL` that
ends them, and no live string behind it. -/
theorem storeRet_holds (st : store) (ss : List (List Char)) (h : StoreHolds st ss) :
    listOf (storeRet st) = ss ∧ (ss = [] → storeRet st = none) ∧
      (ss ≠ [] → ∃ rest, storeRet st = some (ss.map Slot.str ++ Slot.null :: rest) ∧
        ∀ x ∈ rest, x.isStr = false) := by
  obtain ⟨hu, h⟩ := h
  unfold storeRet
  by_cases hs : ss = []
  · subst hs
    simp only [List.length_nil] at hu
    simp [hu, listOf]
  · have hne : st.used ≠ 0 := by
      rw [hu]
      intro h0
      exact hs (List.length_eq_zero.1 h0)
    rw [if_neg hne]
    rcases h with h | ⟨rest, h1, h2, h3⟩
    · exact absurd h.1 hs
    · rw [h1]
      exact ⟨by simp [listOf, untilNull_strs], fun h => absurd h hs, fun _ => ⟨rest, rfl, h3⟩⟩

/-! ## matchinstalled: what it returns -/

theorem matchLoop_nglob (db : PkgDb) (p : List Char) (ps : List (List Char)) (st : store)
    (qs : List Query) :
    matchLoop db legacy_match_t.LEGACY_MATCH_NGLOB (p :: ps) st qs = (true, st, qs) := by
  simp [matchLoop, switchKind]

/-- The loop over the patterns for a kind that the store knows: one query per
pattern, and the accumulator takes the results, pattern after pattern. -/
theorem matchLoop_holds (db : PkgDb) (kind : legacy_match_t) (m : match_t)
    (hk : switchKind kind = some m) :
    ∀ (ps : List (List Char)) (st : store) (ss : List (List Char)) (qs : List Query),
      StoreHolds st ss →
      ∃ st1, matchLoop db kind ps st qs
          = (false, st1, qs ++ ps.map (fun p => (some p, m))) ∧
        StoreHolds st1 (ss ++ (ps.map (fun p => (db.query (some p) m).getD [])).flatten)
  | [], st, ss, qs, h => ⟨st, by simp [matchLoop], by simpa using h⟩
  | p :: ps, st, ss, qs, h => by
    simp only [matchLoop, hk]
    cases hq : db.query (some p) m with
    | none =>
      obtain ⟨st1, h1, h2⟩ := matchLoop_holds db kind m hk ps st ss (qs ++ [(some p, m)]) h
      refine ⟨st1, ?_, ?_⟩
      · simp only [h1, List.map_cons, List.append_assoc, List.singleton_append]
      · simpa [hq] using h2
    | some it =>
      obtain ⟨st1, h1, h2⟩ := matchLoop_holds db kind m hk ps (storeAll st it) (ss ++ it)
        (qs ++ [(some p, m)]) (storeAll_holds it st ss h)
      refine ⟨st1, ?_, ?_⟩
      · simp only [h1, List.map_cons, List.append_assoc, List.singleton_append]
      · simpa [hq] using h2

theorem storeRet_empty (st : store) (h : StoreHolds st []) : storeRet st = none :=
  (storeRet_holds st [] h).2.1 rfl

/-- A call of `matchinstalled` with a pattern list on an initialised database:
the accumulator it leaves holds exactly the names the kind and the patterns
select, the pointer returned is the one of that accumulator, `*retval` is 0,
and the queries are those of the kind. -/
theorem matchinstalled_holds (db : PkgDb) (acc : Option store) (hok : storeOK acc = true)
    (hinit : db.pkg_initialized = true) (kind : legacy_match_t) (ps : List (List Char))
    (retval : Option Int) :
    ∃ st, (matchinstalled db acc kind (some ps) retval).acc = some st ∧
      StoreHolds st (specSelected db kind ps) ∧
      (matchinstalled db acc kind (some ps) retval).ret = storeRet st ∧
      (matchinstalled db acc kind (some ps) retval).retval = retval.map (fun _ => (0 : Int)) ∧
      (matchinstalled db acc kind (some ps) retval).queries = specQueries kind ps := by
  obtain ⟨st, hst, hh, -, -⟩ := storecreate_holds acc hok
  have hloop : ∀ m, switchKind kind = some m → kind ≠ legacy_match_t.LEGACY_MATCH_ALL →
      ∃ st1, (matchinstalled db acc kind (some ps) retval).acc = some st1 ∧
        StoreHolds st1 ((ps.map (fun p => (db.query (some p) m).getD [])).flatten) ∧
        (matchinstalled db acc kind (some ps) retval).ret = storeRet st1 ∧
        (matchinstalled db acc kind (some ps) retval).retval
          = retval.map (fun _ => (0 : Int)) ∧
        (matchinstalled db acc kind (some ps) retval).queries
          = ps.map (fun p => (some p, m)) := by
    intro m hk hne
    obtain ⟨st1, h1, h2⟩ := matchLoop_holds db kind m hk ps st [] [] hh
    refine ⟨st1, ?_⟩
    simp only [matchinstalled, hinit, hst, if_neg hne, h1]
    simpa using h2
  cases kind with
  | LEGACY_MATCH_ALL =>
    cases hq : db.query none match_t.MATCH_ALL with
    | none =>
      refine ⟨st, ?_⟩
      simp only [matchinstalled, hinit, hst, hq, specSelected, specQueries]
      simpa [storeRet_empty st hh] using hh
    | some it =>
      refine ⟨storeAll st it, ?_⟩
      have := storeAll_holds it st [] hh
      simp only [matchinstalled, hinit, hst, hq, specSelected, specQueries]
      simpa using this
  | LEGACY_MATCH_EXACT => exact hloop match_t.MATCH_EXACT rfl (by decide)
  | LEGACY_MATCH_GLOB => exact hloop match_t.MATCH_GLOB rfl (by decide)
  | LEGACY_MATCH_NGLOB =>
    refine ⟨st, ?_⟩
    cases ps with
    | nil =>
      simp only [matchinstalled, hinit, hst, matchLoop, specSelected, specQueries]
      simpa using hh
    | cons p ps =>
      simp only [matchinstalled, hinit, hst, matchLoop_nglob, specSelected, specQueries]
      simpa [storeRet_empty st hh] using hh
  | LEGACY_MATCH_EREGEX => exact hloop match_t.MATCH_REGEX rfl (by decide)
  | LEGACY_MATCH_REGEX => exact hloop match_t.MATCH_REGEX rfl (by decide)

theorem holds_empty (st : store) (h : StoreHolds st []) :
    st.used = 0 ∧ listOf st.store = [] ∧
      ∀ arr, st.store = some arr → ∀ x ∈ arr, x.isStr = false := by
  obtain ⟨hu, h | ⟨rest, h1, -, h3⟩⟩ := h
  · refine ⟨hu, by simp [h.2.1, listOf], ?_⟩
    intro arr ha
    rw [h.2.1] at ha
    exact Option.noConfusion ha
  · refine ⟨hu, by simp [h1, listOf, untilNull], ?_⟩
    intro arr ha x hx
    rw [h1] at ha
    simp only [List.map_nil, List.nil_append, Option.some.injEq] at ha
    subst ha
    rcases List.mem_cons.1 hx with hx | hx
    · subst hx; rfl
    · exact h3 x hx

/-- Whatever the accumulator was, `storecreate` delivers one with `used = 0`. -/
theorem storecreate_used (acc : Option store) :
    ∃ st, storecreate acc = some st ∧ st.used = 0 := by
  cases acc with
  | none => exact ⟨_, rfl, rfl⟩
  | some st0 =>
    cases hs : st0.store with
    | none => exact ⟨⟨st0.currlen, 0, none⟩, by simp only [storecreate, hs], rfl⟩
    | some arr =>
      exact ⟨⟨st0.currlen, 0, some ((freeRun arr).set 0 Slot.null)⟩,
        by simp only [storecreate, hs], rfl⟩

/-- Every call of `matchinstalled` on an accumulator that satisfies the
invariant keeps the invariant, and what the caller reads through the pointer
returned is `specList`, which does not know the accumulator: when the pointer
is not `NULL`, the array holds those names, the `NULL` that ends them, and no
live string behind it. -/
theorem matchinstalled_list (db : PkgDb) (acc : Option store) (hok : storeOK acc = true)
    (kind : legacy_match_t) (patterns : Option (List (List Char))) (retval : Option Int) :
    storeOK (matchinstalled db acc kind patterns retval).acc = true ∧
    listOf (matchinstalled db acc kind patterns retval).ret = specList db kind patterns ∧
    (∀ arr, (matchinstalled db acc kind patterns retval).ret = some arr →
      ∃ rest, arr = (specList db kind patterns).map Slot.str ++ Slot.null :: rest ∧
        ∀ x ∈ rest, x.isStr = false) := by
  by_cases hinit : db.pkg_initialized = true
  · cases patterns with
    | none =>
      obtain ⟨st, hst, hh, -, -⟩ := storecreate_holds acc hok
      have hr := storeRet_empty st hh
      simp only [matchinstalled, hinit, hst, specList, hr]
      refine ⟨holds_storeOK st [] hh, by simp [listOf], ?_⟩
      intro arr ha
      simp at ha
    | some ps =>
      obtain ⟨st, h1, h2, h3, -, -⟩ := matchinstalled_holds db acc hok hinit kind ps retval
      obtain ⟨h4, h5, h6⟩ := storeRet_holds st _ h2
      rw [h1, h3]
      simp only [specList, hinit, if_true]
      refine ⟨holds_storeOK st _ h2, h4, ?_⟩
      intro arr ha
      by_cases he : specSelected db kind ps = []
      · rw [h5 he] at ha
        exact Option.noConfusion ha
      · obtain ⟨rest, hr1, hr2⟩ := h6 he
        rw [hr1] at ha
        simp only [Option.some.injEq] at ha
        exact ⟨rest, ha.symm, hr2⟩
  · have hf : db.pkg_initialized = false := by simpa using hinit
    simp only [matchinstalled, hf, specList]
    refine ⟨hok, by simp [listOf], ?_⟩
    intro arr ha
    simp at ha

/-! ## matchinstalled: the claims on its results -/

/-- C11: `LEGACY_MATCH_ALL` returns the full enumeration. On an initialised
database whose query for the whole store delivers the names `pkgs`, for every
accumulator that satisfies the invariant and every pattern list (the empty
one and any strings), what the caller reads through the pointer returned by
`matchinstalled(LEGACY_MATCH_ALL, patterns, retval)` is exactly `pkgs`, each
name once and in the order of the store; the array holds these names and then
the `NULL` terminator (when the store is empty the pointer itself is `NULL`);
`*retval` is 0; and the one query made is for the whole store, with no
pattern, so that the pattern list has no part in the result. -/
theorem matchinstalled_all_enumeration (db : PkgDb) (acc : Option store)
    (hok : storeOK acc = true) (hinit : db.pkg_initialized = true)
    (pkgs : List (List Char)) (hq : db.query none match_t.MATCH_ALL = some pkgs)
    (patterns : List (List Char)) (retval : Option Int) :
    listOf (matchinstalled db acc legacy_match_t.LEGACY_MATCH_ALL (some patterns) retval).ret
      = pkgs ∧
    (pkgs ≠ [] → ∃ rest,
      (matchinstalled db acc legacy_match_t.LEGACY_MATCH_ALL (some patterns) retval).ret
        = some (pkgs.map Slot.str ++ Slot.null :: rest)) ∧
    (pkgs = [] →
      (matchinstalled db acc legacy_match_t.LEGACY_MATCH_ALL (some patterns) retval).ret
        = none) ∧
    (matchinstalled db acc legacy_match_t.LEGACY_MATCH_ALL (some patterns) retval).retval
      = retval.map (fun _ => (0 : Int)) ∧
    (matchinstalled db acc legacy_match_t.LEGACY_MATCH_ALL (some patterns) retval).queries
      = [(none, match_t.MATCH_ALL)] := by
  obtain ⟨st, -, h2, h3, h4, h5⟩ :=
    matchinstalled_holds db acc hok hinit legacy_match_t.LEGACY_MATCH_ALL patterns retval
  have hsel : specSelected db legacy_match_t.LEGACY_MATCH_ALL patterns = pkgs := by
    simp [specSelected, hq]
  rw [hsel] at h2
  obtain ⟨h6, h7, h8⟩ := storeRet_holds st pkgs h2
  rw [h3, h4, h5]
  refine ⟨h6, ?_, h7, rfl, rfl⟩
  intro hne
  obtain ⟨rest, hr, -⟩ := h8 hne
  exact ⟨rest, hr⟩

/-- Witness of C11: the reference database, an accumulator that still holds a
name of an earlier call, and a pattern list with a string that matches no
package. -/
theorem matchinstalled_all_enumeration_witness :
    storeOK (some ⟨2, 1, some [Slot.str "old".toList, Slot.null]⟩) = true ∧
    dbRef.pkg_initialized = true ∧
    dbRef.query none match_t.MATCH_ALL = some installedRef ∧
    listOf (matchinstalled dbRef (some ⟨2, 1, some [Slot.str "old".toList, Slot.null]⟩)
      legacy_match_t.LEGACY_MATCH_ALL (some ["zzz".toList]) (some 7)).ret
      = ["P1".toList, "P2".toList, "P3".toList, "P4".toList] :=
  ⟨by decide, rfl, rfl,
    (matchinstalled_all_enumeration dbRef (some ⟨2, 1, some [Slot.str "old".toList, Slot.null]⟩)
      (by decide) rfl installedRef rfl ["zzz".toList] (some 7)).1⟩

/-- C14: the order of the results of `matchinstalled` for the kinds
`LEGACY_MATCH_EXACT`, `LEGACY_MATCH_GLOB`, `LEGACY_MATCH_REGEX` and
`LEGACY_MATCH_EREGEX`. For every non-NULL pattern list there is one kind `m`
of the store (the regex kind for both regex kinds) such that the queries made
are `(p, m)` for the patterns `p` in their order, and what the caller reads
through the pointer returned is the concatenation, in that order, of the names
each query delivers, each in the order of the store; a query that yields no
iterator adds nothing, and nothing is removed when several patterns select the
same package. When the pointer is not `NULL` the array holds these names and
then the `NULL` terminator. -/
theorem matchinstalled_pattern_order (db : PkgDb) (acc : Option store)
    (hok : storeOK acc = true) (hinit : db.pkg_initialized = true) (kind : legacy_match_t)
    (hk : kind = legacy_match_t.LEGACY_MATCH_EXACT ∨ kind = legacy_match_t.LEGACY_MATCH_GLOB ∨
      kind = legacy_match_t.LEGACY_MATCH_REGEX ∨ kind = legacy_match_t.LEGACY_MATCH_EREGEX)
    (patterns : List (List Char)) (retval : Option Int) :
    ∃ m : match_t,
      (kind = legacy_match_t.LEGACY_MATCH_EXACT → m = match_t.MATCH_EXACT) ∧
      (kind = legacy_match_t.LEGACY_MATCH_GLOB → m = match_t.MATCH_GLOB) ∧
      (kind = legacy_match_t.LEGACY_MATCH_REGEX → m = match_t.MATCH_REGEX) ∧
      (kind = legacy_match_t.LEGACY_MATCH_EREGEX → m = match_t.MATCH_REGEX) ∧
      (matchinstalled db acc kind (some patterns) retval).queries
        = patterns.map (fun p => (some p, m)) ∧
      listOf (matchinstalled db acc kind (some patterns) retval).ret
        = (patterns.map (fun p => (db.query (some p) m).getD [])).flatten ∧
      (∀ arr, (matchinstalled db acc kind (some patterns) retval).ret = some arr →
        ∃ rest, arr = (listOf (matchinstalled db acc kind (some patterns) retval).ret).map
          Slot.str ++ Slot.null :: rest) := by
  obtain ⟨h1, h2, h3⟩ := matchinstalled_list db acc hok kind (some patterns) retval
  obtain ⟨st, -, -, -, -, h5⟩ := matchinstalled_holds db acc hok hinit kind patterns retval
  have harr : ∀ arr, (matchinstalled db acc kind (some patterns) retval).ret = some arr →
      ∃ rest, arr = (listOf (matchinstalled db acc kind (some patterns) retval).ret).map
        Slot.str ++ Slot.null :: rest := by
    intro arr ha
    obtain ⟨rest, hr, -⟩ := h3 arr ha
    rw [h2]
    exact ⟨rest, hr⟩
  simp only [specList, hinit, if_true] at h2
  rcases hk with hk | hk | hk | hk
  · subst hk
    refine ⟨match_t.MATCH_EXACT, ?_, ?_, ?_, ?_, h5, h2, harr⟩ <;> intro h <;>
      first | rfl | exact legacy_match_t.noConfusion h
  · subst hk
    refine ⟨match_t.MATCH_GLOB, ?_, ?_, ?_, ?_, h5, h2, harr⟩ <;> intro h <;>
      first | rfl | exact legacy_match_t.noConfusion h
  · subst hk
    refine ⟨match_t.MATCH_REGEX, ?_, ?_, ?_, ?_, h5, h2, harr⟩ <;> intro h <;>
      first | rfl | exact legacy_match_t.noConfusion h
  · subst hk
    refine ⟨match_t.MATCH_REGEX, ?_, ?_, ?_, ?_, h5, h2, harr⟩ <;> intro h <;>
      first | rfl | exact legacy_match_t.noConfusion h

/-- Witness of C14: an extended-regex query on the reference database with the
patterns `P`, `(` and `1`: the first selects all four packages, the second
does not compile and yields no iterator, the third selects `P1` again. -/
theorem matchinstalled_pattern_order_witness :
    storeOK none = true ∧ dbRef.pkg_initialized = true ∧
    dbRef.query (some "(".toList) match_t.MATCH_REGEX = none ∧
    (matchinstalled dbRef none legacy_match_t.LEGACY_MATCH_EREGEX
      (some ["P".toList, "(".toList, "1".toList]) none).queries
      = [(some "P".toList, match_t.MATCH_REGEX), (some "(".toList, match_t.MATCH_REGEX),
         (some "1".toList, match_t.MATCH_REGEX)] ∧
    listOf (matchinstalled dbRef none legacy_match_t.LEGACY_MATCH_EREGEX
      (some ["P".toList, "(".toList, "1".toList]) none).ret
      = ["P1".toList, "P2".toList, "P3".toList, "P4".toList, "P1".toList] := by
  obtain ⟨m, -, -, -, hm, hq, hl, -⟩ := matchinstalled_pattern_order dbRef none rfl rfl
    legacy_match_t.LEGACY_MATCH_EREGEX (Or.inr (Or.inr (Or.inr rfl)))
    ["P".toList, "(".toList, "1".toList] none
  have hmr := hm rfl
  subst hmr
  refine ⟨rfl, rfl, by decide, ?_, ?_⟩
  · rw [hq]
    rfl
  · rw [hl]
    decide

/-- C16: the result of a query does not depend on the history of the
accumulator. Let a first call of `matchinstalled` run on any accumulator that
satisfies the invariant, and a second call on the accumulator the first one
left. What the caller reads through the pointer returned is `specList` of the
database, the kind and the patterns of that call, for the first call as for
the second, so that the second call with the kind and patterns of the first
returns the same list in the same order. When the second pointer is not `NULL`
the array holds exactly the names of the second call, then the `NULL`
terminator, and behind it no live string: no entry of the first call can be
reached. And `storecreate` on the accumulator left by the first call sets
`used` to 0, keeps `currlen`, and leaves an array through which no name is
read and in which no string is live. -/
theorem matchinstalled_history_independent (db : PkgDb) (acc : Option store)
    (hok : storeOK acc = true)
    (k1 : legacy_match_t) (p1 : Option (List (List Char))) (rv1 : Option Int)
    (k2 : legacy_match_t) (p2 : Option (List (List Char))) (rv2 : Option Int) :
    listOf (matchinstalled db acc k1 p1 rv1).ret = specList db k1 p1 ∧
    listOf (matchinstalled db (matchinstalled db acc k1 p1 rv1).acc k2 p2 rv2).ret
      = specList db k2 p2 ∧
    (k2 = k1 → p2 = p1 →
      listOf (matchinstalled db (matchinstalled db acc k1 p1 rv1).acc k2 p2 rv2).ret
        = listOf (matchinstalled db acc k1 p1 rv1).ret) ∧
    (∀ arr, (matchinstalled db (matchinstalled db acc k1 p1 rv1).acc k2 p2 rv2).ret = some arr →
      ∃ rest, arr = (specList db k2 p2).map Slot.str ++ Slot.null :: rest ∧
        ∀ x ∈ rest, x.isStr = false) ∧
    (∃ st, storecreate (matchinstalled db acc k1 p1 rv1).acc = some st ∧ st.used = 0 ∧
      (∀ st0, (matchinstalled db acc k1 p1 rv1).acc = some st0 → st.currlen = st0.currlen) ∧
      listOf st.store = [] ∧ ∀ arr, st.store = some arr → ∀ x ∈ arr, x.isStr = false) := by
  obtain ⟨h1, h2, -⟩ := matchinstalled_list db acc hok k1 p1 rv1
  obtain ⟨-, h5, h6⟩ := matchinstalled_list db _ h1 k2 p2 rv2
  obtain ⟨st, hs1, hs2, hs3, -⟩ := storecreate_holds _ h1
  obtain ⟨hu, hl, hn⟩ := holds_empty st hs2
  refine ⟨h2, h5, ?_, h6, st, hs1, hu, hs3, hl, hn⟩
  intro hk hp
  rw [h5, h2, hk, hp]

/-- Witness of C16: on the reference database a glob query that returns four
names is followed by an exact query that returns one. -/
theorem matchinstalled_history_independent_witness :
    storeOK none = true ∧
    listOf (matchinstalled dbRef none legacy_match_t.LEGACY_MATCH_GLOB
      (some ["P*".toList]) none).ret = ["P1".toList, "P2".toList, "P3".toList, "P4".toList] ∧
    listOf (matchinstalled dbRef
      (matchinstalled dbRef none legacy_match_t.LEGACY_MATCH_GLOB (some ["P*".toList]) none).acc
      legacy_match_t.LEGACY_MATCH_EXACT (some ["P2".toList]) none).ret = ["P2".toList] := by
  have h := matchinstalled_history_independent dbRef none rfl
    legacy_match_t.LEGACY_MATCH_GLOB (some ["P*".toList]) none
    legacy_match_t.LEGACY_MATCH_EXACT (some ["P2".toList]) none
  refine ⟨rfl, ?_, ?_⟩
  · rw [h.1]
    decide
  · rw [h.2.1]
    decide

/-- C17: `LEGACY_MATCH_NGLOB` is not supported and fails cleanly. On an
initialised database, for every accumulator that satisfies the invariant and
every pattern list (so for every one that is not empty),
`matchinstalled(LEGACY_MATCH_NGLOB, patterns, retval)` returns `NULL`, makes no query, and leaves an accumulator
that holds nothing (`used` is 0, no name is read through its array, no string
in it is live); in particular no name that the glob query on the same patterns
returns is returned. -/
theorem matchinstalled_nglob_unsupported (db : PkgDb) (acc : Option store)
    (hok : storeOK acc = true) (hinit : db.pkg_initialized = true)
    (patterns : List (List Char)) (retval : Option Int) :
    (matchinstalled db acc legacy_match_t.LEGACY_MATCH_NGLOB (some patterns) retval).ret = none ∧
    (matchinstalled db acc legacy_match_t.LEGACY_MATCH_NGLOB (some patterns) retval).queries
      = [] ∧
    (∃ st, (matchinstalled db acc legacy_match_t.LEGACY_MATCH_NGLOB (some patterns) retval).acc
        = some st ∧ st.used = 0 ∧ listOf st.store = [] ∧
      ∀ arr, st.store = some arr → ∀ x ∈ arr, x.isStr = false) ∧
    (∀ name ∈ listOf
        (matchinstalled db acc legacy_match_t.LEGACY_MATCH_GLOB (some patterns) retval).ret,
      name ∉ listOf
        (matchinstalled db acc legacy_match_t.LEGACY_MATCH_NGLOB (some patterns) retval).ret) := by
  obtain ⟨st, h1, h2, h3, -, h5⟩ :=
    matchinstalled_holds db acc hok hinit legacy_match_t.LEGACY_MATCH_NGLOB patterns retval
  have hsel : specSelected db legacy_match_t.LEGACY_MATCH_NGLOB patterns = [] := rfl
  rw [hsel] at h2
  have hr := storeRet_empty st h2
  obtain ⟨hu, hl, hn⟩ := holds_empty st h2
  rw [h3, hr, h5, h1]
  refine ⟨rfl, rfl, ⟨st, rfl, hu, hl, hn⟩, ?_⟩
  intro name _ hmem
  simp [listOf] at hmem

/-- Witness of C17: on the reference database the pattern `P*` selects all
four packages under `LEGACY_MATCH_GLOB`; under `LEGACY_MATCH_NGLOB` the call
returns `NULL` and makes no query. -/
theorem matchinstalled_nglob_unsupported_witness :
    storeOK none = true ∧ dbRef.pkg_initialized = true ∧
    listOf (matchinstalled dbRef none legacy_match_t.LEGACY_MATCH_GLOB
      (some ["P*".toList]) (some 7)).ret = ["P1".toList, "P2".toList, "P3".toList, "P4".toList] ∧
    (matchinstalled dbRef none legacy_match_t.LEGACY_MATCH_NGLOB
      (some ["P*".toList]) (some 7)).ret = none ∧
    (matchinstalled dbRef none legacy_match_t.LEGACY_MATCH_NGLOB
      (some ["P*".toList]) (some 7)).queries = [] :=
  ⟨rfl, rfl, by decide,
    (matchinstalled_nglob_unsupported dbRef none rfl rfl ["P*".toList] (some 7)).1,
    (matchinstalled_nglob_unsupported dbRef none rfl rfl ["P*".toList] (some 7)).2.1⟩

/-! ## matchinstalled: where the code leaves its documentation -/

/-- C12, the behaviour of the code: with `patterns == NULL` the call
`matchinstalled(LEGACY_MATCH_ALL, NULL, retval)` returns `NULL` and makes no
query, whatever the database holds and whatever the accumulator was: both
branches of the function ask for `patterns != NULL`. On the reference
database, with four packages, it returns `NULL` with `*retval` 0, while the
same call with an empty pattern list returns the four names. -/
theorem matchinstalled_all_null_patterns :
    (∀ (db : PkgDb) (acc : Option store) (retval : Option Int),
      (matchinstalled db acc legacy_match_t.LEGACY_MATCH_ALL none retval).ret = none ∧
      (matchinstalled db acc legacy_match_t.LEGACY_MATCH_ALL none retval).queries = []) ∧
    dbRef.query none match_t.MATCH_ALL = some installedRef ∧
    (matchinstalled dbRef none legacy_match_t.LEGACY_MATCH_ALL none (some 7)).ret = none ∧
    (matchinstalled dbRef none legacy_match_t.LEGACY_MATCH_ALL none (some 7)).retval = some 0 ∧
    listOf (matchinstalled dbRef none legacy_match_t.LEGACY_MATCH_ALL (some []) (some 7)).ret
      = ["P1".toList, "P2".toList, "P3".toList, "P4".toList] := by
  refine ⟨?_, rfl, by decide, by decide, by decide⟩
  intro db acc retval
  obtain ⟨st, hst, hu⟩ := storecreate_used acc
  cases hi : db.pkg_initialized <;> simp [matchinstalled, hi, hst, storeRet, hu]

/-- C13, the behaviour of the code: `matchallbyorigin` returns `NULL` for every
list of origin patterns, every database and every recording of origins,
because its call `matchinstalled(LEGACY_MATCH_ALL, NULL, retval)` returns
`NULL` (the defect of C12). For the origin patterns `net/*` and `www/*` on the
reference database it returns `NULL` with `*retval` 0. The second loop of the
function, run on the installed names of that database with their recorded
origins, gives the lists `[P1]` and `[P2]`. -/
theorem matchallbyorigin_returns_null :
    (∀ (fn : Fnmatch) (db : PkgDb) (origin_of : List Char → Option (List Char))
        (acc : Option store) (origins : List (List Char)) (retval : Option Int),
      (matchallbyorigin fn db origin_of acc origins retval).ret = none) ∧
    (matchallbyorigin fnmatchRef dbRef originRef none ["net/*".toList, "www/*".toList]
      (some 7)).ret = none ∧
    (matchallbyorigin fnmatchRef dbRef originRef none ["net/*".toList, "www/*".toList]
      (some 7)).retval = some 0 ∧
    (["net/*".toList, "www/*".toList].map
        (originMatches fnmatchRef (installedRef.map (fun name => (name, originRef name))))).map
      listOf = [["P1".toList], ["P2".toList]] := by
  refine ⟨?_, by decide, by decide, by decide⟩
  intro fn db origin_of acc origins retval
  obtain ⟨st, hst, hu⟩ := storecreate_used acc
  cases hi : db.pkg_initialized <;>
    simp [matchallbyorigin, matchinstalled, hi, hst, storeRet, hu]

/-- C15, the behaviour of the code: `*retval` is 0 after every call of
`matchinstalled` on an initialised database (and untouched on one that is not
initialised), also when `pkgdb_query` returns `NULL`. On a database that
cannot be queried, `LEGACY_MATCH_ALL` returns `NULL` with `*retval` 0; on the
reference database the extended regex `(`, for which the query yields no
iterator, returns `NULL` with `*retval` 0, exactly as the exact pattern
`nosuch`, whose query succeeds and selects nothing. -/
theorem matchinstalled_query_failure_retval :
    (∀ (db : PkgDb) (acc : Option store) (kind : legacy_match_t)
        (patterns : Option (List (List Char))) (rv : Int),
      (matchinstalled db acc kind patterns (some rv)).retval
        = some (if db.pkg_initialized then 0 else rv)) ∧
    dbDown.query none match_t.MATCH_ALL = none ∧
    (matchinstalled dbDown none legacy_match_t.LEGACY_MATCH_ALL (some []) (some 7)).ret = none ∧
    (matchinstalled dbDown none legacy_match_t.LEGACY_MATCH_ALL (some []) (some 7)).retval
      = some 0 ∧
    dbRef.query (some "(".toList) match_t.MATCH_REGEX = none ∧
    (matchinstalled dbRef none legacy_match_t.LEGACY_MATCH_EREGEX (some ["(".toList])
      (some 7)).ret = none ∧
    (matchinstalled dbRef none legacy_match_t.LEGACY_MATCH_EREGEX (some ["(".toList])
      (some 7)).retval = some 0 ∧
    dbRef.query (some "nosuch".toList) match_t.MATCH_EXACT = some [] ∧
    (matchinstalled dbRef none legacy_match_t.LEGACY_MATCH_EXACT (some ["nosuch".toList])
      (some 7)).ret = none ∧
    (matchinstalled dbRef none legacy_match_t.LEGACY_MATCH_EXACT (some ["nosuch".toList])
      (some 7)).retval = some 0 := by
  refine ⟨?_, rfl, by decide, by decide, by decide, by decide, by decide, by decide, by decide,
    by decide⟩
  intro db acc kind patterns rv
  obtain ⟨st, hst, -⟩ := storecreate_used acc
  cases hi : db.pkg_initialized
  · simp [matchinstalled, hi]
  · simp only [matchinstalled, hi, hst]
    cases patterns with
    | none => simp
    | some ps =>
      simp only
      by_cases hk : kind = legacy_match_t.LEGACY_MATCH_ALL
      · rw [if_pos hk]
        cases db.query none match_t.MATCH_ALL <;> simp
      · rw [if_neg hk]
        rcases hl : matchLoop db kind ps st [] with ⟨b, st1, qs⟩
        cases b <;> simp

end PkgInstall
